import Mathlib

/-!
# SubScribe: transcript reconstruction and chapter merge

A shallow embedding of `internal/subtitles` (and of `pkg/model`, `internal/fsutil`,
`findRawTags` of `internal/obsidian`) of the SubScribe repository, with the properties of
the merge engine, of the two segmenters and of the text outputs of a transcript.

Conventions of the embedding.

* A Go `string` is a `List Char`: the list of its runes. That is valid UTF-8, so the
  branches that drop an invalid byte never fire there. The loop of
  `splitSegOffsetsString` is also given on the bytes of the string (`loopStep`), with
  the decoder as a parameter, where these branches do fire.
* The tables of the Go library (case mappings and Unicode classes above ASCII,
  `html.UnescapeString`, the UTF-8 decoder) are parameters of the functions that use
  them; on ASCII the mappings are written out.
* `int64` values are `Int`; every operation that can leave the 64-bit range is
  wrapped with `wrap64`. Lengths, indices into slices and the `order` key are
  bounded by slice lengths and are `Nat` (or `Int` where the code returns `-1`).
* A `strings.Builder` that is only appended to is the list it holds.
* `sort.SliceStable` is the stable insertion sort `sortStable`; under the
  comparators used here (strict weak orders) the result of a stable sort is unique.
  `sort.Slice` is modelled by the same function: Go runs an insertion sort on
  slices of at most 12 elements and hands back an ordered slice untouched at any
  length; the order it gives to equal keys in a longer unordered slice is not
  fixed by the library. Where a statement depends on that order, the functions
  are taken with `sort.Slice` as a parameter (`ensureSortedPhrasesWith`,
  `sortChaptersWith`, `transcriptWithChaptersSplitWith`, `PlainWith`), of which
  the functions without the suffix are the instances at `sortStable`.
-/

namespace Subtitles

/-! ## Machine integers -/

/-- Two-complement wrap of an integer into the `int64` range. -/
def wrap64 (x : Int) : Int := (x + 9223372036854775808) % 18446744073709551616 - 9223372036854775808

/-- Membership in the `int64` range. -/
def isInt64 (x : Int) : Prop := -9223372036854775808 ≤ x ∧ x ≤ 9223372036854775807

instance (x : Int) : Decidable (isInt64 x) := by unfold isInt64; infer_instance

/-! ## Strings -/

/-- Go `unicode.IsSpace`. -/
def isSpace (c : Char) : Bool :=
  let n := c.toNat
  (9 ≤ n && n ≤ 13) || n == 32 || n == 133 || n == 160 || n == 5760 ||
  (8192 ≤ n && n ≤ 8202) || n == 8232 || n == 8233 || n == 8239 || n == 8287 || n == 12288

/-- Drop the longest suffix whose runes satisfy `p`. -/
def dropRightWhile (p : Char → Bool) (s : List Char) : List Char :=
  (s.reverse.dropWhile p).reverse

/-- Go `strings.TrimSpace`. -/
def TrimSpace (s : List Char) : List Char :=
  dropRightWhile isSpace (s.dropWhile isSpace)

/-- Go `strings.TrimLeft(s, cutset)`. -/
def TrimLeft (s cutset : List Char) : List Char :=
  s.dropWhile (fun c => decide (c ∈ cutset))

/-- Go `strings.TrimRight(s, cutset)`. -/
def TrimRight (s cutset : List Char) : List Char :=
  dropRightWhile (fun c => decide (c ∈ cutset)) s

/-- Go `strings.Join`. -/
def Join (parts : List (List Char)) (sep : List Char) : List Char :=
  match parts with
  | [] => []
  | [p] => p
  | p :: q :: rest => p ++ sep ++ Join (q :: rest) sep

/-- Worker of `Fields`: `cur` is the field being read, in reverse. -/
def fieldsAux (cur : List Char) : List Char → List (List Char)
  | [] => if cur.isEmpty then [] else [cur.reverse]
  | c :: rest =>
    if isSpace c then
      (if cur.isEmpty then fieldsAux [] rest else cur.reverse :: fieldsAux [] rest)
    else fieldsAux (c :: cur) rest

/-- Go `strings.Fields`: the maximal runs of non-space runes. -/
def Fields (s : List Char) : List (List Char) := fieldsAux [] s

/-! ## Sorting -/

/-- Insert `a` into an ordered list, after every element that is not greater. -/
def insertOrdered {α : Type} (less : α → α → Bool) (a : α) : List α → List α
  | [] => [a]
  | b :: l => if less b a then b :: insertOrdered less a l else a :: b :: l

/-- Stable insertion sort (`sort.SliceStable`; see the header for `sort.Slice`). -/
def sortStable {α : Type} (less : α → α → Bool) : List α → List α
  | [] => []
  | a :: l => insertOrdered less a (sortStable less l)

/-- Go `sort.SliceIsSorted`: no element is less than its predecessor. -/
def sliceIsSorted {α : Type} (less : α → α → Bool) : List α → Bool
  | [] => true
  | [_] => true
  | a :: b :: l => !less b a && sliceIsSorted less (b :: l)

/-! ## Data model (`types.go`, `pkg/model`) -/

/-- `subtitles.Phrase`. -/
structure Phrase where
  TimestampMs : Int
  Text : List Char
  RuneCount : Nat
  WordCount : Nat
deriving DecidableEq, Repr

/-- `model.Chapter`; `Start` is a `model.Seconds`. -/
structure Chapter where
  Start : Int
  Title : List Char
deriving DecidableEq, Repr

/-- `subtitles.Transcript` (the track metadata plays no part in rendering). -/
structure Transcript where
  Title : List Char
  Phrases : List Phrase
  Chapters : List Chapter
deriving DecidableEq, Repr

/-- `Seconds.Milliseconds`: `int64(s) * 1000`. -/
def Milliseconds (s : Int) : Int := wrap64 (s * 1000)

/-- The `event` of `merge_chapters.go`. -/
structure event where
  ts : Int
  isChapter : Bool
  text : List Char
  order : Nat
deriving DecidableEq, Repr

/-- `OutputTextLayout`. -/
inductive OutputTextLayout where
  | asPlain
  | asCollapsed
deriving DecidableEq, Repr

/-! ## Merge engine (`merge_chapters.go`) -/

/-- `absInt64`. -/
def absInt64 (x : Int) : Int := if x < 0 then wrap64 (-x) else x

/-- The comparator of `ensureSortedPhrases`. -/
def phraseLess (p q : Phrase) : Bool := decide (p.TimestampMs < q.TimestampMs)

/-- `ensureSortedPhrases`, returning the slice it leaves behind. -/
def ensureSortedPhrases (phrases : List Phrase) : List Phrase :=
  if phrases.length ≤ 1 then phrases
  else if sliceIsSorted phraseLess phrases then phrases
  else sortStable phraseLess phrases

/-- The comparator of `sortChapters`. -/
def chapterLess (c d : Chapter) : Bool := decide (Milliseconds c.Start < Milliseconds d.Start)

/-- `sortChapters`, returning the slice it leaves behind. -/
def sortChapters (chaps : List Chapter) : List Chapter :=
  if chaps.length ≤ 1 then chaps else sortStable chapterLess chaps

/-- `splitChapters`: before / middle / after, each in input order. -/
def splitChapters (chaps : List Chapter) (firstPhraseTs lastPhraseTs : Int) :
    List Chapter × List Chapter × List Chapter :=
  match chaps with
  | [] => ([], [], [])
  | c :: rest =>
    let r := splitChapters rest firstPhraseTs lastPhraseTs
    let ts := Milliseconds c.Start
    if ts ≤ firstPhraseTs then (c :: r.1, r.2.1, r.2.2)
    else if ts > lastPhraseTs then (r.1, r.2.1, c :: r.2.2)
    else (r.1, c :: r.2.1, r.2.2)

/-- The sentinel `maxInt64` of `nearestPhraseIndex` (`1<<62 - 1`). -/
def maxInt64 : Int := 4611686018427387903

/-- The comparison closure handed to `slices.BinarySearchFunc`. -/
def cmpPhrase (p : Phrase) (key : Int) : Int :=
  if p.TimestampMs < key then -1 else if p.TimestampMs > key then 1 else 0

/-- The loop of `slices.BinarySearchFunc` on the window `[i, j)`; `fuel` bounds the
number of halvings. -/
def binarySearchLoop (phrases : List Phrase) (key : Int) : Nat → Nat → Nat → Nat
  | 0, i, _ => i
  | fuel + 1, i, j =>
    if i < j then
      let h := (i + j) / 2
      match phrases[h]? with
      | some p =>
        if cmpPhrase p key < 0 then binarySearchLoop phrases key fuel (h + 1) j
        else binarySearchLoop phrases key fuel i h
      | none => i
    else i

/-- `slices.BinarySearchFunc(phrases, key, cmp)`: insertion point and whether the key
is there. -/
def binarySearchFunc (phrases : List Phrase) (key : Int) : Nat × Bool :=
  let n := phrases.length
  let i := binarySearchLoop phrases key n 0 n
  match phrases[i]? with
  | some p => (i, decide (cmpPhrase p key = 0))
  | none => (i, false)

/-- `nearestPhraseIndex`: index of the nearest phrase and its distance. -/
def nearestPhraseIndex (phrases : List Phrase) (chTs : Int) : Int × Int :=
  let n := phrases.length
  if n = 0 then (-1, maxInt64)
  else
    let r := binarySearchFunc phrases chTs
    let idx := r.1
    if r.2 then ((idx : Int), 0)
    else
      let s0 : Int × Int := (-1, maxInt64)
      let s1 : Int × Int :=
        match (if idx < n then phrases[idx]? else none) with
        | some p =>
          let d := absInt64 (wrap64 (p.TimestampMs - chTs))
          if d < s0.2 then ((idx : Int), d) else s0
        | none => s0
      let s2 : Int × Int :=
        match (if 1 ≤ idx then phrases[idx - 1]? else none) with
        | some p =>
          let d := absInt64 (wrap64 (chTs - p.TimestampMs))
          if d < s1.2 then ((idx : Int) - 1, d) else s1
        | none => s1
      s2

/-- The timestamp `adjustMiddleChapters` gives to one chapter. -/
def adjustedTs (ch : Chapter) (phrases : List Phrase) (thresholdMs : Int) : Int :=
  let chMs := Milliseconds ch.Start
  let r := nearestPhraseIndex phrases chMs
  if 0 ≤ r.1 ∧ (thresholdMs = 0 ∨ r.2 ≤ thresholdMs) then
    match phrases[r.1.toNat]? with
    | some p => if p.TimestampMs > 0 then p.TimestampMs - 1 else 0
    | none => chMs
  else chMs

/-- `adjustMiddleChapters`: the i-th chapter gets order `baseOrder + i`. -/
def adjustMiddleChapters (middle : List Chapter) (phrases : List Phrase) (thresholdMs : Int)
    (baseOrder : Nat) : List event :=
  match middle with
  | [] => []
  | ch :: rest =>
    { ts := adjustedTs ch phrases thresholdMs, isChapter := true, text := ch.Title,
      order := baseOrder } ::
      adjustMiddleChapters rest phrases thresholdMs (baseOrder + 1)

/-- `buildEventsFromPhrases`: the i-th phrase gets order `baseOrder + i`. -/
def buildEventsFromPhrases (phrases : List Phrase) (baseOrder : Nat) : List event :=
  match phrases with
  | [] => []
  | p :: rest =>
    { ts := p.TimestampMs, isChapter := false, text := p.Text, order := baseOrder } ::
      buildEventsFromPhrases rest (baseOrder + 1)

/-- Chapters kept at their own timestamp (the `before` and `after` loops of
`transcriptWithChaptersSplit`). -/
def chapterEvents (chaps : List Chapter) (baseOrder : Nat) : List event :=
  match chaps with
  | [] => []
  | c :: rest =>
    { ts := Milliseconds c.Start, isChapter := true, text := c.Title, order := baseOrder } ::
      chapterEvents rest (baseOrder + 1)

/-- The comparator of the stable sort in `mergeAndRender`. -/
def eventLess (a b : event) : Bool :=
  if a.ts ≠ b.ts then decide (a.ts < b.ts)
  else if a.isChapter ≠ b.isChapter then a.isChapter
  else decide (a.order < b.order)

/-- Separator between two phrases of one content run. -/
def phraseSep : OutputTextLayout → List Char
  | .asCollapsed => [' ']
  | .asPlain => ['\n']

/-- Separator written before and after a chapter line. -/
def chapterSep : OutputTextLayout → List Char
  | .asCollapsed => ['\n']
  | .asPlain => ['\n', '\n']

/-- The render loop of `mergeAndRender`: what the builder receives for the events
left, `inContent` telling whether a content run is open. -/
def renderLoop (request : OutputTextLayout) (inContent : Bool) : List event → List Char
  | [] => []
  | e :: rest =>
    if e.isChapter then
      let title := TrimSpace (TrimLeft e.text ['#', ' '])
      (if inContent then chapterSep request else []) ++ ['#', '#', ' '] ++ title ++
        chapterSep request ++ renderLoop request false rest
    else
      let text := TrimSpace e.text
      if text.isEmpty then renderLoop request inContent rest
      else if !inContent then text ++ renderLoop request true rest
      else phraseSep request ++ text ++ renderLoop request true rest

/-- `mergeAndRender`. -/
def mergeAndRender (ev : List event) (request : OutputTextLayout) : List Char :=
  TrimRight (renderLoop request false (sortStable eventLess ev)) [' ', '\t', '\n', '\r'] ++ ['\n']

/-- The event list `transcriptWithChaptersSplit` builds from ordered phrases and
chapters, before the merge sort. -/
def buildEvents (phrases : List Phrase) (chaps : List Chapter) (thresholdMs : Int) : List event :=
  let firstTs := (phrases.head?.map Phrase.TimestampMs).getD 0
  let lastTs := (phrases.getLast?.map Phrase.TimestampMs).getD 0
  let s := splitChapters chaps firstTs lastTs
  let before := s.1
  let middle := s.2.1
  let after := s.2.2
  let baseOrderPhrases := before.length
  let baseOrderMiddle := baseOrderPhrases + phrases.length
  let baseOrderAfter := baseOrderMiddle + middle.length
  chapterEvents before 0 ++ buildEventsFromPhrases phrases baseOrderPhrases ++
    adjustMiddleChapters middle phrases thresholdMs baseOrderMiddle ++
    chapterEvents after baseOrderAfter

/-- `Transcript.transcriptWithChaptersSplit`. -/
def transcriptWithChaptersSplit (t : Transcript) (thresholdMs : Int)
    (request : OutputTextLayout) : List Char :=
  let phrases := ensureSortedPhrases t.Phrases
  let chaps := sortChapters t.Chapters
  if phrases.length = 0 then (chaps.map Chapter.Title).flatten
  else mergeAndRender (buildEvents phrases chaps thresholdMs) request

/-! ## Raw caption model (`raw_types.go`) -/

/-- `rawSeg`. -/
structure rawSeg where
  Utf8 : List Char
  TOffsetMs : Option Int
deriving DecidableEq, Repr

/-- `rawEvent`. -/
structure rawEvent where
  TStartMs : Option Int
  DDurationMs : Option Int
  AAppend : Option Int
  Segs : List rawSeg
deriving DecidableEq, Repr

/-- `rawJSON3`. -/
structure rawJSON3 where
  WireMagic : List Char
  Events : List rawEvent
deriving DecidableEq, Repr

/-- The backslash rune. -/
def backslash : Char := Char.ofNat 92

/-- Go `strings.ReplaceAll(s, "\\n", [r])`: each backslash followed by `n` becomes `r`,
left to right. -/
def replaceEscapedNewline (r : Char) : List Char → List Char
  | [] => []
  | [c] => [c]
  | c :: d :: rest =>
    if c = backslash ∧ d = 'n' then r :: replaceEscapedNewline r rest
    else c :: replaceEscapedNewline r (d :: rest)

/-- `rawEvent.IsNewlineOnly`. -/
def IsNewlineOnly (e : rawEvent) : Bool :=
  if e.Segs.length = 0 then false
  else e.Segs.all (fun s =>
    let t := TrimSpace s.Utf8
    t.isEmpty || t == ['\n'] || t == [backslash, 'n'])

/-! ## Helpers (`transform_helpers.go`) -/

/-- `calculateAbsTime`. -/
def calculateAbsTime (ev : rawEvent) (seg : rawSeg) : Int :=
  let base := ev.TStartMs.getD 0
  match seg.TOffsetMs with
  | some off => wrap64 (base + off)
  | none => base

/-- `isSentenceTerminatorRune`. -/
def isSentenceTerminatorRune (r : Char) : Bool := r == '.' || r == '!' || r == '?'

/-- `isCloserRune`: straight and curly closing quotes, closing brackets, `»`. -/
def isCloserRune (r : Char) : Bool :=
  let n := r.toNat
  n == 34 || n == 39 || n == 8221 || n == 8217 || n == 41 || n == 93 || n == 125 || n == 187

/-- The loop of `trimTrailingClosers`, on the reversed string: trailing spaces and
closers are removed until another rune ends the string. -/
def trimTrailingClosersRev : List Char → List Char
  | [] => []
  | r :: rest =>
    if isSpace r then trimTrailingClosersRev rest
    else if isCloserRune r then trimTrailingClosersRev rest
    else r :: rest

/-- `trimTrailingClosers`. -/
def trimTrailingClosers (s : List Char) : List Char := (trimTrailingClosersRev s.reverse).reverse

/-- `lastNonSpaceRune`. -/
def lastNonSpaceRune (s : List Char) : Option Char := (s.reverse.dropWhile isSpace).head?

/-- `normalizeWhitespace`. -/
def normalizeWhitespace (s : List Char) : List Char := TrimSpace (Join (Fields s) [' '])

/-! ## Manual subtitles (`transform_manual.go`) -/

/-- `SplitPiece`. -/
structure SplitPiece where
  Text : List Char
  EndRune : Nat
  EndWithTerminator : Bool
deriving DecidableEq, Repr

/-- The class `\s` of Go regular expressions: tab, line feed, form feed, carriage
return, space. -/
def isReSpace (c : Char) : Bool :=
  let n := c.toNat
  n == 9 || n == 10 || n == 12 || n == 13 || n == 32

/-- `reMultiSpace.ReplaceAllString(s, " ")`: each maximal run of `\s` becomes one space;
`inRun` tells that the previous rune was in such a run. -/
def collapseSpaces (inRun : Bool) : List Char → List Char
  | [] => []
  | c :: rest =>
    if isReSpace c then
      (if inRun then collapseSpaces true rest else ' ' :: collapseSpaces true rest)
    else c :: collapseSpaces false rest

/-- `cleanSeg`. -/
def cleanSeg (s : List Char) : List Char :=
  let s1 := replaceEscapedNewline ' ' s
  let s2 := s1.map (fun c => if c = '\n' then ' ' else c)
  TrimSpace (collapseSpaces false s2)

/-- `EventText`. -/
def EventText (ev : rawEvent) : List Char :=
  Join ((ev.Segs.map (fun seg => cleanSeg seg.Utf8)).filter (fun txt => !txt.isEmpty)) [' ']

/-- The variables of `splitSegOffsetsString`. -/
structure SplitState where
  out : List SplitPiece
  sb : List Char
  terminatorBuf : List Char
  candidat : Bool
  runeIndex : Nat
deriving DecidableEq, Repr

/-- The piece `splitSegOffsetsString` appends when the text is not blank. -/
def emitPiece (out : List SplitPiece) (combined : List Char) (endRune : Nat)
    (endWithTerminator : Bool) : List SplitPiece :=
  let text := normalizeWhitespace combined
  if TrimSpace text ≠ [] then out ++ [⟨text, endRune, endWithTerminator⟩] else out

/-- The main loop of `splitSegOffsetsString` over the runes left. `skip` is the number
of runes the inner space-consuming loop has already passed (`idx = j`): they are
stepped over without any effect. The false-positive branch, which re-reads the current
rune with `candidat` cleared, is followed by the ordinary-rune branch it leads to. -/
def splitLoop (skip : Nat) (st : SplitState) : List Char → SplitState
  | [] => st
  | r :: rest =>
    match skip with
    | k + 1 => splitLoop k st rest
    | 0 =>
      if st.candidat then
        if isSentenceTerminatorRune r || isCloserRune r then
          splitLoop 0 { st with terminatorBuf := st.terminatorBuf ++ [r],
                                runeIndex := st.runeIndex + 1 } rest
        else if isSpace r then
          let spaceCount := ((r :: rest).takeWhile isSpace).length
          let runeIndex := st.runeIndex + spaceCount
          let out := emitPiece st.out (st.sb ++ st.terminatorBuf) runeIndex
            (decide (st.terminatorBuf.length > 0))
          splitLoop (spaceCount - 1)
            { out := out, sb := [], terminatorBuf := [], candidat := false,
              runeIndex := runeIndex } rest
        else
          splitLoop 0 { st with sb := st.sb ++ st.terminatorBuf ++ [r], terminatorBuf := [],
                                candidat := false, runeIndex := st.runeIndex + 1 } rest
      else if isSentenceTerminatorRune r then
        splitLoop 0 { st with terminatorBuf := st.terminatorBuf ++ [r],
                              runeIndex := st.runeIndex + 1, candidat := true } rest
      else
        splitLoop 0 { st with sb := st.sb ++ [r], runeIndex := st.runeIndex + 1 } rest

/-- The final flush of `splitSegOffsetsString`. -/
def splitFlush (st : SplitState) : List SplitPiece :=
  if st.candidat ∧ st.terminatorBuf.length > 0 then
    emitPiece st.out (st.sb ++ st.terminatorBuf) st.runeIndex true
  else if st.sb.length > 0 then
    emitPiece st.out st.sb st.runeIndex false
  else st.out

/-- `splitSegOffsetsString`. -/
def splitSegOffsetsString (s : List Char) : List SplitPiece :=
  if s = [] then []
  else splitFlush (splitLoop 0 ⟨[], [], [], false, 0⟩ s)

/-! ### `float64` arithmetic

The interpolation of `TransformManualRawToPhrases` runs on `float64`. The values met
there are non-negative and far from the subnormal and overflow ranges, so a value is
`m * 2^e` with `m < 2^53` and each operation is the exact result rounded to the nearest
such value, ties to the even significand (IEEE 754). -/

/-- A non-negative `float64`: `m * 2^e`. -/
structure F64 where
  m : Nat
  e : Int
deriving DecidableEq, Repr

/-- Worker of `bitLength`. -/
def bitLengthAux : Nat → Nat → Nat
  | 0, _ => 0
  | fuel + 1, n => if n = 0 then 0 else bitLengthAux fuel (n / 2) + 1

/-- Number of binary digits of `n`. -/
def bitLength (n : Nat) : Nat := bitLengthAux n n

/-- Round `(m + f) * 2^e` to 53 significant bits, where `0 ≤ f < 1` and `sticky` tells
whether `f` is not zero; a value of at most 53 bits is exact (every use has `sticky`
false there). -/
def roundBits (m : Nat) (sticky : Bool) (e : Int) : F64 :=
  let n := bitLength m
  if n ≤ 53 then ⟨m, e⟩
  else
    let k := n - 53
    let q := m / 2 ^ k
    let r := m % 2 ^ k
    let half := 2 ^ (k - 1)
    let up := decide (r > half) || (decide (r = half) && (sticky || decide (q % 2 = 1)))
    ⟨if up then q + 1 else q, e + (k : Int)⟩

/-- Conversion `float64(n)` of a non-negative integer. -/
def F64.ofNat (n : Nat) : F64 := roundBits n false 0

/-- Product of two `float64`. -/
def F64.mul (a b : F64) : F64 := roundBits (a.m * b.m) false (a.e + b.e)

/-- Quotient of two `float64`, the divisor not zero: the dividend is shifted left far
enough for the integer quotient to hold more than 53 bits, the remainder is the sticky
bit. -/
def F64.div (a b : F64) : F64 :=
  let s := 64 + bitLength b.m
  let n := a.m * 2 ^ s
  roundBits (n / b.m) (decide (n % b.m ≠ 0)) (a.e - b.e - (s : Int))

/-- Go `math.Round` of a non-negative `float64`, as an integer: the nearest integer, a
half rounded up. -/
def F64.round (a : F64) : Nat :=
  match a.e with
  | Int.ofNat k => a.m * 2 ^ k
  | Int.negSucc k =>
    let d := 2 ^ (k + 1)
    if 2 * (a.m % d) ≥ d then a.m / d + 1 else a.m / d

/-- Conversion `int64(f)` of a non-negative integral `float64`; out of range the result
is the one of amd64, the least `int64`. -/
def int64OfFloat (n : Nat) : Int :=
  if (n : Int) ≤ 9223372036854775807 then (n : Int) else -9223372036854775808

/-- The term `int64(math.Round(perRuneMs * float64(startRuneInEvent)))`, with `perRuneMs`
computed from the event duration and the rune count as the code does. -/
def pieceOffsetMs (evDur : Int) (runesInEvent startRuneInEvent : Nat) : Int :=
  let perRuneMs : F64 :=
    if runesInEvent > 0 ∧ evDur > 0 then F64.div (F64.ofNat evDur.toNat) (F64.ofNat runesInEvent)
    else ⟨0, 0⟩
  int64OfFloat (F64.round (F64.mul perRuneMs (F64.ofNat startRuneInEvent)))

/-- The variables of `TransformManualRawToPhrases`. -/
structure ManualState where
  out : List Phrase
  currBuilder : List Char
  currStartMs : Int
deriving DecidableEq, Repr

/-- The body of the loop over the pieces of one event; `prevEnd` is threaded along. -/
def manualPieces (evStart evDur : Int) (runesInEvent : Nat) :
    Nat → ManualState → List SplitPiece → ManualState
  | _, st, [] => st
  | prevEnd, st, p :: rest =>
    let pieceStartMs := wrap64 (evStart + pieceOffsetMs evDur runesInEvent prevEnd)
    let currStartMs := if st.currBuilder.length = 0 then pieceStartMs else st.currStartMs
    let builder :=
      (if st.currBuilder.length > 0 then st.currBuilder ++ [' '] else st.currBuilder) ++ p.Text
    let st1 : ManualState :=
      if p.EndWithTerminator then
        let text := normalizeWhitespace builder
        { out := if TrimSpace text ≠ [] then
                   st.out ++ [⟨currStartMs, text, text.length, (Fields text).length⟩]
                 else st.out,
          currBuilder := [], currStartMs := -1 }
      else { out := st.out, currBuilder := builder, currStartMs := currStartMs }
    manualPieces evStart evDur runesInEvent p.EndRune st1 rest

/-- The body of the loop over the events. -/
def manualEvent (st : ManualState) (ev : rawEvent) : ManualState :=
  let evStart := ev.TStartMs.getD 0
  let evDur := ev.DDurationMs.getD 0
  let evText := EventText ev
  if TrimSpace evText = [] then st
  else
    let pieces0 := splitSegOffsetsString evText
    let pieces :=
      if pieces0.length = 0 then [⟨normalizeWhitespace evText, evText.length, false⟩]
      else pieces0
    manualPieces evStart evDur evText.length 0 st pieces

/-- The final flush of `TransformManualRawToPhrases`. -/
def manualFlush (st : ManualState) : List Phrase :=
  if TrimSpace st.currBuilder ≠ [] then
    let currStartMs := if st.currStartMs = -1 then 0 else st.currStartMs
    let text := normalizeWhitespace st.currBuilder
    st.out ++ [⟨currStartMs, text, text.length, (Fields text).length⟩]
  else st.out

/-- `TransformManualRawToPhrases` (the error it returns is always nil). -/
def TransformManualRawToPhrases (raw : rawJSON3) : List Phrase :=
  manualFlush (raw.Events.foldl manualEvent ⟨[], [], -1⟩)

/-! ## Automatic captions (`transform_auto.go`) -/

/-- `pauseThresholdMs`. -/
def pauseThresholdMs : Int := 2000

/-- `maxWordsPerPhrase`. -/
def maxWordsPerPhrase : Nat := 100

/-- The variables of `TransformAutoRawToPhrases`. -/
structure AutoState where
  phrases : List Phrase
  currentSb : List Char
  currentStartMs : Int
  lastWordTs : Int
deriving DecidableEq, Repr

/-- The closure `commit`. -/
def commit (st : AutoState) : AutoState :=
  let txt := TrimSpace st.currentSb
  if txt = [] then { st with currentSb := [], currentStartMs := -1 }
  else
    let ts := if st.currentStartMs ≥ 0 then st.currentStartMs else st.lastWordTs
    let p : Phrase := ⟨ts, txt, (TrimSpace txt).length, (Fields txt).length⟩
    { st with phrases := st.phrases ++ [p], currentSb := [], currentStartMs := -1 }

/-- The closure `appendSegmentText`. -/
def appendSegmentText (st : AutoState) (segText : List Char) : AutoState :=
  let segText := normalizeWhitespace segText
  if segText = [] then st
  else if st.currentSb.length = 0 then { st with currentSb := segText }
  else { st with currentSb := st.currentSb ++ [' '] ++ TrimSpace segText }

/-- The pause rule: the part of the segment loop guarded by `ts > 0`. -/
def pauseRule (st : AutoState) (ts : Int) : AutoState :=
  if ts > 0 then
    let st1 :=
      if st.lastWordTs ≥ 0 ∧ wrap64 (ts - st.lastWordTs) > pauseThresholdMs ∧
          st.currentSb.length > 0 then commit st
      else st
    { st1 with lastWordTs := ts,
               currentStartMs := if st1.currentStartMs < 0 then ts else st1.currentStartMs }
  else st

/-- The text of a segment as the loop reads it: escaped newlines made real. -/
def segText (seg : rawSeg) : List Char := replaceEscapedNewline '\n' seg.Utf8

/-- Whether the segment loop skips the segment. -/
def segSkipped (seg : rawSeg) : Bool :=
  (TrimSpace (segText seg)).isEmpty || segText seg == ['\n']

/-- The part of the segment loop after the pause rule: append, word cap, punctuation. -/
def appendRule (st : AutoState) (s : List Char) : AutoState :=
  let st1 := appendSegmentText st s
  if (Fields st1.currentSb).length ≥ maxWordsPerPhrase then commit st1
  else
    match lastNonSpaceRune (trimTrailingClosers s) with
    | some lastRune => if isSentenceTerminatorRune lastRune then commit st1 else st1
    | none => st1

/-- The body of the loop over the segments of an event. -/
def autoSeg (ev : rawEvent) (st : AutoState) (seg : rawSeg) : AutoState :=
  if segSkipped seg then st
  else appendRule (pauseRule st (calculateAbsTime ev seg)) (segText seg)

/-- The body of the loop over the events. -/
def autoEvent (st : AutoState) (ev : rawEvent) : AutoState :=
  if IsNewlineOnly ev then st else ev.Segs.foldl (autoSeg ev) st

/-- `TransformAutoRawToPhrases` (the error it returns is always nil). -/
def TransformAutoRawToPhrases (raw : rawJSON3) : List Phrase :=
  if raw.Events.length = 0 then []
  else (commit (raw.Events.foldl autoEvent ⟨[], [], -1, -1⟩)).phrases

/-! ## The text outputs of a transcript (`transcript_methods.go`) -/

/-- `Transcript.PlainNoChapters`: every phrase text as it is stored, a line feed after
each but the last, and one line feed at the end. -/
def PlainNoChapters (t : Transcript) : List Char :=
  Join (t.Phrases.map Phrase.Text) ['\n'] ++ ['\n']

/-- `Transcript.Plain`. -/
def Plain (t : Transcript) : List Char :=
  if t.Phrases.length = 0 then []
  else if t.Chapters.length = 0 then PlainNoChapters t
  else transcriptWithChaptersSplit t 0 OutputTextLayout.asPlain

/-- `Transcript.CollapsedNoChapters`. -/
def CollapsedNoChapters (t : Transcript) : List Char :=
  TrimSpace (Join (t.Phrases.map (fun p => TrimSpace p.Text)) [' ']) ++ ['\n']

/-- `Transcript.Collapsed`. -/
def Collapsed (t : Transcript) : List Char :=
  if t.Phrases.length = 0 then []
  else if t.Chapters.length = 0 then CollapsedNoChapters t
  else transcriptWithChaptersSplit t 0 OutputTextLayout.asCollapsed

/-! ## File names (`pkg/model/types.go`, `internal/fsutil/sanitize.go`)

A Go string is read as its list of runes; where the code counts or cuts bytes
(`len(clean) > max`, `clean[:max]`) the bytes are those of the UTF-8 encoding of the
runes. A rune cut in the middle leaves bytes that are no valid encoding; the conversion
`[]rune(s)` of `CapitalizeFirst` reads each such byte as U+FFFD. -/

/-- `model.Format` is a string type. -/
abbrev Format := List Char

/-- `model.FormatTXT`. -/
def FormatTXT : Format := ['t', 'x', 't']

/-- `model.FormatMARKDOWN`. -/
def FormatMARKDOWN : Format := ['m', 'd']

/-- `model.FormatJSON3`. -/
def FormatJSON3 : Format := ['j', 's', 'o', 'n', '3']

/-- `model.FormatSRT`. -/
def FormatSRT : Format := ['s', 'r', 't']

/-- `model.FormatVTT`. -/
def FormatVTT : Format := ['v', 't', 't']

/-- `Format.IsTextual`. -/
def IsTextual (f : Format) : Bool := f == FormatTXT || f == FormatMARKDOWN

/-- `Format.Extension`. -/
def Extension (f : Format) : List Char := ['.'] ++ f

/-- Length in bytes of the UTF-8 encoding of a rune. -/
def utf8Len (c : Char) : Nat :=
  if c.toNat < 128 then 1 else if c.toNat < 2048 then 2 else if c.toNat < 65536 then 3 else 4

/-- Go `len(s)`: the number of bytes of the string. -/
def byteLen (s : List Char) : Nat := (s.map utf8Len).sum

/-- The rune U+FFFD, which `[]rune(s)` yields for a byte that starts no valid encoding. -/
def runeError : Char := Char.ofNat 65533

/-- The runes of `[]rune(s[:n])`: the runes whose encoding ends within the first `n`
bytes, then one U+FFFD for each byte left of a rune that is cut. -/
def truncateBytes : Nat → List Char → List Char
  | _, [] => []
  | n, c :: rest =>
    if utf8Len c ≤ n then c :: truncateBytes (n - utf8Len c) rest
    else List.replicate n runeError

/-- The class of `invalidFileRunes`: the runes `<`, `>`, double quote, `/`, backslash,
`|`, `?`, `*` and the control runes U+0000 to U+001F. -/
def isInvalidFileRune (c : Char) : Bool :=
  c == '<' || c == '>' || c == Char.ofNat 34 || c == '/' || c == backslash || c == '|' || c == '?' ||
    c == '*' || decide (c.toNat ≤ 31)

/-- Go `unicode.ToUpper`: the ASCII letters are mapped by the code of the function, the
runes above ASCII by the case table of the Go library, which is the parameter `upper`. -/
def ToUpper (upper : Char → Char) (r : Char) : Char :=
  if r.toNat ≤ 127 then
    (if 97 ≤ r.toNat ∧ r.toNat ≤ 122 then Char.ofNat (r.toNat - 32) else r)
  else upper r

/-- `fsutil.CapitalizeFirst`, on the runes of the string. -/
def CapitalizeFirst (upper : Char → Char) (s : List Char) : List Char :=
  match s with
  | [] => []
  | r :: rest => ToUpper upper r :: rest

/-- The constant `max` of `sanitize.go`. -/
def maxNameBytes : Nat := 200

/-- The default name of `SanitizeFilename`. -/
def untitled : List Char := ['u', 'n', 't', 'i', 't', 'l', 'e', 'd']

/-- `fsutil.SanitizeFilename`. -/
def SanitizeFilename (upper : Char → Char) (name : List Char) : List Char :=
  if name = [] then untitled
  else
    let name1 := name.map (fun c => if c = ':' then '-' else c)
    let clean1 := name1.map (fun c => if isInvalidFileRune c then ' ' else c)
    let clean2 := TrimSpace clean1
    let clean3 := collapseSpaces false clean2
    let clean4 := TrimRight clean3 ['.']
    if clean4 = [] then untitled
    else
      let clean5 := if byteLen clean4 > maxNameBytes then truncateBytes maxNameBytes clean4
        else clean4
      CapitalizeFirst upper clean5

/-- The error value of `Transcript.Filename`, which carries the format it refused. -/
inductive FilenameError where
  | unknownFormat (format : Format)
deriving DecidableEq, Repr

/-- `Transcript.Filename`: the pair of Go results, the name and the error (`none` is the
nil error). -/
def Filename (upper : Char → Char) (t : Transcript) (format : Format) :
    List Char × Option FilenameError :=
  let base := SanitizeFilename upper (TrimSpace t.Title)
  if IsTextual format then (base ++ Extension format, none)
  else ([], some (FilenameError.unknownFormat format))

/-! ## Timestamps (`pkg/model/types.go`) -/

/-- Go `fmt.Sprintf("%02d", n)`: the decimal digits of `n`, padded with zeros to a
width of two, the sign counted in the width. -/
def pad2 (n : Int) : List Char :=
  if n < 0 then '-' :: Nat.toDigits 10 n.natAbs
  else if n < 10 then '0' :: Nat.toDigits 10 n.toNat
  else Nat.toDigits 10 n.toNat

/-- `Seconds.TimestampHHMMSS`; the quotient and the remainder of Go truncate toward
zero. -/
def TimestampHHMMSS (s : Int) : List Char :=
  let total := s
  let h := Int.tdiv total 3600
  let m := Int.tdiv (Int.tmod total 3600) 60
  let sec := Int.tmod total 60
  pad2 h ++ [':'] ++ pad2 m ++ [':'] ++ pad2 sec

/-! ## Hashtags (`internal/obsidian/obsidian.go`)

`html.UnescapeString` and the tables of the Unicode classes and of the case mapping
belong to the Go library: they are the parameters `unescape`, `letterOrNumber` and
`lower`. On ASCII the classes and `unicode.ToLower` are written out. -/

/-- The class `[\p{L}\p{N}_-]` of `rawTagRe`. -/
def isTagRune (letterOrNumber : Char → Bool) (c : Char) : Bool :=
  if c.toNat ≤ 127 then
    decide ((65 ≤ c.toNat ∧ c.toNat ≤ 90) ∨ (97 ≤ c.toNat ∧ c.toNat ≤ 122) ∨
      (48 ≤ c.toNat ∧ c.toNat ≤ 57) ∨ c = '_' ∨ c = '-')
  else letterOrNumber c

/-- The first groups of `rawTagRe.FindAllStringSubmatch(text, -1)`: the successive
matches of a `#` followed by the longest run of tag runes, which is not empty. `cur` is
the run read since the `#` of a match that has begun, `none` outside a match. -/
def scanTags (tagRune : Char → Bool) : Option (List Char) → List Char → List (List Char)
  | cur, [] =>
    (match cur with
     | some w => if w = [] then [] else [w]
     | none => [])
  | cur, c :: rest =>
    match cur with
    | some w =>
      if tagRune c then scanTags tagRune (some (w ++ [c])) rest
      else (if w = [] then [] else [w]) ++
        (if c = '#' then scanTags tagRune (some []) rest else scanTags tagRune none rest)
    | none =>
      if c = '#' then scanTags tagRune (some []) rest else scanTags tagRune none rest

/-- Go `strings.ToLower`, rune by rune. -/
def ToLower (lower : Char → Char) (s : List Char) : List Char :=
  s.map (fun r =>
    if r.toNat ≤ 127 then
      (if 65 ≤ r.toNat ∧ r.toNat ≤ 90 then Char.ofNat (r.toNat + 32) else r)
    else lower r)

/-- The loop of `findRawTags` over the matches: append the lowered word, stop once the
list holds more than 64 tags. -/
def collectTags (lower : Char → Char) : List (List Char) → List (List Char) → List (List Char)
  | tags, [] => tags
  | tags, grp :: rest =>
    let tags1 := tags ++ [ToLower lower grp]
    if tags1.length > 64 then tags1 else collectTags lower tags1 rest

/-- `findRawTags`. -/
def findRawTags (unescape : List Char → List Char) (letterOrNumber : Char → Bool)
    (lower : Char → Char) (text : List Char) : List (List Char) :=
  if text = [] then []
  else collectTags lower [] (scanTags (isTagRune letterOrNumber) none (unescape text))

/-! ## The loop of `splitSegOffsetsString`, byte by byte

The same loop as `splitLoop`, read on the bytes of the string with the byte offset `idx`
and one iteration at a time, so that the iterations can be counted. The decoder
`utf8.DecodeRuneInString` is the parameter `decode`: it returns the rune and the number
of bytes it read, `(runeError, 1)` on a byte that starts no valid encoding. -/

/-- The variables of the loop, the byte offset among them. -/
structure ByteState where
  out : List SplitPiece
  sb : List Char
  terminatorBuf : List Char
  candidat : Bool
  idx : Nat
  runeIndex : Nat
deriving DecidableEq, Repr

/-- The inner loop that consumes the spaces from offset `j` on: the offset it stops at
and the number of spaces. `fuel` bounds the number of iterations; `none` when it runs
out. -/
def skipSpaces (decode : List Nat → Char × Nat) (s : List Nat) :
    Nat → Nat → Nat → Option (Nat × Nat)
  | 0, j, spaceCount => if j < s.length then none else some (j, spaceCount)
  | fuel + 1, j, spaceCount =>
    if j < s.length then
      let d := decode (s.drop j)
      if d.1 = runeError ∧ d.2 = 1 then skipSpaces decode s fuel (j + 1) spaceCount
      else if !isSpace d.1 then some (j, spaceCount)
      else skipSpaces decode s fuel (j + d.2) (spaceCount + 1)
    else some (j, spaceCount)

/-- What one test of the loop condition leads to: the loop is left, or one iteration
runs to its `continue`, or the inner loop ran out of fuel. -/
inductive LoopStep where
  | exit
  | next (st : ByteState)
  | starved
deriving DecidableEq, Repr

/-- One iteration of the loop `for idx < len(s)`. -/
def loopStep (decode : List Nat → Char × Nat) (s : List Nat) (st : ByteState) : LoopStep :=
  if st.idx < s.length then
    let d := decode (s.drop st.idx)
    let r := d.1
    let size := d.2
    if r = runeError ∧ size = 1 then LoopStep.next { st with idx := st.idx + 1 }
    else if st.candidat then
      if isSentenceTerminatorRune r || isCloserRune r then
        LoopStep.next { st with terminatorBuf := st.terminatorBuf ++ [r],
                                idx := st.idx + size, runeIndex := st.runeIndex + 1 }
      else if isSpace r then
        match skipSpaces decode s (s.length - st.idx) st.idx 0 with
        | none => LoopStep.starved
        | some (j, spaceCount) =>
          let runeIndex := st.runeIndex + spaceCount
          LoopStep.next
            { out := emitPiece st.out (st.sb ++ st.terminatorBuf) runeIndex
                (decide (st.terminatorBuf.length > 0)),
              sb := [], terminatorBuf := [], candidat := false, idx := j,
              runeIndex := runeIndex }
      else
        LoopStep.next { st with sb := st.sb ++ st.terminatorBuf, terminatorBuf := [],
                                candidat := false }
    else if isSentenceTerminatorRune r then
      LoopStep.next { st with terminatorBuf := st.terminatorBuf ++ [r],
                              idx := st.idx + size, runeIndex := st.runeIndex + 1,
                              candidat := true }
    else
      LoopStep.next { st with sb := st.sb ++ [r], idx := st.idx + size,
                              runeIndex := st.runeIndex + 1 }
  else LoopStep.exit

/-- The loop run for at most `fuel` iterations: the state it is left with, `none` when
the iterations or the inner loop run out of fuel. -/
def loopRun (decode : List Nat → Char × Nat) (s : List Nat) : Nat → ByteState → Option ByteState
  | 0, st =>
    (match loopStep decode s st with
     | LoopStep.exit => some st
     | _ => none)
  | fuel + 1, st =>
    match loopStep decode s st with
    | LoopStep.exit => some st
    | LoopStep.next st1 => loopRun decode s fuel st1
    | LoopStep.starved => none

/-- `splitSegOffsetsString` on the bytes of the string, the loop run with `fuel`. -/
def splitSegOffsetsBytes (decode : List Nat → Char × Nat) (s : List Nat) (fuel : Nat) :
    Option (List SplitPiece) :=
  if s = [] then some []
  else (loopRun decode s fuel ⟨[], [], [], false, 0, 0⟩).map
    (fun st => splitFlush ⟨st.out, st.sb, st.terminatorBuf, st.candidat, st.runeIndex⟩)

/-! ## The merge path with `sort.Slice` as a parameter

`sort.Slice` is not a stable sort: on a slice of more than 12 elements that is not in
order, the Go library may return elements with equal keys in another order than the
insertion sort `sortStable` does. Here the library function is the parameter `slice`, so
that a statement holds whatever order it gives to equal keys. The comparators and the
rest of the code are the same as in `ensureSortedPhrases`, `sortChapters`,
`transcriptWithChaptersSplit` and `Plain`, which are the instances at `sortStable`. -/

/-- `ensureSortedPhrases`, with `sort.Slice` as the parameter `slice`. -/
def ensureSortedPhrasesWith (slice : (α : Type) → (α → α → Bool) → List α → List α)
    (phrases : List Phrase) : List Phrase :=
  if phrases.length ≤ 1 then phrases
  else if sliceIsSorted phraseLess phrases then phrases
  else slice Phrase phraseLess phrases

/-- `sortChapters`, with `sort.Slice` as the parameter `slice`. -/
def sortChaptersWith (slice : (α : Type) → (α → α → Bool) → List α → List α)
    (chaps : List Chapter) : List Chapter :=
  if chaps.length ≤ 1 then chaps else slice Chapter chapterLess chaps

/-- `Transcript.transcriptWithChaptersSplit`, with `sort.Slice` as the parameter
`slice`. -/
def transcriptWithChaptersSplitWith (slice : (α : Type) → (α → α → Bool) → List α → List α)
    (t : Transcript) (thresholdMs : Int) (request : OutputTextLayout) : List Char :=
  let phrases := ensureSortedPhrasesWith slice t.Phrases
  let chaps := sortChaptersWith slice t.Chapters
  if phrases.length = 0 then (chaps.map Chapter.Title).flatten
  else mergeAndRender (buildEvents phrases chaps thresholdMs) request

/-- `Transcript.Plain`, with `sort.Slice` as the parameter `slice`. -/
def PlainWith (slice : (α : Type) → (α → α → Bool) → List α → List α)
    (t : Transcript) : List Char :=
  if t.Phrases.length = 0 then []
  else if t.Chapters.length = 0 then PlainNoChapters t
  else transcriptWithChaptersSplitWith slice t 0 OutputTextLayout.asPlain
/-! ## Notions used in the statements -/

/-- A list is ordered for `less` when no element is less than an earlier one. -/
def Ordered {α : Type} (less : α → α → Bool) (l : List α) : Prop :=
  l.Pairwise (fun a b => less b a = false)

/-- The two facts about a comparator that make insertion sort order a list. -/
structure WeakOrder {α : Type} (less : α → α → Bool) : Prop where
  asymm : ∀ a b, less a b = true → less b a = false
  negTrans : ∀ a b c, less b a = false → less c b = false → less c a = false

/-- Phrases in chronological order. -/
def Chronological (ps : List Phrase) : Prop :=
  ps.Pairwise (fun p q => p.TimestampMs ≤ q.TimestampMs)

/-- Value of `inContent` after the render loop of `mergeAndRender` ran over the events. -/
def contentOpen (inContent : Bool) : List event → Bool
  | [] => inContent
  | e :: rest =>
    if e.isChapter then contentOpen false rest
    else if (TrimSpace e.text).isEmpty then contentOpen inContent rest
    else contentOpen true rest

/-- The chapter line as the render loop writes it: marker, cleaned title, separator. -/
def headingLine (request : OutputTextLayout) (title : List Char) : List Char :=
  ['#', '#', ' '] ++ TrimSpace (TrimLeft title ['#', ' ']) ++ chapterSep request

/-- The cutset of the final `strings.TrimRight` of `mergeAndRender`. -/
def trailingCutset : List Char := [' ', '\t', '\n', '\r']

/-- The merged stream in the order it is rendered. -/
def mergedStream (t : Transcript) (thresholdMs : Int) : List event :=
  sortStable eventLess
    (buildEvents (ensureSortedPhrases t.Phrases) (sortChapters t.Chapters) thresholdMs)

/-- The list `s` occurs in `l` as a block of consecutive runes. -/
def Occurs (s l : List Char) : Prop := ∃ u v, l = u ++ s ++ v

/-- A word: a non-empty list of runes none of which is a space. -/
def Word (w : List Char) : Prop := w ≠ [] ∧ ∀ c ∈ w, isSpace c = false

/-- Terminator or closer: the runes a pending terminator run goes on with. -/
def runContinues (r : Char) : Bool := isSentenceTerminatorRune r || isCloserRune r

/-- Every terminator run of `s` is followed by a rune, and that rune is no space: after
any terminator, the first rune that is neither terminator nor closer exists and is not
white space. -/
def RunsFollowedByText (s : List Char) : Prop :=
  ∀ pre t post, s = pre ++ t :: post → isSentenceTerminatorRune t = true →
    ∃ c post1, post.dropWhile runContinues = c :: post1 ∧ isSpace c = false

/-- Decision procedure for `RunsFollowedByText`. -/
def runsFollowedByTextB : List Char → Bool
  | [] => true
  | t :: post =>
    (if isSentenceTerminatorRune t then
      (match post.dropWhile runContinues with
       | c :: _ => !isSpace c
       | [] => false)
     else true) && runsFollowedByTextB post

/-- A piece as the scanner emits it: its text is normalised and not empty. -/
def GoodPiece (p : SplitPiece) : Prop := normalizeWhitespace p.Text = p.Text ∧ p.Text ≠ []

/-- The phrase of a piece that starts a phrase at rune offset `k` of an event with start
`S`, duration `D` and `R` runes: `S + round((D / R) * k)` in `float64`, the sum in
`int64`. -/
def pieceAsPhrase (S D : Int) (R : Nat) (p : SplitPiece) (k : Nat) : Phrase :=
  ⟨wrap64 (S + int64OfFloat (F64.round
      (F64.mul (F64.div (F64.ofNat D.toNat) (F64.ofNat R)) (F64.ofNat k)))),
    p.Text, p.Text.length, (Fields p.Text).length⟩

/-- The text-bearing segments of an input in reading order, each with its event: the
segments the loops of `TransformAutoRawToPhrases` do not skip. -/
def textSegments (events : List rawEvent) : List (rawEvent × rawSeg) :=
  match events with
  | [] => []
  | ev :: rest =>
    (if IsNewlineOnly ev then []
     else (ev.Segs.filter (fun seg => !segSkipped seg)).map (fun seg => (ev, seg))) ++
      textSegments rest

/-- What the segment loop does with one text-bearing segment. -/
def autoStep (st : AutoState) (x : rawEvent × rawSeg) : AutoState :=
  appendRule (pauseRule st (calculateAbsTime x.1 x.2)) (segText x.2)

/-- The segment loop over a list of text-bearing segments. -/
def autoRun (st : AutoState) (xs : List (rawEvent × rawSeg)) : AutoState :=
  xs.foldl autoStep st

/-- The state `st` with the phrases `ph` committed before its own. -/
def withPhrases (ph : List Phrase) (st : AutoState) : AutoState :=
  { st with phrases := ph ++ st.phrases }

/-- A text whose only white-space rune is the plain space, never two in a row and none
at either end: words separated by single spaces. -/
def SingleSpaced (s : List Char) : Prop :=
  (∀ c ∈ s, isSpace c = true → c = ' ') ∧
  s.Chain' (fun a b => ¬ (isSpace a = true ∧ isSpace b = true)) ∧
  (∀ c, s.head? = some c → isSpace c = false) ∧
  (∀ c, s.getLast? = some c → isSpace c = false)

/-- The invariant of a finished phrase: the text is not empty, its words are separated
by single spaces with no white space at either end, and the two counts are those of the
text. -/
def WellFormedPhrase (p : Phrase) : Prop :=
  p.Text ≠ [] ∧ SingleSpaced p.Text ∧ p.RuneCount = p.Text.length ∧
    p.WordCount = (Fields p.Text).length

/-- The absolute timestamp of a segment of an event. -/
def segTime (x : rawEvent × rawSeg) : Int := calculateAbsTime x.1 x.2

/-- The first positive absolute timestamp among the segments, if there is one. -/
def firstPositive (g : List (rawEvent × rawSeg)) : Option Int :=
  (g.map segTime).find? (fun t => decide (0 < t))

/-- The last positive absolute timestamp among the segments, if there is one. -/
def lastPositive (g : List (rawEvent × rawSeg)) : Option Int := firstPositive g.reverse

/-- The text of a phrase made of the segments `g`: their normalised texts joined by
single spaces. -/
def groupText (g : List (rawEvent × rawSeg)) : List Char :=
  Join (g.map (fun x => normalizeWhitespace (segText x.2))) [' ']

/-- For consecutive groups of segments read after the segments `before`, the timestamp
of each group: that of its first segment with a positive timestamp, else that of the
last such segment read before the group, if there is one. -/
def expectedStarts : List (rawEvent × rawSeg) → List (List (rawEvent × rawSeg)) →
    List (Option Int)
  | _, [] => []
  | before, g :: gs =>
    (firstPositive g).or (lastPositive before) :: expectedStarts (before ++ g) gs

/-- The lines of a text: the runs of runes between line feeds. -/
def splitLines : List Char → List (List Char)
  | [] => [[]]
  | c :: rest =>
    if c = '\n' then [] :: splitLines rest
    else match splitLines rest with
      | [] => [[c]]
      | l :: ls => (c :: l) :: ls

/-- The non-empty lines of a text, in order. -/
def nonEmptyLines (s : List Char) : List (List Char) :=
  (splitLines s).filter (fun l => !l.isEmpty)

/-- The line the render loop writes for an event: the trimmed text of a phrase, the
marker and the cleaned title of a chapter. -/
def eventLine (e : event) : List Char :=
  if e.isChapter then ['#', '#', ' '] ++ TrimSpace (TrimLeft e.text ['#', ' '])
  else TrimSpace e.text

/-- A phrase starts at the expected timestamp, when there is one, and that timestamp is
positive. -/
def StartsAt (p : Phrase) (o : Option Int) : Prop :=
  ∀ t, o = some t → p.TimestampMs = t ∧ 0 < t

/-- The state of the segment loop read against the segments it has consumed: `groups`
are the segments of the committed phrases, `cur` those in the buffer. -/
structure AutoTrace (st : AutoState) (groups : List (List (rawEvent × rawSeg)))
    (cur : List (rawEvent × rawSeg)) : Prop where
  groups_ne : ∀ g ∈ groups, g ≠ []
  bearing : ∀ x ∈ cur, segSkipped x.2 = false
  texts : st.phrases.map Phrase.Text = groups.map groupText
  starts : List.Forall₂ StartsAt st.phrases (expectedStarts [] groups)
  buffer : st.currentSb = groupText cur
  start : st.currentStartMs = (firstPositive cur).getD (-1)
  last : st.lastWordTs = (lastPositive (groups.flatten ++ cur)).getD (-1)

/-- The runes a file name must not hold: the colon and the runes of the class of
`invalidFileRunes` (the other reserved characters and the control characters). -/
def forbiddenInName (c : Char) : Bool := c == ':' || isInvalidFileRune c

/-- What bounds the number of iterations left: two for each byte left, one more while a
candidate is pending. -/
def loopMeasure (s : List Nat) (st : ByteState) : Nat :=
  2 * (s.length - st.idx) + (if st.candidat then 1 else 0)

/-- The merged stream in the order it is rendered, with `sort.Slice` as the parameter
`slice`: the events built from the phrases and chapters as `slice` leaves them, after the
stable sort of `mergeAndRender`. -/
def mergedStreamWith (slice : (α : Type) → (α → α → Bool) → List α → List α)
    (t : Transcript) (thresholdMs : Int) : List event :=
  sortStable eventLess
    (buildEvents (ensureSortedPhrasesWith slice t.Phrases) (sortChaptersWith slice t.Chapters)
      thresholdMs)

/-- What an event shows of the phrase or chapter it comes from: its kind and its text. -/
def eventTag (e : event) : Bool × List Char := (e.isChapter, e.text)

/-! ## Sorting lemmas -/

theorem perm_insertOrdered {α : Type} (less : α → α → Bool) (a : α) (l : List α) :
    (insertOrdered less a l).Perm (a :: l) := by
  induction l with
  | nil => simp [insertOrdered]
  | cons b l ih =>
    unfold insertOrdered
    split
    · exact (List.Perm.cons b ih).trans (List.Perm.swap a b l)
    · exact List.Perm.refl _

theorem perm_sortStable {α : Type} (less : α → α → Bool) (l : List α) :
    (sortStable less l).Perm l := by
  induction l with
  | nil => simp [sortStable]
  | cons a l ih =>
    unfold sortStable
    exact (perm_insertOrdered less a _).trans (List.Perm.cons a ih)

theorem mem_sortStable {α : Type} (less : α → α → Bool) (l : List α) (x : α) :
    x ∈ sortStable less l ↔ x ∈ l := (perm_sortStable less l).mem_iff

theorem ordered_insertOrdered {α : Type} {less : α → α → Bool} (hw : WeakOrder less) (a : α)
    (l : List α) (hl : Ordered less l) : Ordered less (insertOrdered less a l) := by
  induction l with
  | nil => simp [insertOrdered, Ordered]
  | cons b l ih =>
    have hb := List.pairwise_cons.mp hl
    unfold insertOrdered
    split
    · rename_i hba
      refine List.pairwise_cons.mpr ⟨?_, ih hb.2⟩
      intro x hx
      rcases List.mem_cons.mp ((perm_insertOrdered less a l).mem_iff.mp hx) with hx | hx
      · subst hx; exact hw.asymm _ _ hba
      · exact hb.1 x hx
    · rename_i hba
      have hba2 : less b a = false := by simpa using hba
      refine List.pairwise_cons.mpr ⟨?_, hl⟩
      intro x hx
      rcases List.mem_cons.mp hx with hx | hx
      · subst hx; exact hba2
      · exact hw.negTrans a b x hba2 (hb.1 x hx)

theorem ordered_sortStable {α : Type} {less : α → α → Bool} (hw : WeakOrder less)
    (l : List α) : Ordered less (sortStable less l) := by
  induction l with
  | nil => simp [sortStable, Ordered]
  | cons a l ih => unfold sortStable; exact ordered_insertOrdered hw a _ ih

theorem sortStable_eq_self {α : Type} (less : α → α → Bool) (l : List α)
    (hl : Ordered less l) : sortStable less l = l := by
  induction l with
  | nil => rfl
  | cons a l ih =>
    have hb := List.pairwise_cons.mp hl
    unfold sortStable
    rw [ih hb.2]
    cases l with
    | nil => rfl
    | cons b l =>
      unfold insertOrdered
      simp [hb.1 b (List.mem_cons_self _ _)]

/-- In an ordered list an element strictly less than another one stands before it. -/
theorem ordered_split {α : Type} {less : α → α → Bool} (hw : WeakOrder less) {l : List α}
    (hl : Ordered less l)
    {x y : α} (hx : x ∈ l) (hy : y ∈ l) (hxy : less x y = true) :
    ∃ A B, l = A ++ y :: B ∧ x ∈ A := by
  obtain ⟨A, B, rfl⟩ := List.append_of_mem hy
  refine ⟨A, B, rfl, ?_⟩
  rcases List.mem_append.mp hx with h | h
  · exact h
  · exfalso
    rcases List.mem_cons.mp h with h | h
    · subst h
      have := hw.asymm _ _ hxy
      rw [hxy] at this; exact Bool.noConfusion this
    · have h2 := (List.pairwise_append.mp hl).2.1
      have := (List.pairwise_cons.mp h2).1 x h
      rw [hxy] at this; exact Bool.noConfusion this
/-! ## Binary search -/

theorem chronological_index {ps : List Phrase} (hs : Chronological ps) {a b : Nat} {pa pb : Phrase}
    (hab : a ≤ b) (ha : ps[a]? = some pa) (hb : ps[b]? = some pb) :
    pa.TimestampMs ≤ pb.TimestampMs := by
  rcases Nat.eq_or_lt_of_le hab with h | h
  · subst h; rw [ha] at hb; cases hb; exact le_refl _
  · obtain ⟨ha1, ha2⟩ := List.getElem?_eq_some.mp ha
    obtain ⟨hb1, hb2⟩ := List.getElem?_eq_some.mp hb
    have := List.pairwise_iff_getElem.mp hs a b ha1 hb1 h
    rw [ha2, hb2] at this; exact this

theorem binarySearchLoop_spec {ps : List Phrase} (hs : Chronological ps) (key : Int) :
    ∀ (fuel i j : Nat), i ≤ j → j ≤ ps.length → j - i ≤ fuel →
      (∀ k p, k < i → ps[k]? = some p → p.TimestampMs < key) →
      (∀ k p, j ≤ k → ps[k]? = some p → key ≤ p.TimestampMs) →
      (binarySearchLoop ps key fuel i j ≤ ps.length) ∧
      (∀ k p, k < binarySearchLoop ps key fuel i j → ps[k]? = some p → p.TimestampMs < key) ∧
      (∀ k p, binarySearchLoop ps key fuel i j ≤ k → ps[k]? = some p → key ≤ p.TimestampMs) := by
  intro fuel
  induction fuel with
  | zero =>
    intro i j hij hj hf hlo hhi
    have : i = j := by omega
    subst this
    simp only [binarySearchLoop]
    exact ⟨hj, hlo, hhi⟩
  | succ fuel ih =>
    intro i j hij hj hf hlo hhi
    unfold binarySearchLoop
    by_cases hlt : i < j
    · simp only [hlt, if_true]
      have hh : (i + j) / 2 < ps.length := by omega
      have hget : ps[(i + j) / 2]? = some (ps[(i + j) / 2]) := List.getElem?_eq_getElem hh
      rw [hget]
      simp only
      by_cases hc : cmpPhrase ps[(i + j) / 2] key < 0
      · simp only [hc, if_true]
        have hmid : ps[(i + j) / 2].TimestampMs < key := by
          unfold cmpPhrase at hc
          split at hc
          · assumption
          · split at hc <;> omega
        apply ih ((i + j) / 2 + 1) j (by omega) hj (by omega) _ hhi
        intro k p hk hp
        have := chronological_index hs (show k ≤ (i + j) / 2 by omega) hp hget
        omega
      · simp only [hc, if_false]
        have hmid : key ≤ ps[(i + j) / 2].TimestampMs := by
          unfold cmpPhrase at hc
          split at hc
          · omega
          · omega
        apply ih i ((i + j) / 2) (by omega) (by omega) (by omega) hlo
        intro k p hk hp
        have := chronological_index hs hk hget hp
        omega
    · have : i = j := by omega
      subst this
      simp only [hlt, if_false]
      exact ⟨hj, hlo, hhi⟩

/-- On a chronological list `slices.BinarySearchFunc` returns the number of phrases
before the key. -/
theorem binarySearchFunc_spec {ps : List Phrase} (hs : Chronological ps) (key : Int) :
    (binarySearchFunc ps key).1 ≤ ps.length ∧
    (∀ k p, k < (binarySearchFunc ps key).1 → ps[k]? = some p → p.TimestampMs < key) ∧
    (∀ k p, (binarySearchFunc ps key).1 ≤ k → ps[k]? = some p → key ≤ p.TimestampMs) ∧
    ((binarySearchFunc ps key).2 = true ↔
      ∃ p, ps[(binarySearchFunc ps key).1]? = some p ∧ p.TimestampMs = key) := by
  have h := binarySearchLoop_spec hs key ps.length 0 ps.length (Nat.zero_le _) (le_refl _)
    (by omega) (by intro k p hk; omega)
    (by intro k p hk hp
        have := (List.getElem?_eq_some.mp hp).1
        omega)
  have h1 : (binarySearchFunc ps key).1 = binarySearchLoop ps key ps.length 0 ps.length := by
    unfold binarySearchFunc
    simp only
    split <;> rfl
  rw [h1]
  refine ⟨h.1, h.2.1, h.2.2, ?_⟩
  unfold binarySearchFunc
  simp only
  split
  · rename_i p hp
    simp only [decide_eq_true_eq]
    constructor
    · intro hc
      refine ⟨p, hp, ?_⟩
      unfold cmpPhrase at hc
      split at hc
      · omega
      · split at hc <;> omega
    · rintro ⟨q, hq, hk⟩
      rw [hp] at hq; cases hq
      unfold cmpPhrase
      simp [hk]
  · rename_i hp
    simp [hp]

/-! ## Arithmetic in range -/

theorem wrap64_eq {x : Int} (h : isInt64 x) : wrap64 x = x := by
  unfold isInt64 at h; unfold wrap64; omega

theorem absInt64_nonneg {x : Int} (h : 0 ≤ x) : absInt64 x = x := by
  unfold absInt64; simp; omega

/-! ## Comparators -/

theorem weakOrder_phraseLess : WeakOrder phraseLess := by
  constructor
  · intro a b h; simp only [phraseLess, decide_eq_true_eq, decide_eq_false_iff_not] at *; omega
  · intro a b c h1 h2
    simp only [phraseLess, decide_eq_true_eq, decide_eq_false_iff_not] at *; omega

theorem weakOrder_chapterLess : WeakOrder chapterLess := by
  constructor
  · intro a b h; simp only [chapterLess, decide_eq_true_eq, decide_eq_false_iff_not] at *; omega
  · intro a b c h1 h2
    simp only [chapterLess, decide_eq_true_eq, decide_eq_false_iff_not] at *; omega

theorem eventLess_true_iff (a b : event) :
    eventLess a b = true ↔
      a.ts < b.ts ∨ (a.ts = b.ts ∧ ((a.isChapter = true ∧ b.isChapter = false) ∨
        (a.isChapter = b.isChapter ∧ a.order < b.order))) := by
  unfold eventLess
  by_cases h1 : a.ts = b.ts
  · cases ha : a.isChapter <;> cases hb : b.isChapter <;> simp [h1]
  · simp only [ne_eq, h1, not_false_eq_true, if_true, decide_eq_true_eq]
    constructor
    · intro h; exact Or.inl h
    · rintro (h | h)
      · exact h
      · exact False.elim h.1

theorem eventLess_false_iff (a b : event) :
    eventLess a b = false ↔
      b.ts < a.ts ∨ (a.ts = b.ts ∧ ((a.isChapter = false ∧ b.isChapter = true) ∨
        (a.isChapter = b.isChapter ∧ b.order ≤ a.order))) := by
  rw [← Bool.not_eq_true, eventLess_true_iff]
  cases ha : a.isChapter <;> cases hb : b.isChapter <;> simp <;> omega

theorem weakOrder_eventLess : WeakOrder eventLess := by
  constructor
  · intro a b h
    rw [eventLess_true_iff] at h
    rw [eventLess_false_iff]
    rcases h with h | ⟨h1, h | h⟩
    · exact Or.inl h
    · exact Or.inr ⟨h1.symm, Or.inl ⟨h.2, h.1⟩⟩
    · exact Or.inr ⟨h1.symm, Or.inr ⟨h.1.symm, by omega⟩⟩
  · intro a b c h1 h2
    rw [eventLess_false_iff] at *
    cases ha : a.isChapter <;> cases hb : b.isChapter <;> cases hc : c.isChapter <;>
      simp [ha, hb, hc] at h1 h2 ⊢ <;> omega

/-! ## The working copies -/

theorem ordered_of_chronological {ps : List Phrase} (h : Chronological ps) :
    Ordered phraseLess ps := by
  unfold Ordered Chronological at *
  refine List.Pairwise.imp ?_ h
  intro a b hab
  simp only [phraseLess, decide_eq_false_iff_not]; omega

theorem chronological_of_ordered {ps : List Phrase} (h : Ordered phraseLess ps) :
    Chronological ps := by
  unfold Ordered Chronological at *
  refine List.Pairwise.imp ?_ h
  intro a b hab
  simp only [phraseLess, decide_eq_false_iff_not] at hab; omega

theorem ensureSortedPhrases_of_chronological {ps : List Phrase} (h : Chronological ps) :
    ensureSortedPhrases ps = ps := by
  unfold ensureSortedPhrases
  split
  · rfl
  · split
    · rfl
    · exact sortStable_eq_self _ _ (ordered_of_chronological h)

theorem ordered_of_sliceIsSorted {α : Type} {less : α → α → Bool} (hw : WeakOrder less) :
    ∀ (l : List α), sliceIsSorted less l = true → Ordered less l
  | [], _ => List.Pairwise.nil
  | [_], _ => by simp [Ordered]
  | a :: b :: l, h => by
    simp only [sliceIsSorted, Bool.and_eq_true, Bool.not_eq_true'] at h
    have ih := ordered_of_sliceIsSorted hw (b :: l) h.2
    refine List.pairwise_cons.mpr ⟨?_, ih⟩
    intro x hx
    rcases List.mem_cons.mp hx with hx | hx
    · subst hx; exact h.1
    · exact hw.negTrans a b x h.1 ((List.pairwise_cons.mp ih).1 x hx)

theorem chronological_ensureSortedPhrases (ps : List Phrase) :
    Chronological (ensureSortedPhrases ps) := by
  unfold ensureSortedPhrases
  split
  · rename_i h
    match ps, h with
    | [], _ => exact List.Pairwise.nil
    | [_], _ => simp [Chronological]
    | _ :: _ :: _, h => simp at h
  · split
    · rename_i h
      exact chronological_of_ordered (ordered_of_sliceIsSorted weakOrder_phraseLess _ h)
    · exact chronological_of_ordered (ordered_sortStable weakOrder_phraseLess _)

theorem perm_ensureSortedPhrases (ps : List Phrase) : (ensureSortedPhrases ps).Perm ps := by
  unfold ensureSortedPhrases
  split
  · exact List.Perm.refl _
  · split
    · exact List.Perm.refl _
    · exact perm_sortStable _ _

theorem perm_sortChapters (cs : List Chapter) : (sortChapters cs).Perm cs := by
  unfold sortChapters
  split
  · exact List.Perm.refl _
  · exact perm_sortStable _ _

theorem ordered_sortChapters (cs : List Chapter) : Ordered chapterLess (sortChapters cs) := by
  unfold sortChapters
  split
  · rename_i h
    match cs, h with
    | [], _ => exact List.Pairwise.nil
    | [_], _ => simp [Ordered]
    | _ :: _ :: _, h => simp at h
  · exact ordered_sortStable weakOrder_chapterLess _

/-! ## Membership in the event list -/

theorem mem_splitChapters_middle {cs : List Chapter} {f l : Int} {c : Chapter} (hc : c ∈ cs)
    (h1 : ¬ Milliseconds c.Start ≤ f) (h2 : ¬ Milliseconds c.Start > l) :
    c ∈ (splitChapters cs f l).2.1 := by
  induction cs with
  | nil => cases hc
  | cons d cs ih =>
    unfold splitChapters
    simp only
    rcases List.mem_cons.mp hc with h | h
    · subst h
      rw [if_neg h1, if_neg h2]
      exact List.mem_cons_self _ _
    · have := ih h
      split
      · exact this
      · split
        · exact this
        · exact List.mem_cons_of_mem _ this

theorem mem_buildEventsFromPhrases {ps : List Phrase} {p : Phrase} (hp : p ∈ ps) (b : Nat) :
    ∃ o, (⟨p.TimestampMs, false, p.Text, o⟩ : event) ∈ buildEventsFromPhrases ps b := by
  induction ps generalizing b with
  | nil => cases hp
  | cons q ps ih =>
    unfold buildEventsFromPhrases
    rcases List.mem_cons.mp hp with h | h
    · subst h; exact ⟨b, List.mem_cons_self _ _⟩
    · obtain ⟨o, ho⟩ := ih h (b + 1)
      exact ⟨o, List.mem_cons_of_mem _ ho⟩

theorem mem_adjustMiddleChapters {cs : List Chapter} {c : Chapter} (hc : c ∈ cs)
    (ps : List Phrase) (thr : Int) (b : Nat) :
    ∃ o, (⟨adjustedTs c ps thr, true, c.Title, o⟩ : event) ∈ adjustMiddleChapters cs ps thr b := by
  induction cs generalizing b with
  | nil => cases hc
  | cons q cs ih =>
    unfold adjustMiddleChapters
    rcases List.mem_cons.mp hc with h | h
    · subst h; exact ⟨b, List.mem_cons_self _ _⟩
    · obtain ⟨o, ho⟩ := ih h (b + 1)
      exact ⟨o, List.mem_cons_of_mem _ ho⟩

theorem of_mem_buildEventsFromPhrases {ps : List Phrase} {e : event} {b : Nat}
    (he : e ∈ buildEventsFromPhrases ps b) :
    e.isChapter = false ∧ ∃ p ∈ ps, p.TimestampMs = e.ts ∧ p.Text = e.text := by
  induction ps generalizing b with
  | nil => cases he
  | cons q ps ih =>
    unfold buildEventsFromPhrases at he
    rcases List.mem_cons.mp he with h | h
    · subst h; exact ⟨rfl, q, List.mem_cons_self _ _, rfl, rfl⟩
    · obtain ⟨h1, p, hp, h2⟩ := ih h
      exact ⟨h1, p, List.mem_cons_of_mem _ hp, h2⟩

theorem isChapter_of_mem_adjustMiddleChapters {cs : List Chapter} {ps : List Phrase} {thr : Int}
    {e : event} {b : Nat} (he : e ∈ adjustMiddleChapters cs ps thr b) : e.isChapter = true := by
  induction cs generalizing b with
  | nil => cases he
  | cons q cs ih =>
    unfold adjustMiddleChapters at he
    rcases List.mem_cons.mp he with h | h
    · subst h; rfl
    · exact ih h

theorem isChapter_of_mem_chapterEvents {cs : List Chapter} {e : event} {b : Nat}
    (he : e ∈ chapterEvents cs b) : e.isChapter = true := by
  induction cs generalizing b with
  | nil => cases he
  | cons q cs ih =>
    unfold chapterEvents at he
    rcases List.mem_cons.mp he with h | h
    · subst h; rfl
    · exact ih h

/-- A phrase event of the built list comes from a phrase. -/
theorem phrase_of_mem_buildEvents {ps : List Phrase} {cs : List Chapter} {thr : Int} {e : event}
    (he : e ∈ buildEvents ps cs thr) (hc : e.isChapter = false) :
    ∃ p ∈ ps, p.TimestampMs = e.ts ∧ p.Text = e.text := by
  unfold buildEvents at he
  simp only [List.mem_append] at he
  rcases he with ((h | h) | h) | h
  · rw [isChapter_of_mem_chapterEvents h] at hc; cases hc
  · exact (of_mem_buildEventsFromPhrases h).2
  · rw [isChapter_of_mem_adjustMiddleChapters h] at hc; cases hc
  · rw [isChapter_of_mem_chapterEvents h] at hc; cases hc

theorem phrase_mem_buildEvents {ps : List Phrase} {p : Phrase} (hp : p ∈ ps) (cs : List Chapter)
    (thr : Int) : ∃ o, (⟨p.TimestampMs, false, p.Text, o⟩ : event) ∈ buildEvents ps cs thr := by
  obtain ⟨o, ho⟩ := mem_buildEventsFromPhrases hp
    (splitChapters cs ((ps.head?.map Phrase.TimestampMs).getD 0)
      ((ps.getLast?.map Phrase.TimestampMs).getD 0)).1.length
  refine ⟨o, ?_⟩
  unfold buildEvents
  simp only [List.mem_append]
  exact Or.inl (Or.inl (Or.inr ho))

theorem middle_mem_buildEvents {ps : List Phrase} {cs : List Chapter} {c : Chapter} (hc : c ∈ cs)
    (thr : Int)
    (h1 : ¬ Milliseconds c.Start ≤ (ps.head?.map Phrase.TimestampMs).getD 0)
    (h2 : ¬ Milliseconds c.Start > (ps.getLast?.map Phrase.TimestampMs).getD 0) :
    ∃ o, (⟨adjustedTs c ps thr, true, c.Title, o⟩ : event) ∈ buildEvents ps cs thr := by
  obtain ⟨o, ho⟩ := mem_adjustMiddleChapters (mem_splitChapters_middle hc h1 h2) ps thr
    ((splitChapters cs ((ps.head?.map Phrase.TimestampMs).getD 0)
      ((ps.getLast?.map Phrase.TimestampMs).getD 0)).1.length + ps.length)
  refine ⟨o, ?_⟩
  unfold buildEvents
  simp only [List.mem_append]
  exact Or.inl (Or.inr ho)

/-- Three elements of an ordered list in strictly increasing order stand in that order. -/
theorem ordered_split3 {α : Type} {less : α → α → Bool} (hw : WeakOrder less) {l : List α}
    (hl : Ordered less l) {x y z : α} (hx : x ∈ l) (hy : y ∈ l) (hz : z ∈ l)
    (hxy : less x y = true) (hyz : less y z = true) :
    ∃ A B, l = A ++ y :: B ∧ x ∈ A ∧ z ∈ B := by
  obtain ⟨A, B, rfl⟩ := List.append_of_mem hy
  have hp := List.pairwise_append.mp hl
  have irrefl : ∀ a, less a a = true → False := fun a h => by
    have := hw.asymm _ _ h; rw [h] at this; exact Bool.noConfusion this
  refine ⟨A, B, rfl, ?_, ?_⟩
  · rcases List.mem_append.mp hx with h | h
    · exact h
    · exfalso
      rcases List.mem_cons.mp h with h | h
      · subst h; exact irrefl _ hxy
      · have := (List.pairwise_cons.mp hp.2.1).1 x h
        rw [hxy] at this; exact Bool.noConfusion this
  · rcases List.mem_append.mp hz with h | h
    · exfalso
      have := hp.2.2 z h y (List.mem_cons_self _ _)
      rw [hyz] at this; exact Bool.noConfusion this
    · rcases List.mem_cons.mp h with h | h
      · subst h; exact (irrefl _ hyz).elim
      · exact h

/-! ## The nearest phrase -/

theorem binarySearchFunc_between {ps : List Phrase} (hs : Chronological ps) {key : Int} {i : Nat}
    {pl pr : Phrase} (hl : ps[i]? = some pl) (hr : ps[i + 1]? = some pr)
    (h1 : pl.TimestampMs < key) (h2 : key < pr.TimestampMs) :
    binarySearchFunc ps key = (i + 1, false) := by
  obtain ⟨_, hlo, hhi, hf⟩ := binarySearchFunc_spec hs key
  have hi : (binarySearchFunc ps key).1 = i + 1 := by
    by_contra hne
    rcases Nat.lt_or_gt_of_ne hne with h | h
    · have := hhi i pl (by omega) hl; omega
    · have := hlo (i + 1) pr h hr; omega
  have hb : (binarySearchFunc ps key).2 = false := by
    cases hb : (binarySearchFunc ps key).2
    · rfl
    · obtain ⟨p, hp, hk⟩ := hf.mp hb
      rw [hi, hr] at hp; cases hp; omega
  exact Prod.ext hi hb

/-- Between two neighbours the right one is tried first and the left one replaces it
only when strictly nearer. -/
theorem nearestPhraseIndex_between {ps : List Phrase} (hs : Chronological ps) {key : Int}
    {i : Nat} {pl pr : Phrase} (hl : ps[i]? = some pl) (hr : ps[i + 1]? = some pr)
    (h1 : pl.TimestampMs < key) (h2 : key < pr.TimestampMs)
    (h0 : 0 ≤ pl.TimestampMs) (h64 : isInt64 pr.TimestampMs) :
    nearestPhraseIndex ps key =
      (if key - pl.TimestampMs < (if pr.TimestampMs - key < maxInt64 then
            pr.TimestampMs - key else maxInt64)
        then ((i : Int), key - pl.TimestampMs)
        else if pr.TimestampMs - key < maxInt64 then (((i + 1 : Nat) : Int), pr.TimestampMs - key)
        else (-1, maxInt64)) := by
  have hn : i + 1 < ps.length := (List.getElem?_eq_some.mp hr).1
  have hdr : absInt64 (wrap64 (pr.TimestampMs - key)) = pr.TimestampMs - key := by
    unfold isInt64 at h64
    rw [wrap64_eq (by unfold isInt64; omega), absInt64_nonneg (by omega)]
  have hdl : absInt64 (wrap64 (key - pl.TimestampMs)) = key - pl.TimestampMs := by
    unfold isInt64 at h64
    rw [wrap64_eq (by unfold isInt64; omega), absInt64_nonneg (by omega)]
  unfold nearestPhraseIndex
  simp only [binarySearchFunc_between hs hl hr h1 h2]
  rw [if_neg (by omega)]
  simp only [Bool.false_eq_true, if_false, if_pos hn, hr, hdr, Nat.add_sub_cancel,
    if_pos (Nat.le_add_left 1 i), hl, hdl]
  by_cases ha : pr.TimestampMs - key < maxInt64
  · simp only [ha, if_true]
    by_cases hb : key - pl.TimestampMs < pr.TimestampMs - key
    · simp [hb]
    · simp [hb]
  · simp only [ha, if_false]
    by_cases hb : key - pl.TimestampMs < maxInt64
    · simp [hb]
    · simp [hb]

/-! ## The render loop -/

theorem renderLoop_append (request : OutputTextLayout) (A B : List event) (ic : Bool) :
    renderLoop request ic (A ++ B) =
      renderLoop request ic A ++ renderLoop request (contentOpen ic A) B := by
  induction A generalizing ic with
  | nil => simp [renderLoop, contentOpen]
  | cons e A ih =>
    show renderLoop request ic (e :: (A ++ B)) =
      renderLoop request ic (e :: A) ++ renderLoop request (contentOpen ic (e :: A)) B
    by_cases hc : e.isChapter = true
    · simp [renderLoop, contentOpen, hc, ih]
    · by_cases ht : (TrimSpace e.text).isEmpty = true
      · simp [renderLoop, contentOpen, hc, ht, ih]
      · cases ic <;> simp [renderLoop, contentOpen, hc, ht, ih]

theorem renderLoop_chapter (request : OutputTextLayout) (e : event) (B : List event) (ic : Bool)
    (he : e.isChapter = true) :
    renderLoop request ic (e :: B) =
      (if ic then chapterSep request else []) ++ headingLine request e.text ++
        renderLoop request false B := by
  simp [renderLoop, he, headingLine]

theorem occurs_append_left {s l : List Char} (x : List Char) (h : Occurs s l) :
    Occurs s (x ++ l) := by
  obtain ⟨u, v, rfl⟩ := h
  exact ⟨x ++ u, v, by simp⟩

theorem occurs_append_right {s l : List Char} (x : List Char) (h : Occurs s l) :
    Occurs s (l ++ x) := by
  obtain ⟨u, v, rfl⟩ := h
  exact ⟨u, v ++ x, by simp⟩

theorem occurs_self_append (s v : List Char) : Occurs s (s ++ v) := ⟨[], v, by simp⟩

/-- The trimmed text of every phrase event is written by the render loop. -/
theorem occurs_renderLoop (request : OutputTextLayout) {A : List event} {e : event} (he : e ∈ A)
    (hc : e.isChapter = false) (ic : Bool) :
    Occurs (TrimSpace e.text) (renderLoop request ic A) := by
  induction A generalizing ic with
  | nil => cases he
  | cons a A ih =>
    rcases List.mem_cons.mp he with h | h
    · subst h
      simp only [renderLoop, hc, Bool.false_eq_true, if_false]
      by_cases ht : (TrimSpace e.text).isEmpty = true
      · have : TrimSpace e.text = [] := List.isEmpty_iff.mp ht
        rw [this]; exact ⟨[], _, rfl⟩
      · simp only [ht, if_false]
        cases ic
        · exact occurs_self_append _ _
        · simp only [Bool.not_true, Bool.false_eq_true, if_false, List.append_assoc]
          exact occurs_append_left _ (occurs_self_append _ _)
    · simp only [renderLoop]
      split
      · exact occurs_append_left _ (ih h false)
      · split
        · exact ih h ic
        · split
          · exact occurs_append_left _ (ih h true)
          · rw [List.append_assoc]
            exact occurs_append_left _ (occurs_append_left _ (ih h true))

theorem transcriptWithChaptersSplit_eq (t : Transcript) (thr : Int) (request : OutputTextLayout)
    (h : t.Phrases ≠ []) :
    transcriptWithChaptersSplit t thr request =
      TrimRight (renderLoop request false (mergedStream t thr)) trailingCutset ++ ['\n'] := by
  unfold transcriptWithChaptersSplit
  have : (ensureSortedPhrases t.Phrases).length ≠ 0 := by
    rw [(perm_ensureSortedPhrases t.Phrases).length_eq]
    intro h0; exact h (List.length_eq_zero.mp h0)
  simp only [this, if_false]
  rfl

theorem milliseconds_eq {s : Int} (h : isInt64 (s * 1000)) : Milliseconds s = s * 1000 :=
  wrap64_eq h

theorem head_le_of_chronological {ps : List Phrase} (hs : Chronological ps) {p : Phrase}
    (hp : p ∈ ps) : (ps.head?.map Phrase.TimestampMs).getD 0 ≤ p.TimestampMs := by
  cases ps with
  | nil => cases hp
  | cons q ps =>
    simp only [List.head?_cons, Option.map_some', Option.getD_some]
    rcases List.mem_cons.mp hp with h | h
    · subst h; exact le_refl _
    · exact (List.pairwise_cons.mp hs).1 p h

theorem le_last_of_chronological {ps : List Phrase} (hs : Chronological ps) {p : Phrase}
    (hp : p ∈ ps) : p.TimestampMs ≤ (ps.getLast?.map Phrase.TimestampMs).getD 0 := by
  rcases List.eq_nil_or_concat ps with h | ⟨qs, q, h⟩
  · subst h; cases hp
  · subst h
    have hq : (qs.concat q).getLast? = some q := by simp
    rw [hq]
    simp only [Option.map_some', Option.getD_some]
    rw [List.concat_eq_append] at hp hs
    rcases List.mem_append.mp hp with h | h
    · exact (List.pairwise_append.mp hs).2.2 p h q (List.mem_singleton_self q)
    · rw [List.mem_singleton.mp h]

/-! ## Whitespace normalisation -/

theorem dropRightWhile_eq_self {p : Char → Bool} {s : List Char}
    (h : ∀ c, s.getLast? = some c → p c = false) : dropRightWhile p s = s := by
  unfold dropRightWhile
  rcases List.eq_nil_or_concat s with h0 | ⟨l, c, h0⟩
  · subst h0; rfl
  · subst h0
    have hc := h c (by simp)
    simp [List.dropWhile, hc]

theorem trimSpace_eq_self {s : List Char} (h1 : ∀ c, s.head? = some c → isSpace c = false)
    (h2 : ∀ c, s.getLast? = some c → isSpace c = false) : TrimSpace s = s := by
  unfold TrimSpace
  have : s.dropWhile isSpace = s := by
    cases s with
    | nil => rfl
    | cons c l => simp [List.dropWhile, h1 c rfl]
  rw [this]
  exact dropRightWhile_eq_self h2

theorem fieldsAux_words (s : List Char) : ∀ (cur : List Char), (∀ c ∈ cur, isSpace c = false) →
    ∀ w ∈ fieldsAux cur s, Word w := by
  induction s with
  | nil =>
    intro cur hcur w hw
    unfold fieldsAux at hw
    split at hw
    · cases hw
    · rename_i hne
      rw [List.mem_singleton] at hw
      subst hw
      refine ⟨?_, fun c hc => hcur c (List.mem_reverse.mp hc)⟩
      intro h0
      exact hne (by simpa using h0)
  | cons c rest ih =>
    intro cur hcur w hw
    unfold fieldsAux at hw
    split at hw
    · split at hw
      · exact ih [] (by simp) w hw
      · rename_i hne
        rcases List.mem_cons.mp hw with h | h
        · subst h
          refine ⟨?_, fun c hc => hcur c (List.mem_reverse.mp hc)⟩
          intro h0
          exact hne (by simpa using h0)
        · exact ih [] (by simp) w h
    · rename_i hc
      refine ih (c :: cur) ?_ w hw
      intro d hd
      rcases List.mem_cons.mp hd with h | h
      · subst h; simpa using hc
      · exact hcur d h

theorem fields_words (s : List Char) : ∀ w ∈ Fields s, Word w :=
  fieldsAux_words s [] (by simp)

theorem fieldsAux_ne_nil (s : List Char) : ∀ (cur : List Char),
    (cur ≠ [] ∨ ∃ c ∈ s, isSpace c = false) → fieldsAux cur s ≠ [] := by
  induction s with
  | nil =>
    intro cur h
    rcases h with h | ⟨c, hc, _⟩
    · unfold fieldsAux
      have : cur.isEmpty = false := by cases cur <;> simp at h ⊢
      simp [this]
    · cases hc
  | cons d rest ih =>
    intro cur h
    unfold fieldsAux
    by_cases hd : isSpace d = true
    · simp only [hd, if_true]
      cases hcur : cur.isEmpty
      · simp
      · simp only [if_true]
        apply ih
        right
        rcases h with h | ⟨c, hc, hs⟩
        · exact absurd (List.isEmpty_iff.mp hcur) h
        · rcases List.mem_cons.mp hc with h1 | h1
          · subst h1; rw [hd] at hs; cases hs
          · exact ⟨c, h1, hs⟩
    · simp only [hd, if_false]
      exact ih _ (Or.inl (by simp))

theorem fields_ne_nil {s : List Char} (h : ∃ c ∈ s, isSpace c = false) : Fields s ≠ [] :=
  fieldsAux_ne_nil s [] (Or.inr h)

theorem fieldsAux_append_space (x : List Char) (sp : Char) (hsp : isSpace sp = true)
    (y : List Char) : ∀ cur, fieldsAux cur (x ++ sp :: y) = fieldsAux cur x ++ Fields y := by
  induction x with
  | nil =>
    intro cur
    simp only [List.nil_append]
    unfold fieldsAux
    simp only [hsp, if_true]
    cases cur.isEmpty <;> simp [Fields, fieldsAux]
  | cons c x ih =>
    intro cur
    simp only [List.cons_append]
    unfold fieldsAux
    by_cases hc : isSpace c = true
    · simp only [hc, if_true]
      cases cur.isEmpty <;> simp [ih]
    · simp [hc, ih]

theorem fields_append_space (x : List Char) (sp : Char) (hsp : isSpace sp = true)
    (y : List Char) : Fields (x ++ sp :: y) = Fields x ++ Fields y :=
  fieldsAux_append_space x sp hsp y []

theorem fieldsAux_word (w : List Char) (hw : ∀ c ∈ w, isSpace c = false) :
    ∀ cur, fieldsAux cur w = if (cur.reverse ++ w).isEmpty then [] else [cur.reverse ++ w] := by
  induction w with
  | nil =>
    intro cur
    unfold fieldsAux
    cases cur <;> simp
  | cons c w ih =>
    intro cur
    unfold fieldsAux
    have hc := hw c (List.mem_cons_self _ _)
    simp only [hc, Bool.false_eq_true, if_false]
    rw [ih (fun d hd => hw d (List.mem_cons_of_mem _ hd))]
    simp

theorem fields_word {w : List Char} (hw : Word w) : Fields w = [w] := by
  unfold Fields
  rw [fieldsAux_word w hw.2]
  have : w.isEmpty = false := by
    cases w with
    | nil => exact absurd rfl hw.1
    | cons _ _ => rfl
  simp [this]

theorem fields_join {ws : List (List Char)} (h : ∀ w ∈ ws, Word w) :
    Fields (Join ws [' ']) = ws := by
  induction ws with
  | nil => rfl
  | cons w ws ih =>
    cases ws with
    | nil => exact fields_word (h w (List.mem_cons_self _ _))
    | cons v ws =>
      unfold Join
      rw [List.append_assoc, List.singleton_append,
        fields_append_space w ' ' (by decide),
        fields_word (h w (List.mem_cons_self _ _)),
        ih (fun u hu => h u (List.mem_cons_of_mem _ hu))]
      rfl

theorem join_head {ws : List (List Char)} (h : ∀ w ∈ ws, Word w) :
    ∀ c, (Join ws [' ']).head? = some c → isSpace c = false := by
  intro c hc
  cases ws with
  | nil => cases hc
  | cons w ws =>
    have hw := h w (List.mem_cons_self _ _)
    cases w with
    | nil => exact absurd rfl hw.1
    | cons d w =>
      have : (Join ((d :: w) :: ws) [' ']).head? = some d := by
        cases ws <;> simp [Join]
      rw [this] at hc
      injection hc with hc
      rw [← hc]
      exact hw.2 d (List.mem_cons_self _ _)

theorem join_last {ws : List (List Char)} (h : ∀ w ∈ ws, Word w) :
    ∀ c, (Join ws [' ']).getLast? = some c → isSpace c = false := by
  induction ws with
  | nil => intro c hc; cases hc
  | cons w ws ih =>
    intro c hc
    have hw := h w (List.mem_cons_self _ _)
    cases ws with
    | nil =>
      simp only [Join] at hc
      exact hw.2 c (List.mem_of_getLast?_eq_some hc)
    | cons v ws =>
      have hv := h v (List.mem_cons_of_mem _ (List.mem_cons_self _ _))
      have hne : Join (v :: ws) [' '] ≠ [] := by
        have hv1 := hv.1
        cases v with
        | nil => exact absurd rfl hv1
        | cons _ _ => cases ws <;> simp [Join]
      unfold Join at hc
      rw [List.getLast?_append_of_ne_nil _ hne] at hc
      exact ih (fun u hu => h u (List.mem_cons_of_mem _ hu)) c hc

/-- `normalizeWhitespace` is the fields joined by single spaces. -/
theorem normalizeWhitespace_eq (s : List Char) :
    normalizeWhitespace s = Join (Fields s) [' '] := by
  unfold normalizeWhitespace
  exact trimSpace_eq_self (join_head (fields_words s)) (join_last (fields_words s))

theorem fields_normalizeWhitespace (s : List Char) :
    Fields (normalizeWhitespace s) = Fields s := by
  rw [normalizeWhitespace_eq, fields_join (fields_words s)]

theorem normalizeWhitespace_idem (s : List Char) :
    normalizeWhitespace (normalizeWhitespace s) = normalizeWhitespace s := by
  rw [normalizeWhitespace_eq (normalizeWhitespace s), fields_normalizeWhitespace,
    ← normalizeWhitespace_eq]

theorem trimSpace_normalizeWhitespace (s : List Char) :
    TrimSpace (normalizeWhitespace s) = normalizeWhitespace s := by
  rw [normalizeWhitespace_eq]
  exact trimSpace_eq_self (join_head (fields_words s)) (join_last (fields_words s))

theorem normalizeWhitespace_ne_nil {s : List Char} (h : ∃ c ∈ s, isSpace c = false) :
    normalizeWhitespace s ≠ [] := by
  rw [normalizeWhitespace_eq]
  have h1 := fields_ne_nil h
  have h2 := fields_words s
  cases hf : Fields s with
  | nil => exact absurd hf h1
  | cons w ws =>
    rw [hf] at h2
    have hw := (h2 w (List.mem_cons_self _ _)).1
    cases w with
    | nil => exact absurd rfl hw
    | cons _ _ => cases ws <;> simp [Join]

/-! ## More on normalisation -/

theorem join_cons_of_ne_nil (p : List Char) {L : List (List Char)} (hL : L ≠ [])
    (sep : List Char) : Join (p :: L) sep = p ++ sep ++ Join L sep := by
  cases L with
  | nil => exact absurd rfl hL
  | cons q L => rfl

theorem getLast?_cons_of_ne_nil {c : Char} {x : List Char} (hx : x ≠ []) :
    (c :: x).getLast? = x.getLast? := by
  cases x with
  | nil => exact absurd rfl hx
  | cons d x => simp [List.getLast?_cons_cons]

/-- Appending runes that are no white space to a text that does not end with white
space extends its last field. -/
theorem join_fieldsAux_append_word (w : List Char) (hw : ∀ c ∈ w, isSpace c = false)
    (x : List Char) : ∀ (cur : List Char),
    (∀ c, x.getLast? = some c → isSpace c = false) →
    Join (fieldsAux cur (x ++ w)) [' '] = Join (fieldsAux cur x) [' '] ++ w := by
  induction x with
  | nil =>
    intro cur _
    rw [List.nil_append, fieldsAux_word w hw]
    unfold fieldsAux
    cases cur with
    | nil => cases w <;> simp [Join]
    | cons d cur => simp [Join]
  | cons c x ih =>
    intro cur hlast
    rw [List.cons_append]
    unfold fieldsAux
    by_cases hc : isSpace c = true
    · have hx : x ≠ [] := by
        intro h0
        subst h0
        have := hlast c rfl
        rw [hc] at this; cases this
      have hlast2 : ∀ d, x.getLast? = some d → isSpace d = false := by
        intro d hd
        exact hlast d (by rw [getLast?_cons_of_ne_nil hx]; exact hd)
      have hns : ∃ d ∈ x, isSpace d = false := by
        obtain ⟨d, hd⟩ : ∃ d, x.getLast? = some d := by
          cases h : x.getLast? with
          | none => exact absurd (List.getLast?_eq_none_iff.mp h) hx
          | some d => exact ⟨d, rfl⟩
        exact ⟨d, List.mem_of_getLast?_eq_some hd, hlast2 d hd⟩
      have hF : fieldsAux [] x ≠ [] := fieldsAux_ne_nil x [] (Or.inr hns)
      have hF2 : fieldsAux [] (x ++ w) ≠ [] := by
        apply fieldsAux_ne_nil
        right
        obtain ⟨d, hd, hs⟩ := hns
        exact ⟨d, List.mem_append_left _ hd, hs⟩
      simp only [hc, if_true]
      cases cur.isEmpty
      · simp only [Bool.false_eq_true, if_false]
        rw [join_cons_of_ne_nil _ hF2, join_cons_of_ne_nil _ hF, ih [] hlast2]
        simp
      · simp only [if_true]
        exact ih [] hlast2
    · simp only [hc, if_false]
      apply ih
      intro d hd
      cases x with
      | nil => cases hd
      | cons e x => exact hlast d (by rw [getLast?_cons_of_ne_nil (by simp)]; exact hd)

theorem normalizeWhitespace_append_word (x w : List Char) (hw : ∀ c ∈ w, isSpace c = false)
    (hx : ∀ c, x.getLast? = some c → isSpace c = false) :
    normalizeWhitespace (x ++ w) = normalizeWhitespace x ++ w := by
  rw [normalizeWhitespace_eq, normalizeWhitespace_eq]
  exact join_fieldsAux_append_word w hw x [] hx

/-- A text without white space at either end, whose only white-space rune is the plain
space and which never has two of them in a row, is its own normal form. -/
theorem join_fieldsAux_single_spaced (s : List Char) : ∀ (cur : List Char),
    (∀ c ∈ s, isSpace c = true → c = ' ') →
    s.Chain' (fun a b => ¬ (isSpace a = true ∧ isSpace b = true)) →
    (∀ c, s.getLast? = some c → isSpace c = false) →
    (cur = [] → ∀ c, s.head? = some c → isSpace c = false) →
    Join (fieldsAux cur s) [' '] = cur.reverse ++ s := by
  induction s with
  | nil =>
    intro cur _ _ _ _
    unfold fieldsAux
    cases cur <;> simp [Join]
  | cons c s ih =>
    intro cur hsp hch hlast hhead
    have hsp2 : ∀ d ∈ s, isSpace d = true → d = ' ' :=
      fun d hd => hsp d (List.mem_cons_of_mem _ hd)
    have hch2 := List.Chain'.tail hch
    simp only [List.tail_cons] at hch2
    unfold fieldsAux
    by_cases hc : isSpace c = true
    · have hcs : c = ' ' := hsp c (List.mem_cons_self _ _) hc
      have hcur : cur ≠ [] := by
        intro h0
        have := hhead h0 c rfl
        rw [hc] at this; cases this
      have hx : s ≠ [] := by
        intro h0
        subst h0
        have := hlast c rfl
        rw [hc] at this; cases this
      have hlast2 : ∀ d, s.getLast? = some d → isSpace d = false := by
        intro d hd
        exact hlast d (by rw [getLast?_cons_of_ne_nil hx]; exact hd)
      have hhead2 : ∀ d, s.head? = some d → isSpace d = false := by
        intro d hd
        cases s with
        | nil => cases hd
        | cons e s =>
          injection hd with hd
          subst hd
          have := (List.chain'_cons.mp hch).1
          cases he : isSpace e
          · rfl
          · exact absurd ⟨hc, he⟩ this
      have hns : ∃ d ∈ s, isSpace d = false := by
        cases s with
        | nil => exact absurd rfl hx
        | cons e s => exact ⟨e, List.mem_cons_self _ _, hhead2 e rfl⟩
      have hF : fieldsAux [] s ≠ [] := fieldsAux_ne_nil s [] (Or.inr hns)
      have hce : cur.isEmpty = false := by cases cur <;> simp at hcur ⊢
      simp only [hc, if_true, hce, Bool.false_eq_true, if_false]
      rw [join_cons_of_ne_nil _ hF, ih [] hsp2 hch2 hlast2 (fun _ => hhead2), hcs]
      simp
    · simp only [hc, Bool.false_eq_true, if_false]
      rw [ih (c :: cur) hsp2 hch2 _ (fun h => by simp at h)]
      · simp
      · intro d hd
        cases s with
        | nil => cases hd
        | cons e s => exact hlast d (by rw [getLast?_cons_of_ne_nil (by simp)]; exact hd)

theorem normalizeWhitespace_single_spaced {s : List Char}
    (hsp : ∀ c ∈ s, isSpace c = true → c = ' ')
    (hch : s.Chain' (fun a b => ¬ (isSpace a = true ∧ isSpace b = true)))
    (hhead : ∀ c, s.head? = some c → isSpace c = false)
    (hlast : ∀ c, s.getLast? = some c → isSpace c = false) :
    normalizeWhitespace s = s := by
  rw [normalizeWhitespace_eq]
  exact join_fieldsAux_single_spaced s [] hsp hch hlast (fun _ => hhead)

/-! ## C1: a tie goes to the later phrase -/

/-- C1. In a chronological phrase list (timestamps non-negative `int64` values, as the
data model has them) a chapter that starts strictly between two adjacent phrases, at
equal distance from both, has the later phrase as its nearest one: `nearestPhraseIndex`
returns the index of the right neighbour. With threshold 0 the merged stream holds the
chapter after the left phrase and before the right one, and so does the rendered text:
the heading line is written after the text of the left phrase and before the text of
the right phrase. -/
theorem tie_attaches_to_later_phrase (t : Transcript) (request : OutputTextLayout) (c : Chapter)
    (i : Nat) (pl pr : Phrase)
    (hs : Chronological t.Phrases)
    (h0 : ∀ p ∈ t.Phrases, 0 ≤ p.TimestampMs ∧ isInt64 p.TimestampMs)
    (hl : t.Phrases[i]? = some pl) (hr : t.Phrases[i + 1]? = some pr) (hc : c ∈ t.Chapters)
    (h1 : pl.TimestampMs < c.Start * 1000) (h2 : c.Start * 1000 < pr.TimestampMs)
    (htie : c.Start * 1000 - pl.TimestampMs = pr.TimestampMs - c.Start * 1000) :
    nearestPhraseIndex t.Phrases (Milliseconds c.Start) =
        (((i + 1 : Nat) : Int), pr.TimestampMs - c.Start * 1000) ∧
    ∃ A B o1 o2 o3,
      mergedStream t 0 = A ++ (⟨pr.TimestampMs - 1, true, c.Title, o2⟩ : event) :: B ∧
      (⟨pl.TimestampMs, false, pl.Text, o1⟩ : event) ∈ A ∧
      (⟨pr.TimestampMs, false, pr.Text, o3⟩ : event) ∈ B ∧
      transcriptWithChaptersSplit t 0 request =
        TrimRight (renderLoop request false A ++
          (if contentOpen false A then chapterSep request else []) ++
          headingLine request c.Title ++ renderLoop request false B) trailingCutset ++ ['\n'] ∧
      Occurs (TrimSpace pl.Text) (renderLoop request false A) ∧
      Occurs (TrimSpace pr.Text) (renderLoop request false B) := by
  have hplm : pl ∈ t.Phrases := List.getElem?_mem hl
  have hprm : pr ∈ t.Phrases := List.getElem?_mem hr
  have hpl0 := h0 pl hplm
  have hpr0 := h0 pr hprm
  have hms : Milliseconds c.Start = c.Start * 1000 := by
    apply milliseconds_eq
    have := hpr0.2
    unfold isInt64 at *; omega
  have hnear : nearestPhraseIndex t.Phrases (Milliseconds c.Start) =
      (((i + 1 : Nat) : Int), pr.TimestampMs - c.Start * 1000) := by
    rw [hms, nearestPhraseIndex_between hs hl hr h1 h2 hpl0.1 hpr0.2]
    have hlt : pr.TimestampMs - c.Start * 1000 < maxInt64 := by
      have := hpr0.2
      unfold isInt64 at this; unfold maxInt64; omega
    rw [if_pos hlt, if_neg (by omega), if_pos hlt]
  refine ⟨hnear, ?_⟩
  have hne : t.Phrases ≠ [] := List.ne_nil_of_mem hplm
  have hadj : adjustedTs c t.Phrases 0 = pr.TimestampMs - 1 := by
    unfold adjustedTs
    simp only [hnear]
    rw [if_pos ⟨by omega, Or.inl trivial⟩]
    simp only [Int.toNat_ofNat, hr]
    rw [if_pos (by omega)]
  -- the three events are in the merged stream
  have hes : ensureSortedPhrases t.Phrases = t.Phrases := ensureSortedPhrases_of_chronological hs
  have hcm : c ∈ sortChapters t.Chapters := (perm_sortChapters _).mem_iff.mpr hc
  obtain ⟨o1, ho1⟩ := phrase_mem_buildEvents hplm (sortChapters t.Chapters) 0
  obtain ⟨o3, ho3⟩ := phrase_mem_buildEvents hprm (sortChapters t.Chapters) 0
  obtain ⟨o2, ho2⟩ := @middle_mem_buildEvents t.Phrases _ _ hcm 0
    (by have := head_le_of_chronological hs hplm; rw [hms]; omega)
    (by have := le_last_of_chronological hs hprm; rw [hms]; omega)
  rw [hadj] at ho2
  have hord : Ordered eventLess (mergedStream t 0) := ordered_sortStable weakOrder_eventLess _
  have hmem : ∀ e, e ∈ buildEvents t.Phrases (sortChapters t.Chapters) 0 →
      e ∈ mergedStream t 0 := by
    intro e he
    unfold mergedStream
    rw [hes]
    exact (mem_sortStable _ _ _).mpr he
  obtain ⟨A, B, hAB, hA, hB⟩ := ordered_split3 weakOrder_eventLess hord
    (hmem _ ho1) (hmem _ ho2) (hmem _ ho3)
    (by rw [eventLess_true_iff]; left; show pl.TimestampMs < pr.TimestampMs - 1; omega)
    (by rw [eventLess_true_iff]; left; show pr.TimestampMs - 1 < pr.TimestampMs; omega)
  refine ⟨A, B, o1, o2, o3, hAB, hA, hB, ?_, occurs_renderLoop request hA rfl false,
    occurs_renderLoop request hB rfl false⟩
  rw [transcriptWithChaptersSplit_eq t 0 request hne, hAB, renderLoop_append,
    renderLoop_chapter request _ B _ rfl]
  simp only [List.append_assoc]

theorem adjustedTs_keep {ps : List Phrase} {c : Chapter} {thr : Int} (hthr : thr ≠ 0)
    (h : (nearestPhraseIndex ps (Milliseconds c.Start)).1 < 0 ∨
      thr < (nearestPhraseIndex ps (Milliseconds c.Start)).2) :
    adjustedTs c ps thr = Milliseconds c.Start := by
  unfold adjustedTs
  simp only
  rw [if_neg]
  rintro ⟨h1, h2 | h2⟩
  · exact hthr h2
  · rcases h with h | h <;> omega

/-- C2. Two phrases A and B (timestamps non-negative `int64` values) and one chapter
that starts strictly between them: when the threshold is not zero and the chapter is
farther than the threshold from both phrases, hence from the nearest one, the chapter
event keeps the timestamp `Start * 1000`, the merged stream is A, chapter, B, and the
rendered text is the text of A, the heading line, then the text of B. -/
theorem threshold_prevents_nudge (title : List Char) (A B : Phrase) (c : Chapter) (thr : Int)
    (request : OutputTextLayout)
    (h0 : 0 ≤ A.TimestampMs) (h64 : isInt64 B.TimestampMs)
    (h1 : A.TimestampMs < c.Start * 1000) (h2 : c.Start * 1000 < B.TimestampMs)
    (hthr : thr ≠ 0)
    (hdA : thr < c.Start * 1000 - A.TimestampMs) (hdB : thr < B.TimestampMs - c.Start * 1000) :
    mergedStream ⟨title, [A, B], [c]⟩ thr =
      [⟨A.TimestampMs, false, A.Text, 0⟩, ⟨c.Start * 1000, true, c.Title, 2⟩,
        ⟨B.TimestampMs, false, B.Text, 1⟩] ∧
    transcriptWithChaptersSplit ⟨title, [A, B], [c]⟩ thr request =
      TrimRight (TrimSpace A.Text ++
        (if (TrimSpace A.Text).isEmpty then [] else chapterSep request) ++
        headingLine request c.Title ++ TrimSpace B.Text) trailingCutset ++ ['\n'] := by
  have hs : Chronological [A, B] := by
    simp only [Chronological, List.pairwise_cons, List.mem_singleton, forall_eq,
      List.not_mem_nil, false_implies, implies_true, List.Pairwise.nil, and_true]
    omega
  have hms : Milliseconds c.Start = c.Start * 1000 := by
    apply milliseconds_eq
    unfold isInt64 at *; omega
  have hnear := @nearestPhraseIndex_between [A, B] hs (c.Start * 1000) 0 A B rfl rfl h1 h2 h0 h64
  have hadj : adjustedTs c [A, B] thr = c.Start * 1000 := by
    rw [adjustedTs_keep hthr, hms]
    rw [hms, hnear]
    by_cases ha : B.TimestampMs - c.Start * 1000 < maxInt64
    · simp only [ha, if_true]
      by_cases hb : c.Start * 1000 - A.TimestampMs < B.TimestampMs - c.Start * 1000
      · simp only [hb, if_true]; right; exact hdA
      · simp only [hb, if_false]; right; exact hdB
    · simp only [ha, if_false]
      by_cases hb : c.Start * 1000 - A.TimestampMs < maxInt64
      · simp only [hb, if_true]; right; exact hdA
      · simp only [hb, if_false]; left; decide
  have hstream : mergedStream ⟨title, [A, B], [c]⟩ thr =
      [⟨A.TimestampMs, false, A.Text, 0⟩, ⟨c.Start * 1000, true, c.Title, 2⟩,
        ⟨B.TimestampMs, false, B.Text, 1⟩] := by
    unfold mergedStream
    simp only [ensureSortedPhrases_of_chronological hs]
    have hsc : sortChapters [c] = [c] := by simp [sortChapters]
    rw [hsc]
    have hb : buildEvents [A, B] [c] thr =
        [⟨A.TimestampMs, false, A.Text, 0⟩, ⟨B.TimestampMs, false, B.Text, 1⟩,
          ⟨c.Start * 1000, true, c.Title, 2⟩] := by
      unfold buildEvents
      have hsp : splitChapters [c] A.TimestampMs B.TimestampMs = ([], [c], []) := by
        simp only [splitChapters, hms]
        rw [if_neg (by omega), if_neg (by omega)]
      simp [hsp, chapterEvents, buildEventsFromPhrases, adjustMiddleChapters, hadj]
    rw [hb]
    have e1 : eventLess ⟨c.Start * 1000, true, c.Title, 2⟩ ⟨B.TimestampMs, false, B.Text, 1⟩
        = true := by
      rw [eventLess_true_iff]; left; exact h2
    have e2 : eventLess ⟨c.Start * 1000, true, c.Title, 2⟩ ⟨A.TimestampMs, false, A.Text, 0⟩
        = false := by
      rw [eventLess_false_iff]; left; exact h1
    simp [sortStable, insertOrdered, e1, e2]
  refine ⟨hstream, ?_⟩
  rw [transcriptWithChaptersSplit_eq _ _ _ (by simp), hstream]
  by_cases hA : (TrimSpace A.Text).isEmpty = true <;>
    by_cases hB : (TrimSpace B.Text).isEmpty = true
  · have hA2 := List.isEmpty_iff.mp hA
    have hB2 := List.isEmpty_iff.mp hB
    simp [renderLoop, hA2, hB2, headingLine]
  · have hA2 := List.isEmpty_iff.mp hA
    simp [renderLoop, hA2, hB, headingLine]
  · have hB2 := List.isEmpty_iff.mp hB
    simp [renderLoop, hA, hB2, headingLine]
  · simp [renderLoop, hA, hB, headingLine]

/-! ## C3: snapping -/

/-- In an ordered list an element strictly less than another one stands before it, and
whatever stands between them is neither less than the first nor greater than the second. -/
theorem ordered_between {α : Type} {less : α → α → Bool} (hw : WeakOrder less) {l : List α}
    (hl : Ordered less l) {x z : α} (hx : x ∈ l) (hz : z ∈ l) (hxz : less x z = true) :
    ∃ A B1 B2, l = A ++ x :: (B1 ++ z :: B2) ∧
      ∀ e ∈ B1, less e x = false ∧ less z e = false := by
  obtain ⟨A, B, rfl⟩ := List.append_of_mem hx
  have hp := List.pairwise_append.mp hl
  have hxB := List.pairwise_cons.mp hp.2.1
  have hzB : z ∈ B := by
    rcases List.mem_append.mp hz with h | h
    · exfalso
      have := hp.2.2 z h x (List.mem_cons_self _ _)
      rw [hxz] at this; exact Bool.noConfusion this
    · rcases List.mem_cons.mp h with h | h
      · subst h
        have := hw.asymm _ _ hxz
        rw [hxz] at this; exact Bool.noConfusion this
      · exact h
  obtain ⟨B1, B2, rfl⟩ := List.append_of_mem hzB
  refine ⟨A, B1, B2, rfl, ?_⟩
  intro e he
  exact ⟨hxB.1 e (List.mem_append_left _ he),
    (List.pairwise_append.mp hxB.2).2.2 e he z (List.mem_cons_self _ _)⟩

/-- The nearest phrase of a timestamp that is a whole number of seconds, after the first
phrase and not after the last (timestamps non-negative `int64` values). -/
theorem nearestPhraseIndex_middle {ps : List Phrase} (hs : Chronological ps)
    (h0 : ∀ p ∈ ps, 0 ≤ p.TimestampMs ∧ isInt64 p.TimestampMs) {pf pz : Phrase}
    (hf : ps.head? = some pf) (hz : ps.getLast? = some pz) (s : Int)
    (h1 : pf.TimestampMs < s * 1000) (h2 : s * 1000 ≤ pz.TimestampMs) :
    ∃ (idx : Nat) (p : Phrase), ps[idx]? = some p ∧
      nearestPhraseIndex ps (s * 1000) = ((idx : Int), |p.TimestampMs - s * 1000|) := by
  obtain ⟨hle, hlo, hhi, hfound⟩ := binarySearchFunc_spec hs (s * 1000)
  have hn : 0 < ps.length := by
    cases ps with
    | nil => cases hf
    | cons _ _ => simp
  have hf0 : ps[0]? = some pf := by rw [← List.head?_eq_getElem?]; exact hf
  have hzn : ps[ps.length - 1]? = some pz := by rw [← List.getLast?_eq_getElem?]; exact hz
  cases hb : (binarySearchFunc ps (s * 1000)).2
  · -- no exact match: two neighbours
    have hr1 : 1 ≤ (binarySearchFunc ps (s * 1000)).1 := by
      by_contra hlt
      have := hhi 0 pf (by omega) hf0
      omega
    have hrn : (binarySearchFunc ps (s * 1000)).1 < ps.length := by
      by_contra hge
      have := hlo (ps.length - 1) pz (by omega) hzn
      omega
    obtain ⟨i, hi⟩ : ∃ i, (binarySearchFunc ps (s * 1000)).1 = i + 1 := ⟨_, (Nat.sub_add_cancel hr1).symm⟩
    rw [hi] at hrn hlo hhi hfound
    have hgl : ps[i]? = some ps[i] := List.getElem?_eq_getElem (by omega)
    have hgr : ps[i + 1]? = some ps[i + 1] := List.getElem?_eq_getElem hrn
    have hl1 := hlo i _ (by omega) hgl
    have hr1 := hhi (i + 1) _ (le_refl _) hgr
    have hr2 : s * 1000 < ps[i + 1].TimestampMs := by
      rcases lt_or_eq_of_le hr1 with h | h
      · exact h
      · exfalso
        have := hfound.mpr ⟨_, hgr, h.symm⟩
        rw [hb] at this; exact Bool.noConfusion this
    have hl0 := h0 _ (List.getElem?_mem hgl)
    have hr0 := h0 _ (List.getElem?_mem hgr)
    have hnear := nearestPhraseIndex_between hs hgl hgr hl1 hr2 hl0.1 hr0.2
    have h64 := hr0.2
    unfold isInt64 at h64
    by_cases ha : ps[i + 1].TimestampMs - s * 1000 < maxInt64
    · by_cases hd : s * 1000 - ps[i].TimestampMs < ps[i + 1].TimestampMs - s * 1000
      · refine ⟨i, _, hgl, ?_⟩
        rw [hnear, if_pos ha, if_pos hd, abs_of_nonpos (by omega)]
        simp
      · refine ⟨i + 1, _, hgr, ?_⟩
        rw [hnear, if_pos ha, if_neg hd, if_pos ha, abs_of_nonneg (by omega)]
    · have hd : s * 1000 - ps[i].TimestampMs < maxInt64 := by
        unfold maxInt64 at *; omega
      refine ⟨i, _, hgl, ?_⟩
      rw [hnear, if_neg ha, if_pos hd, abs_of_nonpos (by omega)]
      simp
  · -- exact match
    obtain ⟨p, hp, hk⟩ := hfound.mp hb
    refine ⟨_, p, hp, ?_⟩
    have hne : ps.length ≠ 0 := by omega
    unfold nearestPhraseIndex
    simp only [hne, if_false, hb, if_true, hk, sub_self, abs_zero]

/-- C3, the claim as stated fails. Phrases at 0, 999 and 1000 ms and a chapter at 1 s,
threshold 0: the nearest phrase is the third one (exact match), the chapter event gets
timestamp 999, and in the merged stream the phrase at 999 stands between the chapter
and its nearest phrase. -/
theorem snap_not_immediately_before :
    nearestPhraseIndex [⟨0, ['X'], 1, 1⟩, ⟨999, ['Y'], 1, 1⟩, ⟨1000, ['Z'], 1, 1⟩]
        (Milliseconds 1) = (2, 0) ∧
    mergedStream ⟨[], [⟨0, ['X'], 1, 1⟩, ⟨999, ['Y'], 1, 1⟩, ⟨1000, ['Z'], 1, 1⟩],
        [⟨1, ['C']⟩]⟩ 0 =
      [⟨0, false, ['X'], 0⟩, ⟨999, true, ['C'], 3⟩, ⟨999, false, ['Y'], 1⟩,
        ⟨1000, false, ['Z'], 2⟩] := by
  constructor <;> decide

/-- C3, amended. In a chronological phrase list with non-negative `int64` timestamps, a
chapter that starts after the first phrase and not after the last, with threshold 0 or
with its nearest-phrase distance within the threshold, gets the event timestamp
`nearest.TimestampMs - 1` (0 when that phrase is at 0) and stands before its nearest
phrase in the merged stream; every event between the two, so every phrase between
them, has a timestamp from the chapter's new one up to that of the nearest phrase,
that is `nearest.TimestampMs - 1` or `nearest.TimestampMs`. -/
theorem snapped_chapter_before_nearest (t : Transcript) (c : Chapter) (thr : Int)
    (pf pz : Phrase)
    (hs : Chronological t.Phrases)
    (h0 : ∀ p ∈ t.Phrases, 0 ≤ p.TimestampMs ∧ isInt64 p.TimestampMs)
    (hc : c ∈ t.Chapters)
    (hf : t.Phrases.head? = some pf) (hz : t.Phrases.getLast? = some pz)
    (h1 : pf.TimestampMs < c.Start * 1000) (h2 : c.Start * 1000 ≤ pz.TimestampMs)
    (hthr : thr = 0 ∨ (nearestPhraseIndex t.Phrases (Milliseconds c.Start)).2 ≤ thr) :
    ∃ (idx : Nat) (p : Phrase), t.Phrases[idx]? = some p ∧
      nearestPhraseIndex t.Phrases (Milliseconds c.Start) =
        ((idx : Int), |p.TimestampMs - c.Start * 1000|) ∧
      adjustedTs c t.Phrases thr = (if p.TimestampMs = 0 then 0 else p.TimestampMs - 1) ∧
      ∃ A B1 B2 o1 o2,
        mergedStream t thr =
          A ++ (⟨adjustedTs c t.Phrases thr, true, c.Title, o1⟩ : event) ::
            (B1 ++ (⟨p.TimestampMs, false, p.Text, o2⟩ : event) :: B2) ∧
        ∀ e ∈ B1, adjustedTs c t.Phrases thr ≤ e.ts ∧ e.ts ≤ p.TimestampMs := by
  have hzm : pz ∈ t.Phrases := List.mem_of_getLast?_eq_some hz
  have hfm : pf ∈ t.Phrases := List.mem_of_mem_head? hf
  have hms : Milliseconds c.Start = c.Start * 1000 := by
    apply milliseconds_eq
    have := (h0 pz hzm).2
    have := (h0 pf hfm).1
    unfold isInt64 at *; omega
  obtain ⟨idx, p, hp, hnear⟩ := nearestPhraseIndex_middle hs h0 hf hz c.Start h1 h2
  have hpm : p ∈ t.Phrases := List.getElem?_mem hp
  have hp0 := (h0 p hpm).1
  have hadj : adjustedTs c t.Phrases thr = (if p.TimestampMs = 0 then 0 else p.TimestampMs - 1) := by
    have hthr2 : thr = 0 ∨ |p.TimestampMs - c.Start * 1000| ≤ thr := by
      rw [hms, hnear] at hthr; exact hthr
    unfold adjustedTs
    simp only
    rw [hms, hnear]
    rw [if_pos ⟨by simp, hthr2⟩]
    simp only [Int.toNat_ofNat, hp]
    by_cases hp1 : p.TimestampMs = 0
    · simp [hp1]
    · rw [if_pos (by omega), if_neg hp1]
  refine ⟨idx, p, hp, by rw [hms]; exact hnear, hadj, ?_⟩
  have hes : ensureSortedPhrases t.Phrases = t.Phrases := ensureSortedPhrases_of_chronological hs
  have hcm : c ∈ sortChapters t.Chapters := (perm_sortChapters _).mem_iff.mpr hc
  obtain ⟨o2, ho2⟩ := phrase_mem_buildEvents hpm (sortChapters t.Chapters) thr
  obtain ⟨o1, ho1⟩ := @middle_mem_buildEvents t.Phrases _ _ hcm thr
    (by rw [hf, hms]; simp only [Option.map_some', Option.getD_some]; omega)
    (by rw [hz, hms]; simp only [Option.map_some', Option.getD_some]; omega)
  have hord : Ordered eventLess (mergedStream t thr) := ordered_sortStable weakOrder_eventLess _
  have hmem : ∀ e, e ∈ buildEvents t.Phrases (sortChapters t.Chapters) thr →
      e ∈ mergedStream t thr := by
    intro e he
    unfold mergedStream
    rw [hes]
    exact (mem_sortStable _ _ _).mpr he
  have hless : eventLess ⟨adjustedTs c t.Phrases thr, true, c.Title, o1⟩
      ⟨p.TimestampMs, false, p.Text, o2⟩ = true := by
    rw [eventLess_true_iff, hadj]
    by_cases hp1 : p.TimestampMs = 0
    · right; simp [hp1]
    · left; simp only [hp1, if_false]; omega
  obtain ⟨A, B1, B2, hAB, hB1⟩ := ordered_between weakOrder_eventLess hord
    (hmem _ ho1) (hmem _ ho2) hless
  refine ⟨A, B1, B2, o1, o2, hAB, ?_⟩
  intro e he
  obtain ⟨ha, hb⟩ := hB1 e he
  rw [eventLess_false_iff] at ha hb
  constructor
  · rcases ha with ha | ha
    · exact le_of_lt ha
    · exact le_of_eq ha.1.symm
  · rcases hb with hb | hb
    · exact le_of_lt hb
    · exact le_of_eq hb.1.symm

/-! ## C4: chapters before the first phrase -/

theorem of_mem_chapterEvents {cs : List Chapter} {e : event} {b : Nat}
    (he : e ∈ chapterEvents cs b) :
    e.isChapter = true ∧ b ≤ e.order ∧ ∃ c ∈ cs, e.ts = Milliseconds c.Start := by
  induction cs generalizing b with
  | nil => cases he
  | cons q cs ih =>
    unfold chapterEvents at he
    rcases List.mem_cons.mp he with h | h
    · subst h; exact ⟨rfl, le_refl _, q, List.mem_cons_self _ _, rfl⟩
    · obtain ⟨h1, h2, c, hc, h3⟩ := ih h
      exact ⟨h1, by omega, c, List.mem_cons_of_mem _ hc, h3⟩

theorem order_of_mem_buildEventsFromPhrases {ps : List Phrase} {e : event} {b : Nat}
    (he : e ∈ buildEventsFromPhrases ps b) : b ≤ e.order := by
  induction ps generalizing b with
  | nil => cases he
  | cons q ps ih =>
    unfold buildEventsFromPhrases at he
    rcases List.mem_cons.mp he with h | h
    · subst h; exact le_refl _
    · have := ih h; omega

theorem ordered_chapterEvents {cs : List Chapter} {s : Int} (hcs : ∀ c ∈ cs, c.Start = s)
    (b : Nat) : Ordered eventLess (chapterEvents cs b) := by
  induction cs generalizing b with
  | nil => exact List.Pairwise.nil
  | cons q cs ih =>
    unfold chapterEvents
    refine List.pairwise_cons.mpr ⟨?_, ih (fun c hc => hcs c (List.mem_cons_of_mem _ hc)) _⟩
    intro e he
    obtain ⟨h1, h2, c, hc, h3⟩ := of_mem_chapterEvents he
    rw [eventLess_false_iff]
    right
    refine ⟨?_, Or.inr ⟨h1, by simp only; omega⟩⟩
    rw [h3, hcs c (List.mem_cons_of_mem _ hc), hcs q (List.mem_cons_self _ _)]

theorem ordered_buildEventsFromPhrases {ps : List Phrase} (hs : Chronological ps) (b : Nat) :
    Ordered eventLess (buildEventsFromPhrases ps b) := by
  induction ps generalizing b with
  | nil => exact List.Pairwise.nil
  | cons q ps ih =>
    have hq := List.pairwise_cons.mp hs
    unfold buildEventsFromPhrases
    refine List.pairwise_cons.mpr ⟨?_, ih hq.2 _⟩
    intro e he
    obtain ⟨h1, p, hp, h2, _⟩ := of_mem_buildEventsFromPhrases he
    have h3 := order_of_mem_buildEventsFromPhrases he
    have h4 := hq.1 p hp
    rw [eventLess_false_iff]
    rcases lt_or_eq_of_le h4 with h | h
    · left; simp only; omega
    · right; exact ⟨by simp only; omega, Or.inr ⟨h1, by simp only; omega⟩⟩

theorem ordered_append {α : Type} {less : α → α → Bool} {l1 l2 : List α}
    (h1 : Ordered less l1) (h2 : Ordered less l2)
    (h : ∀ a ∈ l1, ∀ b ∈ l2, less b a = false) : Ordered less (l1 ++ l2) :=
  List.pairwise_append.mpr ⟨h1, h2, h⟩

theorem sortChapters_same_start {cs : List Chapter} {s : Int} (hcs : ∀ c ∈ cs, c.Start = s) :
    sortChapters cs = cs := by
  unfold sortChapters
  split
  · rfl
  · apply sortStable_eq_self
    unfold Ordered
    rw [List.pairwise_iff_forall_sublist]
    intro a b hab
    have ha := hcs a (hab.subset (List.mem_cons_self _ _))
    have hb := hcs b (hab.subset (List.mem_cons_of_mem _ (List.mem_singleton_self _)))
    simp [chapterLess, ha, hb]

theorem splitChapters_all_before {cs : List Chapter} {f l : Int}
    (h : ∀ c ∈ cs, Milliseconds c.Start ≤ f) : splitChapters cs f l = (cs, [], []) := by
  induction cs with
  | nil => rfl
  | cons q cs ih =>
    unfold splitChapters
    simp only [ih (fun c hc => h c (List.mem_cons_of_mem _ hc)),
      if_pos (h q (List.mem_cons_self _ _))]

theorem renderLoop_chapterEvents (request : OutputTextLayout) (cs : List Chapter) (b : Nat)
    (rest : List event) :
    renderLoop request false (chapterEvents cs b ++ rest) =
      (cs.map (fun c => headingLine request c.Title)).flatten ++
        renderLoop request false rest := by
  induction cs generalizing b with
  | nil => simp [chapterEvents]
  | cons q cs ih =>
    unfold chapterEvents
    rw [List.cons_append, renderLoop_chapter request _ _ _ rfl, ih]
    simp

/-- C4. A transcript with at least one phrase whose chapters all share one start time,
not after the timestamp of the first phrase (of the ordered working copy): the merged
stream is the chapters in the order of `Transcript.Chapters`, then the phrases, and the
rendered text opens with the heading lines in that same order. -/
theorem same_start_chapters_keep_input_order (t : Transcript) (thr : Int)
    (request : OutputTextLayout) (s : Int)
    (hne : t.Phrases ≠ [])
    (hcs : ∀ c ∈ t.Chapters, c.Start = s)
    (hfirst : ∀ p, (ensureSortedPhrases t.Phrases).head? = some p →
      Milliseconds s ≤ p.TimestampMs) :
    mergedStream t thr =
      chapterEvents t.Chapters 0 ++
        buildEventsFromPhrases (ensureSortedPhrases t.Phrases) t.Chapters.length ∧
    transcriptWithChaptersSplit t thr request =
      TrimRight ((t.Chapters.map (fun c => headingLine request c.Title)).flatten ++
        renderLoop request false
          (buildEventsFromPhrases (ensureSortedPhrases t.Phrases) t.Chapters.length))
        trailingCutset ++ ['\n'] := by
  have hch := chronological_ensureSortedPhrases t.Phrases
  have hall : ∀ p ∈ ensureSortedPhrases t.Phrases, Milliseconds s ≤ p.TimestampMs := by
    intro p hp
    have h1 := head_le_of_chronological hch hp
    cases hq : (ensureSortedPhrases t.Phrases).head? with
    | none =>
      rw [List.head?_eq_none_iff] at hq
      rw [hq] at hp; cases hp
    | some q =>
      have := hfirst q hq
      rw [hq] at h1
      simp only [Option.map_some', Option.getD_some] at h1
      omega
  have hstream : mergedStream t thr =
      chapterEvents t.Chapters 0 ++
        buildEventsFromPhrases (ensureSortedPhrases t.Phrases) t.Chapters.length := by
    unfold mergedStream
    rw [sortChapters_same_start hcs]
    have hb : buildEvents (ensureSortedPhrases t.Phrases) t.Chapters thr =
        chapterEvents t.Chapters 0 ++
          buildEventsFromPhrases (ensureSortedPhrases t.Phrases) t.Chapters.length := by
      unfold buildEvents
      have hfirst2 : ∀ c ∈ t.Chapters, Milliseconds c.Start ≤
          ((ensureSortedPhrases t.Phrases).head?.map Phrase.TimestampMs).getD 0 := by
        intro c hc
        rw [hcs c hc]
        cases hq : (ensureSortedPhrases t.Phrases).head? with
        | none =>
          exfalso
          rw [List.head?_eq_none_iff] at hq
          have := (perm_ensureSortedPhrases t.Phrases).length_eq
          rw [hq] at this
          exact hne (List.length_eq_zero.mp this.symm)
        | some q => exact hfirst q hq
      simp [splitChapters_all_before hfirst2, adjustMiddleChapters, chapterEvents]
    rw [hb]
    apply sortStable_eq_self
    apply ordered_append (ordered_chapterEvents hcs 0) (ordered_buildEventsFromPhrases hch _)
    intro a ha b hb2
    obtain ⟨h1, _, c, hc, h3⟩ := of_mem_chapterEvents ha
    obtain ⟨h4, p, hp, h5, _⟩ := of_mem_buildEventsFromPhrases hb2
    have := hall p hp
    rw [hcs c hc] at h3
    rw [eventLess_false_iff]
    rcases lt_or_eq_of_le this with h | h
    · left; omega
    · right; exact ⟨by omega, Or.inl ⟨h4, h1⟩⟩
  refine ⟨hstream, ?_⟩
  rw [transcriptWithChaptersSplit_eq t thr request hne, hstream, renderLoop_chapterEvents]

/-! ## C5: no phrases -/

/-- C5. With no phrases, for every threshold and layout, the result is exactly the
concatenation of the chapter titles taken in the order `sortChapters` leaves them: a
rearrangement of the chapters in ascending order of start time (in milliseconds, and in
seconds too when no `Start * 1000` leaves the `int64` range); nothing is put between,
before or after the titles, and no chapters give the empty string. -/
theorem no_phrases_concatenates_titles (t : Transcript) (thr : Int) (request : OutputTextLayout)
    (h : t.Phrases = []) :
    transcriptWithChaptersSplit t thr request =
      ((sortChapters t.Chapters).map Chapter.Title).flatten ∧
    (sortChapters t.Chapters).Perm t.Chapters ∧
    (sortChapters t.Chapters).Pairwise
      (fun c d => Milliseconds c.Start ≤ Milliseconds d.Start) ∧
    ((∀ c ∈ t.Chapters, isInt64 (c.Start * 1000)) →
      (sortChapters t.Chapters).Pairwise (fun c d => c.Start ≤ d.Start)) ∧
    (t.Chapters = [] → transcriptWithChaptersSplit t thr request = []) := by
  have hout : transcriptWithChaptersSplit t thr request =
      ((sortChapters t.Chapters).map Chapter.Title).flatten := by
    unfold transcriptWithChaptersSplit
    simp [h, ensureSortedPhrases]
  have hord := ordered_sortChapters t.Chapters
  have hpw : (sortChapters t.Chapters).Pairwise
      (fun c d => Milliseconds c.Start ≤ Milliseconds d.Start) := by
    refine List.Pairwise.imp ?_ hord
    intro a b hab
    simp only [chapterLess, decide_eq_false_iff_not] at hab
    omega
  refine ⟨hout, perm_sortChapters _, hpw, ?_, ?_⟩
  · intro h64
    refine List.Pairwise.imp_of_mem ?_ hpw
    intro a b ha hb hab
    have ha2 := h64 a ((perm_sortChapters _).mem_iff.mp ha)
    have hb2 := h64 b ((perm_sortChapters _).mem_iff.mp hb)
    rw [milliseconds_eq ha2, milliseconds_eq hb2] at hab
    omega
  · intro hc
    rw [hout, hc]
    rfl

/-! ## The scanner of `splitSegOffsetsString` -/

theorem terminator_not_space {c : Char} (h : isSentenceTerminatorRune c = true) :
    isSpace c = false := by
  simp only [isSentenceTerminatorRune, Bool.or_eq_true, beq_iff_eq] at h
  rcases h with (h | h) | h <;> subst h <;> decide

theorem closer_not_space {c : Char} (h : isCloserRune c = true) : isSpace c = false := by
  simp only [isCloserRune, Bool.or_eq_true, beq_iff_eq] at h
  unfold isSpace
  simp only [Bool.or_eq_false_iff, Bool.and_eq_false_iff, decide_eq_false_iff_not,
    beq_eq_false_iff_ne, ne_eq]
  omega

theorem runContinues_not_space {c : Char} (h : runContinues c = true) : isSpace c = false := by
  simp only [runContinues, Bool.or_eq_true] at h
  rcases h with h | h
  · exact terminator_not_space h
  · exact closer_not_space h

theorem splitLoop_skip (l : List Char) : ∀ (k : Nat) (st : SplitState),
    splitLoop k st l = splitLoop 0 st (l.drop k) := by
  induction l with
  | nil => intro k st; simp [splitLoop]
  | cons r rest ih =>
    intro k st
    cases k with
    | zero => rfl
    | succ k => simp only [splitLoop, List.drop_succ_cons]; exact ih k st

/-- Under `RunsFollowedByText` no piece is cut: the scanner ends with the whole input in
the text buffer. -/
theorem splitLoop_no_boundary (rest : List Char) : ∀ (st : SplitState),
    RunsFollowedByText rest →
    (st.candidat = true → ∃ c post1, rest.dropWhile runContinues = c :: post1 ∧
      isSpace c = false) →
    (st.candidat = false → st.terminatorBuf = []) →
    splitLoop 0 st rest =
      ⟨st.out, st.sb ++ st.terminatorBuf ++ rest, [], false, st.runeIndex + rest.length⟩ := by
  induction rest with
  | nil =>
    intro st _ h2 h3
    obtain ⟨out, sb, tb, cand, idx⟩ := st
    cases cand
    · have htb : tb = [] := h3 rfl
      simp [splitLoop, htb]
    · obtain ⟨c, p, h, _⟩ := h2 rfl
      cases h
  | cons r rest ih =>
    intro st h1 h2 h3
    obtain ⟨out, sb, tb, cand, idx⟩ := st
    have h1r : RunsFollowedByText rest := by
      intro pre t post hp ht
      exact h1 (r :: pre) t post (by rw [hp]; rfl) ht
    simp only [splitLoop]
    cases cand
    · simp only [Bool.false_eq_true, if_false]
      have htb : tb = [] := h3 rfl
      subst htb
      by_cases ht : isSentenceTerminatorRune r = true
      · simp only [ht, if_true]
        rw [ih ⟨out, sb, [] ++ [r], true, idx + 1⟩ h1r (fun _ => h1 [] r rest rfl ht)
          (fun h => by simp at h)]
        simp [Nat.add_assoc, Nat.add_comm 1]
      · simp only [ht, if_false]
        rw [ih ⟨out, sb ++ [r], [], false, idx + 1⟩ h1r (fun h => by simp at h) (fun _ => rfl)]
        simp [Nat.add_assoc, Nat.add_comm 1]
    · simp only [if_true]
      obtain ⟨c, p, hcp, hsp⟩ := h2 rfl
      by_cases hrc : runContinues r = true
      · have hrc2 : (isSentenceTerminatorRune r || isCloserRune r) = true := hrc
        simp only [hrc2, if_true]
        have hd : rest.dropWhile runContinues = c :: p := by
          simpa [List.dropWhile, hrc] using hcp
        rw [ih ⟨out, sb, tb ++ [r], true, idx + 1⟩ h1r (fun _ => ⟨c, p, hd, hsp⟩)
          (fun h => by simp at h)]
        simp [Nat.add_assoc, Nat.add_comm 1]
      · have hrc2 : (isSentenceTerminatorRune r || isCloserRune r) = false := by
          simpa [runContinues] using hrc
        have hd : r = c := by
          have : (r :: rest).dropWhile runContinues = r :: rest := by
            simp [List.dropWhile, hrc]
          rw [this] at hcp
          injection hcp
        subst hd
        simp only [hrc2, Bool.false_eq_true, if_false, hsp]
        rw [ih ⟨out, sb ++ tb ++ [r], [], false, idx + 1⟩ h1r (fun h => by simp at h)
          (fun _ => rfl)]
        simp [Nat.add_assoc, Nat.add_comm 1]

/-- C6, the claim as stated fails: the empty string and a blank string have no
terminator run at all, and the scanner returns no piece for them. -/
theorem blank_input_yields_no_piece :
    RunsFollowedByText [] ∧ splitSegOffsetsString [] = [] ∧
    RunsFollowedByText [' ', ' '] ∧ splitSegOffsetsString [' ', ' '] = [] := by
  refine ⟨?_, by decide, ?_, by decide⟩
  · intro pre t post h _
    cases pre <;> cases h
  · intro pre t post h ht
    have hm : t ∈ [' ', ' '] := by rw [h]; simp
    simp only [List.mem_cons, List.mem_singleton, List.not_mem_nil, or_false, or_self] at hm
    subst hm
    exact absurd ht (by decide)

/-- C6, amended. A string that holds a rune other than white space and in which every
terminator run is followed by a rune that is neither white space, terminator nor closer
(`2.6 meters`) comes back as exactly one piece: the whole input, whitespace-normalised,
not ending with a terminator, its `EndRune` the rune count of the input. -/
theorem decimal_like_input_is_one_piece (s : List Char) (hruns : RunsFollowedByText s)
    (hs : ∃ c ∈ s, isSpace c = false) :
    splitSegOffsetsString s = [⟨normalizeWhitespace s, s.length, false⟩] := by
  have hne : s ≠ [] := by
    obtain ⟨c, hc, _⟩ := hs
    exact List.ne_nil_of_mem hc
  unfold splitSegOffsetsString
  rw [if_neg hne, splitLoop_no_boundary s _ hruns (fun h => by simp at h) (fun _ => rfl)]
  have hlen : 0 < s.length := List.length_pos.mpr hne
  simp only [splitFlush, List.nil_append, Bool.false_eq_true, false_and, if_false,
    gt_iff_lt, hlen, if_true, emitPiece, Nat.zero_add]
  rw [trimSpace_normalizeWhitespace, if_pos (normalizeWhitespace_ne_nil hs)]

/-! ## C7: two sentences in one string -/

theorem takeWhile_append_stop {p : Char → Bool} (x y : List Char)
    (hy : ∀ c, y.head? = some c → p c = false) :
    (x ++ y).takeWhile p = x.takeWhile p := by
  induction x with
  | nil =>
    cases y with
    | nil => rfl
    | cons c y => simp [List.takeWhile, hy c rfl]
  | cons d x ih =>
    simp only [List.cons_append, List.takeWhile]
    cases p d <;> simp [ih]

theorem dropWhile_append_stop {p : Char → Bool} (x y : List Char)
    (hy : ∀ c, y.head? = some c → p c = false) :
    (x ++ y).dropWhile p = x.dropWhile p ++ y := by
  induction x with
  | nil =>
    cases y with
    | nil => rfl
    | cons c y => simp [List.dropWhile, hy c rfl]
  | cons d x ih =>
    simp only [List.cons_append, List.dropWhile]
    cases p d <;> simp [ih]

theorem dropWhile_append_all {p : Char → Bool} (x y : List Char) (hx : ∀ c ∈ x, p c = true) :
    (x ++ y).dropWhile p = y.dropWhile p := by
  induction x with
  | nil => rfl
  | cons d x ih =>
    simp only [List.cons_append, List.dropWhile, hx d (List.mem_cons_self _ _)]
    exact ih (fun c hc => hx c (List.mem_cons_of_mem _ hc))

theorem drop_length_takeWhile (p : Char → Bool) (l : List Char) :
    l.drop (l.takeWhile p).length = l.dropWhile p := by
  induction l with
  | nil => rfl
  | cons d l ih =>
    simp only [List.takeWhile, List.dropWhile]
    cases p d <;> simp [ih]

theorem fields_dropWhile (s : List Char) : Fields (s.dropWhile isSpace) = Fields s := by
  induction s with
  | nil => rfl
  | cons c s ih =>
    simp only [List.dropWhile]
    cases hc : isSpace c
    · rfl
    · simp only [ih]
      simp [Fields, fieldsAux, hc]

theorem normalizeWhitespace_dropWhile (s : List Char) :
    normalizeWhitespace (s.dropWhile isSpace) = normalizeWhitespace s := by
  rw [normalizeWhitespace_eq, normalizeWhitespace_eq, fields_dropWhile]

/-- Runes that are no terminators go to the text buffer. -/
theorem splitLoop_plain (a : List Char) (ha : ∀ c ∈ a, isSentenceTerminatorRune c = false)
    (rest : List Char) : ∀ (out : List SplitPiece) (sb : List Char) (idx : Nat),
    splitLoop 0 ⟨out, sb, [], false, idx⟩ (a ++ rest) =
      splitLoop 0 ⟨out, sb ++ a, [], false, idx + a.length⟩ rest := by
  induction a with
  | nil => intro out sb idx; simp
  | cons c a ih =>
    intro out sb idx
    have hc := ha c (List.mem_cons_self _ _)
    rw [List.cons_append]
    simp only [splitLoop, Bool.false_eq_true, if_false, hc]
    rw [ih (fun d hd => ha d (List.mem_cons_of_mem _ hd))]
    simp [Nat.add_assoc, Nat.add_comm 1]

/-- While a run is pending, terminators and closers go to the run buffer. -/
theorem splitLoop_run (t : List Char) (ht : ∀ c ∈ t, runContinues c = true)
    (rest : List Char) : ∀ (out : List SplitPiece) (sb tb : List Char) (idx : Nat),
    splitLoop 0 ⟨out, sb, tb, true, idx⟩ (t ++ rest) =
      splitLoop 0 ⟨out, sb, tb ++ t, true, idx + t.length⟩ rest := by
  induction t with
  | nil => intro out sb tb idx; simp
  | cons c t ih =>
    intro out sb tb idx
    have hc : (isSentenceTerminatorRune c || isCloserRune c) = true :=
      ht c (List.mem_cons_self _ _)
    rw [List.cons_append]
    simp only [splitLoop, if_true, hc]
    rw [ih (fun d hd => ht d (List.mem_cons_of_mem _ hd))]
    simp [Nat.add_assoc, Nat.add_comm 1]

/-- A run of terminators met in plain text opens a pending run. -/
theorem splitLoop_terminators (t : List Char) (hne : t ≠ [])
    (ht : ∀ c ∈ t, isSentenceTerminatorRune c = true) (rest : List Char)
    (out : List SplitPiece) (sb : List Char) (idx : Nat) :
    splitLoop 0 ⟨out, sb, [], false, idx⟩ (t ++ rest) =
      splitLoop 0 ⟨out, sb, t, true, idx + t.length⟩ rest := by
  cases t with
  | nil => exact absurd rfl hne
  | cons c t =>
    have hc := ht c (List.mem_cons_self _ _)
    rw [List.cons_append]
    simp only [splitLoop, Bool.false_eq_true, if_false, hc, if_true]
    rw [splitLoop_run t (fun d hd => by
      simp [runContinues, ht d (List.mem_cons_of_mem _ hd)])]
    simp [Nat.add_assoc, Nat.add_comm 1]

/-- White space after a pending run commits a piece and is passed over. -/
theorem splitLoop_commit (out : List SplitPiece) (sb tb : List Char) (idx : Nat)
    (htb : ∃ c ∈ tb, isSpace c = false) (sp : Char) (rest : List Char)
    (hsp : isSpace sp = true) :
    splitLoop 0 ⟨out, sb, tb, true, idx⟩ (sp :: rest) =
      splitLoop 0
        ⟨out ++ [⟨normalizeWhitespace (sb ++ tb),
            idx + ((sp :: rest).takeWhile isSpace).length, true⟩], [], [], false,
          idx + ((sp :: rest).takeWhile isSpace).length⟩
        ((sp :: rest).dropWhile isSpace) := by
  have hrc : (isSentenceTerminatorRune sp || isCloserRune sp) = false := by
    cases h : (isSentenceTerminatorRune sp || isCloserRune sp)
    · rfl
    · have := runContinues_not_space h
      rw [hsp] at this; cases this
  have hne : tb ≠ [] := by
    obtain ⟨c, hc, _⟩ := htb
    exact List.ne_nil_of_mem hc
  have hlen : 0 < tb.length := List.length_pos.mpr hne
  have hnb : normalizeWhitespace (sb ++ tb) ≠ [] := by
    apply normalizeWhitespace_ne_nil
    obtain ⟨c, hc, hs⟩ := htb
    exact ⟨c, List.mem_append_right _ hc, hs⟩
  simp only [splitLoop, if_true, hrc, Bool.false_eq_true, if_false, hsp, emitPiece,
    trimSpace_normalizeWhitespace, ne_eq, hnb, not_false_eq_true, gt_iff_lt, hlen, decide_True]
  rw [splitLoop_skip, ← drop_length_takeWhile isSpace (sp :: rest)]
  simp [List.takeWhile, hsp]

/-- C7, the claim as stated fails: in `Wait ... what?` the text before the ellipsis ends
with a space; the first piece is `Wait ...`, the normalised input up to the run, and not
`Wait` followed by the run. -/
theorem ellipsis_piece_keeps_inner_space :
    splitSegOffsetsString ("Wait ".toList ++ "...".toList ++ " ".toList ++ "what".toList ++
        "?".toList) =
      [⟨"Wait ...".toList, 9, true⟩, ⟨"what?".toList, 14, true⟩] ∧
    normalizeWhitespace "Wait ".toList ++ "...".toList = "Wait...".toList := by
  constructor <;> decide

/-- C7, amended. For an input `a ++ t1 ++ w ++ b ++ t2`, with `a` and `b` free of
terminators, `t1` and `t2` non-empty runs of terminators and `w` non-empty white space,
the scanner returns exactly two pieces, both ending with a terminator: the normalised
`a ++ t1` and the normalised `b ++ t2`. The first ends after the white space that
follows the run, the second at the end of the input; a run of several terminators is one
run and gives no further piece. When `a` (or `b`) does not end with white space, the
text of its piece is the normalised `a` (or `b`) followed by the run. -/
theorem two_terminated_sentences_two_pieces (a t1 w b t2 : List Char)
    (ha : ∀ c ∈ a, isSentenceTerminatorRune c = false)
    (hb : ∀ c ∈ b, isSentenceTerminatorRune c = false)
    (ht1 : t1 ≠ []) (ht2 : t2 ≠ [])
    (h1 : ∀ c ∈ t1, isSentenceTerminatorRune c = true)
    (h2 : ∀ c ∈ t2, isSentenceTerminatorRune c = true)
    (hw : w ≠ []) (hws : ∀ c ∈ w, isSpace c = true) :
    splitSegOffsetsString (a ++ t1 ++ w ++ b ++ t2) =
      [⟨normalizeWhitespace (a ++ t1),
          a.length + t1.length + ((w ++ b).takeWhile isSpace).length, true⟩,
        ⟨normalizeWhitespace (b ++ t2), (a ++ t1 ++ w ++ b ++ t2).length, true⟩] ∧
    ((∀ c, a.getLast? = some c → isSpace c = false) →
      normalizeWhitespace (a ++ t1) = normalizeWhitespace a ++ t1) ∧
    ((∀ c, b.getLast? = some c → isSpace c = false) →
      normalizeWhitespace (b ++ t2) = normalizeWhitespace b ++ t2) := by
  refine ⟨?_, fun h => normalizeWhitespace_append_word a t1
      (fun c hc => terminator_not_space (h1 c hc)) h,
    fun h => normalizeWhitespace_append_word b t2
      (fun c hc => terminator_not_space (h2 c hc)) h⟩
  obtain ⟨c1, t1r, rfl⟩ := List.exists_cons_of_ne_nil ht1
  obtain ⟨c2, t2r, rfl⟩ := List.exists_cons_of_ne_nil ht2
  obtain ⟨sp, wr, rfl⟩ := List.exists_cons_of_ne_nil hw
  have hc1 := terminator_not_space (h1 c1 (List.mem_cons_self _ _))
  have hc2 := terminator_not_space (h2 c2 (List.mem_cons_self _ _))
  have hsp := hws sp (List.mem_cons_self _ _)
  have hne : a ++ c1 :: t1r ++ sp :: wr ++ b ++ c2 :: t2r ≠ [] := by simp
  have hstop : ∀ c, (c2 :: t2r).head? = some c → isSpace c = false := by
    intro c hc; injection hc with hc; rw [← hc]; exact hc2
  have hbd : ∀ c ∈ b.dropWhile isSpace, isSentenceTerminatorRune c = false :=
    fun c hc => hb c ((List.dropWhile_sublist _).subset hc)
  unfold splitSegOffsetsString
  rw [if_neg hne]
  have e1 : a ++ c1 :: t1r ++ sp :: wr ++ b ++ c2 :: t2r =
      a ++ ((c1 :: t1r) ++ (sp :: ((wr ++ b) ++ (c2 :: t2r)))) := by simp
  rw [e1, splitLoop_plain a ha, splitLoop_terminators (c1 :: t1r) ht1 h1,
    splitLoop_commit _ _ _ _ ⟨c1, List.mem_cons_self _ _, hc1⟩ sp _ hsp]
  have e2 : sp :: (wr ++ b ++ c2 :: t2r) = ((sp :: wr) ++ b) ++ (c2 :: t2r) := by simp
  rw [e2, takeWhile_append_stop _ _ hstop, dropWhile_append_stop _ _ hstop,
    dropWhile_append_all _ _ hws, splitLoop_plain _ hbd,
    ← List.append_nil (c2 :: t2r), splitLoop_terminators (c2 :: t2r) ht2 h2]
  have hnb : normalizeWhitespace (b.dropWhile isSpace ++ c2 :: t2r) ≠ [] :=
    normalizeWhitespace_ne_nil ⟨c2, by simp, hc2⟩
  have hd : b.dropWhile isSpace ++ c2 :: t2r = (b ++ c2 :: t2r).dropWhile isSpace :=
    (dropWhile_append_stop _ _ hstop).symm
  simp only [splitLoop, splitFlush, true_and, gt_iff_lt, List.length_cons, Nat.zero_lt_succ,
    if_true, emitPiece, trimSpace_normalizeWhitespace, ne_eq, hnb, not_false_eq_true,
    List.nil_append, Nat.zero_add, List.append_nil]
  rw [hd, normalizeWhitespace_dropWhile]
  have hl := congrArg List.length (List.takeWhile_append_dropWhile isSpace (sp :: wr ++ b))
  have hl2 : ((sp :: wr ++ b).dropWhile isSpace).length = (b.dropWhile isSpace).length := by
    rw [dropWhile_append_all _ _ hws]
  simp only [List.length_append, List.length_cons] at hl hl2 ⊢
  have hn : a.length + (t1r.length + 1) + ((sp :: wr ++ b).takeWhile isSpace).length +
      (b.dropWhile isSpace).length + (t2r.length + 1) =
      a.length + (t1r.length + 1 + (wr.length + 1 + b.length + (t2r.length + 1))) := by
    omega
  rw [hn]
  rfl

/-! ## C8: a sentence across two events -/

theorem trimSpace_ne_nil {s : List Char} (h : ∃ c ∈ s, isSpace c = false) : TrimSpace s ≠ [] := by
  intro h0
  unfold TrimSpace dropRightWhile at h0
  have h1 : (s.dropWhile isSpace).reverse.dropWhile isSpace = [] := by
    simpa using h0
  rw [List.dropWhile_eq_nil_iff] at h1
  cases hd : s.dropWhile isSpace with
  | nil =>
    rw [List.dropWhile_eq_nil_iff] at hd
    obtain ⟨c, hc, hs⟩ := h
    rw [hd c hc] at hs; cases hs
  | cons c l =>
    have h2 : isSpace c = true := h1 c (by rw [hd]; simp)
    have h3 := List.head_dropWhile_not isSpace s (by rw [hd]; simp)
    simp only [hd, List.head_cons] at h3
    rw [h2] at h3; cases h3

theorem all_space_of_trimSpace_eq_nil {s : List Char} (h : TrimSpace s = []) :
    ∀ c ∈ s, isSpace c = true := by
  intro c hc
  cases hs : isSpace c
  · exact absurd h (trimSpace_ne_nil ⟨c, hc, hs⟩)
  · rfl

theorem trimSpace_head {s : List Char} {c : Char} {r : List Char} (h : TrimSpace s = c :: r) :
    isSpace c = false := by
  unfold TrimSpace dropRightWhile at h
  have hne : s.dropWhile isSpace ≠ [] := by
    intro h0; rw [h0] at h; cases h
  have h3 := List.head_dropWhile_not isSpace s hne
  have hpre : (c :: r).reverse <:+ (s.dropWhile isSpace).reverse := by
    rw [← h, List.reverse_reverse]; exact List.dropWhile_suffix _
  have hpre2 : (c :: r) <+: s.dropWhile isSpace := by
    rw [← List.reverse_suffix]; exact hpre
  obtain ⟨t, ht⟩ := hpre2
  have : (s.dropWhile isSpace).head hne = c := by
    simp only [← ht, List.cons_append, List.head_cons]
  rw [this] at h3
  simpa using h3

theorem join_cons_mem {p : List Char} {ps : List (List Char)} {c : Char} (hc : c ∈ p)
    (sep : List Char) : c ∈ Join (p :: ps) sep := by
  cases ps with
  | nil => exact hc
  | cons q ps => simp [Join, hc]

/-- A non-empty cleaned event text holds a rune that is no white space. -/
theorem eventText_nonblank {ev : rawEvent} (h : EventText ev ≠ []) :
    ∃ c ∈ EventText ev, isSpace c = false := by
  unfold EventText at *
  cases hp : List.filter (fun txt => !txt.isEmpty)
      (List.map (fun seg => cleanSeg seg.Utf8) ev.Segs) with
  | nil => rw [hp] at h; exact absurd rfl h
  | cons p ps =>
    have hmem : p ∈ List.filter (fun txt => !txt.isEmpty)
        (List.map (fun seg => cleanSeg seg.Utf8) ev.Segs) := by rw [hp]; simp
    rw [List.mem_filter, List.mem_map] at hmem
    obtain ⟨⟨seg, _, hseg⟩, hne⟩ := hmem
    cases p with
    | nil => simp at hne
    | cons c r =>
      refine ⟨c, join_cons_mem (List.mem_cons_self _ _) _, ?_⟩
      unfold cleanSeg at hseg
      exact trimSpace_head hseg

theorem pieceOffsetMs_zero (D : Int) (R : Nat) : pieceOffsetMs D R 0 = 0 := by
  unfold pieceOffsetMs
  have h0 : F64.ofNat 0 = ⟨0, 0⟩ := by decide
  simp only [h0, F64.mul, Nat.mul_zero]
  have h1 : ∀ e, roundBits 0 false e = ⟨0, e⟩ := by
    intro e
    unfold roundBits
    simp [bitLength, bitLengthAux]
  rw [h1]
  have h2 : ∀ e : Int, F64.round ⟨0, e⟩ = 0 := by
    intro e
    unfold F64.round
    cases e with
    | ofNat k => simp
    | negSucc k => simp
  rw [h2]
  decide

/-- A text without terminators is one piece, not ending with a terminator. -/
theorem splitSeg_no_terminator {s : List Char} (hs : ∃ c ∈ s, isSpace c = false)
    (ht : ∀ c ∈ s, isSentenceTerminatorRune c = false) :
    splitSegOffsetsString s = [⟨normalizeWhitespace s, s.length, false⟩] := by
  have hne : s ≠ [] := by
    obtain ⟨c, hc, _⟩ := hs
    exact List.ne_nil_of_mem hc
  have hlen : 0 < s.length := List.length_pos.mpr hne
  unfold splitSegOffsetsString
  rw [if_neg hne]
  have := splitLoop_plain s ht [] [] [] 0
  rw [List.append_nil] at this
  rw [this]
  simp only [splitLoop, splitFlush, Bool.false_eq_true, false_and, if_false, List.nil_append,
    gt_iff_lt, hlen, if_true, emitPiece, Nat.zero_add, trimSpace_normalizeWhitespace]
  rw [if_pos (normalizeWhitespace_ne_nil hs)]

/-- A text whose only terminator run is at its very end is one piece, ending with a
terminator. -/
theorem splitSeg_final_run (body : List Char) (t : Char) (rs : List Char)
    (hb : ∀ c ∈ body, isSentenceTerminatorRune c = false)
    (ht : isSentenceTerminatorRune t = true) (hrs : ∀ c ∈ rs, runContinues c = true) :
    splitSegOffsetsString (body ++ t :: rs) =
      [⟨normalizeWhitespace (body ++ t :: rs), (body ++ t :: rs).length, true⟩] := by
  have hne : body ++ t :: rs ≠ [] := by simp
  unfold splitSegOffsetsString
  rw [if_neg hne, splitLoop_plain body hb]
  simp only [splitLoop, Bool.false_eq_true, if_false, ht, if_true, List.nil_append]
  have := splitLoop_run rs hrs [] [] (body) [t] (0 + body.length + 1)
  rw [List.append_nil] at this
  rw [this]
  have hnb : normalizeWhitespace (body ++ t :: rs) ≠ [] :=
    normalizeWhitespace_ne_nil ⟨t, by simp, terminator_not_space ht⟩
  simp only [splitLoop, splitFlush, true_and, gt_iff_lt, List.length_append, List.length_cons,
    List.length_nil, List.singleton_append, Nat.zero_lt_succ, if_true, emitPiece,
    trimSpace_normalizeWhitespace, ne_eq, hnb, not_false_eq_true, List.nil_append, Nat.zero_add]
  simp [Nat.add_assoc, Nat.add_comm 1]

/-! ## Cleaned texts with plain spaces only -/

theorem chain'_imp_mem {R S : Char → Char → Prop} {P : Char → Prop} :
    ∀ (l : List Char), (∀ c ∈ l, P c) → l.Chain' R → (∀ a b, P a → P b → R a b → S a b) →
      l.Chain' S
  | [], _, _, _ => List.chain'_nil
  | [_], _, _, _ => List.chain'_singleton _
  | a :: b :: l, hP, hR, himp => by
    have h := List.chain'_cons.mp hR
    exact List.chain'_cons.mpr
      ⟨himp a b (hP a (by simp)) (hP b (by simp)) h.1,
        chain'_imp_mem (b :: l) (fun c hc => hP c (List.mem_cons_of_mem _ hc)) h.2 himp⟩

theorem collapseSpaces_chain (s : List Char) : ∀ (inRun : Bool),
    (collapseSpaces inRun s).Chain' (fun a b => ¬ (isReSpace a = true ∧ isReSpace b = true)) ∧
    (inRun = true → ∀ c, (collapseSpaces inRun s).head? = some c → isReSpace c = false) := by
  induction s with
  | nil => intro inRun; simp [collapseSpaces]
  | cons c s ih =>
    intro inRun
    unfold collapseSpaces
    by_cases hc : isReSpace c = true
    · simp only [hc, if_true]
      cases inRun
      · simp only [Bool.false_eq_true, if_false, false_implies, and_true]
        have h := ih true
        cases hcs : collapseSpaces true s with
        | nil => exact List.chain'_singleton _
        | cons d l =>
          rw [hcs] at h
          refine List.chain'_cons.mpr ⟨?_, h.1⟩
          intro hcon
          have := h.2 rfl d rfl
          rw [hcon.2] at this; cases this
      · simp only [if_true]
        exact ⟨(ih true).1, fun _ => (ih true).2 rfl⟩
    · simp only [hc, Bool.false_eq_true, if_false]
      have h := ih false
      constructor
      · cases hcs : collapseSpaces false s with
        | nil => exact List.chain'_singleton _
        | cons d l =>
          rw [hcs] at h
          exact List.chain'_cons.mpr ⟨fun hcon => hc hcon.1, h.1⟩
      · intro _ d hd
        simp only [List.head?_cons, Option.some.injEq] at hd
        subst hd
        simpa using hc

theorem trimSpace_infix (s : List Char) : TrimSpace s <:+: s := by
  unfold TrimSpace dropRightWhile
  have h1 : ((s.dropWhile isSpace).reverse.dropWhile isSpace).reverse <+:
      s.dropWhile isSpace := by
    rw [← List.reverse_suffix, List.reverse_reverse]
    exact List.dropWhile_suffix _
  exact h1.isInfix.trans (List.dropWhile_suffix _).isInfix

theorem trimSpace_last {s : List Char} {c : Char} (h : (TrimSpace s).getLast? = some c) :
    isSpace c = false := by
  unfold TrimSpace dropRightWhile at h
  rw [List.getLast?_reverse] at h
  have hne : (s.dropWhile isSpace).reverse.dropWhile isSpace ≠ [] := by
    intro h0; rw [h0] at h; cases h
  have h3 := List.head_dropWhile_not isSpace _ hne
  rw [List.head?_eq_head hne] at h
  injection h with h
  rw [h] at h3
  simpa using h3

theorem trimSpace_head? {s : List Char} {c : Char} (h : (TrimSpace s).head? = some c) :
    isSpace c = false := by
  cases ht : TrimSpace s with
  | nil => rw [ht] at h; cases h
  | cons d r =>
    rw [ht] at h
    injection h with h
    subst h
    exact trimSpace_head ht

theorem reSpace_of_plain_space {c : Char} (h : c = ' ') : isReSpace c = true := by
  subst h; decide

/-- The cleaned text of a segment is single-spaced as soon as it holds no white space
other than the plain space. -/
theorem singleSpaced_cleanSeg (s : List Char)
    (h : ∀ c ∈ cleanSeg s, isSpace c = true → c = ' ') : SingleSpaced (cleanSeg s) := by
  refine ⟨h, ?_, fun c hc => trimSpace_head? hc, fun c hc => trimSpace_last hc⟩
  have hch := (collapseSpaces_chain
    ((replaceEscapedNewline ' ' s).map (fun c => if c = '\n' then ' ' else c)) false).1
  have hin : cleanSeg s <:+:
      collapseSpaces false
        ((replaceEscapedNewline ' ' s).map (fun c => if c = '\n' then ' ' else c)) :=
    trimSpace_infix _
  have hch2 := hch.infix hin
  refine chain'_imp_mem (P := fun c => isSpace c = true → c = ' ') _ h hch2 ?_
  intro a b ha hb hR hcon
  exact hR ⟨reSpace_of_plain_space (ha hcon.1), reSpace_of_plain_space (hb hcon.2)⟩

theorem singleSpaced_append_space {x y : List Char} (hx : SingleSpaced x) (hy : SingleSpaced y)
    (hxn : x ≠ []) (hyn : y ≠ []) : SingleSpaced (x ++ ' ' :: y) := by
  obtain ⟨hx1, hx2, hx3, hx4⟩ := hx
  obtain ⟨hy1, hy2, hy3, hy4⟩ := hy
  refine ⟨?_, ?_, ?_, ?_⟩
  · intro c hc hs
    rcases List.mem_append.mp hc with h | h
    · exact hx1 c h hs
    · rcases List.mem_cons.mp h with h | h
      · exact h
      · exact hy1 c h hs
  · apply List.Chain'.append hx2
    · cases y with
      | nil => exact absurd rfl hyn
      | cons d y =>
        refine List.chain'_cons.mpr ⟨?_, hy2⟩
        intro hcon
        have := hy3 d rfl
        rw [hcon.2] at this; cases this
    · intro a ha b hb hcon
      simp only [List.head?_cons, Option.mem_def, Option.some.injEq] at hb
      have := hx4 a ha
      rw [hcon.1] at this; cases this
  · intro c hc
    cases x with
    | nil => exact absurd rfl hxn
    | cons d x => exact hx3 c hc
  · intro c hc
    rw [List.getLast?_append_of_ne_nil _ (by simp), getLast?_cons_of_ne_nil hyn] at hc
    exact hy4 c hc

theorem singleSpaced_join : ∀ (parts : List (List Char)),
    (∀ p ∈ parts, SingleSpaced p ∧ p ≠ []) → SingleSpaced (Join parts [' '])
  | [], _ => ⟨by simp [Join], by simp [Join], by simp [Join], by simp [Join]⟩
  | [p], h => (h p (List.mem_singleton_self p)).1
  | p :: q :: rest, h => by
    have hp := h p (List.mem_cons_self _ _)
    have hrest := singleSpaced_join (q :: rest) (fun r hr => h r (List.mem_cons_of_mem _ hr))
    have hq := h q (List.mem_cons_of_mem _ (List.mem_cons_self _ _))
    have hne : Join (q :: rest) [' '] ≠ [] := by
      have hq2 := hq.2
      cases q with
      | nil => exact absurd rfl hq2
      | cons _ _ => cases rest <;> simp [Join]
    have := singleSpaced_append_space hp.1 hrest hp.2 hne
    simpa [Join] using this

theorem mem_join {parts : List (List Char)} {p : List Char} {c : Char} (hp : p ∈ parts)
    (hc : c ∈ p) (sep : List Char) : c ∈ Join parts sep := by
  induction parts with
  | nil => cases hp
  | cons q parts ih =>
    rcases List.mem_cons.mp hp with h | h
    · subst h; exact join_cons_mem hc sep
    · have := ih h
      cases parts with
      | nil => cases h
      | cons r parts =>
        simp only [Join, List.mem_append]
        exact Or.inr this

/-- A cleaned event text is single-spaced as soon as it holds no white space other than
the plain space. -/
theorem singleSpaced_eventText (ev : rawEvent)
    (h : ∀ c ∈ EventText ev, isSpace c = true → c = ' ') : SingleSpaced (EventText ev) := by
  unfold EventText at *
  apply singleSpaced_join
  intro p hp
  have hp2 := hp
  rw [List.mem_filter, List.mem_map] at hp2
  obtain ⟨⟨seg, _, hseg⟩, hne⟩ := hp2
  refine ⟨?_, by intro h0; simp [h0] at hne⟩
  rw [← hseg]
  apply singleSpaced_cleanSeg
  intro c hc
  rw [hseg] at hc
  exact h c (mem_join hp hc _)

theorem normalizeWhitespace_of_singleSpaced {s : List Char} (h : SingleSpaced s) :
    normalizeWhitespace s = s :=
  normalizeWhitespace_single_spaced h.1 h.2.1 h.2.2.1 h.2.2.2

theorem normalizeWhitespace_join_two (x y : List Char) :
    normalizeWhitespace (normalizeWhitespace x ++ [' '] ++ normalizeWhitespace y) =
      normalizeWhitespace (x ++ [' '] ++ y) := by
  rw [normalizeWhitespace_eq (normalizeWhitespace x ++ [' '] ++ normalizeWhitespace y),
    normalizeWhitespace_eq (x ++ [' '] ++ y)]
  simp only [List.append_assoc, List.singleton_append]
  rw [fields_append_space _ ' ' (by decide), fields_append_space _ ' ' (by decide),
    fields_normalizeWhitespace, fields_normalizeWhitespace]

/-- C8, the claim as stated fails. The first event holds a no-break space (U+00A0),
which `cleanSeg` keeps (the class `\s` does not match it) and `normalizeWhitespace`
turns into a plain space (`strings.Fields` splits on it): the phrase text is not the
cleaned text of the first event, a space, and the cleaned text of the second. -/
theorem phrase_text_is_renormalised :
    EventText ⟨some 0, some 1000, none,
        [⟨"Hello".toList ++ [Char.ofNat 160] ++ "world".toList, none⟩]⟩ =
      "Hello".toList ++ [Char.ofNat 160] ++ "world".toList ∧
    EventText ⟨some 1000, some 1000, none, [⟨"This is fine.".toList, none⟩]⟩ =
      "This is fine.".toList ∧
    TransformManualRawToPhrases ⟨[],
        [⟨some 0, some 1000, none,
            [⟨"Hello".toList ++ [Char.ofNat 160] ++ "world".toList, none⟩]⟩,
          ⟨some 1000, some 1000, none, [⟨"This is fine.".toList, none⟩]⟩]⟩ =
      [⟨0, "Hello world This is fine.".toList, 25, 5⟩] ∧
    "Hello world This is fine.".toList ≠
      "Hello".toList ++ [Char.ofNat 160] ++ "world".toList ++ [' '] ++ "This is fine.".toList := by
  refine ⟨by decide, by decide, by decide, by decide⟩

/-- Two events, the first without terminator and the second with terminators only in one
run at its very end: one phrase, at the start of the first event, with the normalised
form of the two cleaned texts joined by a space. -/
theorem manual_two_events (wm : List Char) (ev1 ev2 : rawEvent)
    (body : List Char) (t : Char) (rs : List Char)
    (h64 : isInt64 (ev1.TStartMs.getD 0))
    (h1 : EventText ev1 ≠ [])
    (h1t : ∀ c ∈ EventText ev1, isSentenceTerminatorRune c = false)
    (h2 : EventText ev2 = body ++ t :: rs)
    (hb : ∀ c ∈ body, isSentenceTerminatorRune c = false)
    (ht : isSentenceTerminatorRune t = true) (hrs : ∀ c ∈ rs, runContinues c = true) :
    TransformManualRawToPhrases ⟨wm, [ev1, ev2]⟩ =
      [⟨ev1.TStartMs.getD 0,
        normalizeWhitespace (EventText ev1 ++ [' '] ++ EventText ev2),
        (normalizeWhitespace (EventText ev1 ++ [' '] ++ EventText ev2)).length,
        (Fields (normalizeWhitespace (EventText ev1 ++ [' '] ++ EventText ev2))).length⟩] := by
  have hs1 := eventText_nonblank h1
  have hs2 : ∃ c ∈ EventText ev2, isSpace c = false :=
    ⟨t, by rw [h2]; simp, terminator_not_space ht⟩
  have hp1 := splitSeg_no_terminator hs1 h1t
  have hp2 := splitSeg_final_run body t rs hb ht hrs
  rw [← h2] at hp2
  have hn1 := normalizeWhitespace_ne_nil hs1
  have hl1 : 0 < (normalizeWhitespace (EventText ev1)).length := List.length_pos.mpr hn1
  have hst1 : manualEvent ⟨[], [], -1⟩ ev1 =
      ⟨[], normalizeWhitespace (EventText ev1), ev1.TStartMs.getD 0⟩ := by
    unfold manualEvent
    simp only [trimSpace_ne_nil hs1, if_false, hp1, List.length_singleton, Nat.one_ne_zero,
      manualPieces, pieceOffsetMs_zero, Int.add_zero, wrap64_eq h64, List.length_nil, if_true,
      gt_iff_lt, Nat.lt_irrefl, List.nil_append, Bool.false_eq_true]
  have hnb : normalizeWhitespace (EventText ev1 ++ [' '] ++ EventText ev2) ≠ [] :=
    normalizeWhitespace_ne_nil
      (by obtain ⟨c, hc, hsp⟩ := hs1; exact ⟨c, by simp [hc], hsp⟩)
  unfold TransformManualRawToPhrases
  simp only [List.foldl_cons, List.foldl_nil, hst1]
  unfold manualEvent
  simp only [trimSpace_ne_nil hs2, if_false, hp2, List.length_singleton, Nat.one_ne_zero,
    manualPieces, if_true, gt_iff_lt, hl1, Nat.ne_of_gt hl1, normalizeWhitespace_join_two,
    trimSpace_normalizeWhitespace, ne_eq, hnb, not_false_eq_true, List.nil_append]
  simp [manualFlush, TrimSpace, dropRightWhile]

/-- The joined text of two cleaned event texts is left as it is by `normalizeWhitespace`
when neither holds a white-space rune other than the plain space. -/
theorem normalizeWhitespace_joined (ev1 ev2 : rawEvent) (h1 : EventText ev1 ≠ [])
    (h2 : EventText ev2 ≠ [])
    (hp1 : ∀ c ∈ EventText ev1, isSpace c = true → c = ' ')
    (hp2 : ∀ c ∈ EventText ev2, isSpace c = true → c = ' ') :
    normalizeWhitespace (EventText ev1 ++ [' '] ++ EventText ev2) =
      EventText ev1 ++ [' '] ++ EventText ev2 := by
  have h := singleSpaced_append_space (singleSpaced_eventText ev1 hp1)
    (singleSpaced_eventText ev2 hp2) h1 h2
  have e : EventText ev1 ++ [' '] ++ EventText ev2 = EventText ev1 ++ ' ' :: EventText ev2 := by
    simp
  rw [e]
  exact normalizeWhitespace_of_singleSpaced h

/-- C8, amended. Two events: the cleaned text of the first is not empty and holds no
terminator, the cleaned text of the second holds terminators only in one run at its
very end. `TransformManualRawToPhrases` returns exactly one phrase; it starts at the
`tStartMs` of the first event (0 when absent) and its text is the whitespace-normalised
form of the first cleaned text, a space, the second cleaned text. When the two cleaned
texts hold no white-space rune other than the plain space U+0020, the text of the phrase
is the joined text itself: the first cleaned text, a space, the second cleaned text. -/
theorem sentence_joined_across_events (wm : List Char) (ev1 ev2 : rawEvent)
    (body : List Char) (t : Char) (rs : List Char)
    (h64 : isInt64 (ev1.TStartMs.getD 0))
    (h1 : EventText ev1 ≠ [])
    (h1t : ∀ c ∈ EventText ev1, isSentenceTerminatorRune c = false)
    (h2 : EventText ev2 = body ++ t :: rs)
    (hb : ∀ c ∈ body, isSentenceTerminatorRune c = false)
    (ht : isSentenceTerminatorRune t = true) (hrs : ∀ c ∈ rs, runContinues c = true) :
    TransformManualRawToPhrases ⟨wm, [ev1, ev2]⟩ =
      [⟨ev1.TStartMs.getD 0,
        normalizeWhitespace (EventText ev1 ++ [' '] ++ EventText ev2),
        (normalizeWhitespace (EventText ev1 ++ [' '] ++ EventText ev2)).length,
        (Fields (normalizeWhitespace (EventText ev1 ++ [' '] ++ EventText ev2))).length⟩] ∧
    ((∀ c ∈ EventText ev1, isSpace c = true → c = ' ') →
      (∀ c ∈ EventText ev2, isSpace c = true → c = ' ') →
      TransformManualRawToPhrases ⟨wm, [ev1, ev2]⟩ =
        [⟨ev1.TStartMs.getD 0,
          EventText ev1 ++ [' '] ++ EventText ev2,
          (EventText ev1 ++ [' '] ++ EventText ev2).length,
          (Fields (EventText ev1 ++ [' '] ++ EventText ev2)).length⟩]) := by
  have hmain := manual_two_events wm ev1 ev2 body t rs h64 h1 h1t h2 hb ht hrs
  refine ⟨hmain, ?_⟩
  intro hp1 hp2
  have hne2 : EventText ev2 ≠ [] := by rw [h2]; simp
  rw [hmain, normalizeWhitespace_joined ev1 ev2 h1 hne2 hp1 hp2]

/-! ## C9: timestamps inside one event -/

theorem goodPiece_normalized {s : List Char} (h : normalizeWhitespace s ≠ []) (k : Nat)
    (b : Bool) : GoodPiece ⟨normalizeWhitespace s, k, b⟩ :=
  ⟨normalizeWhitespace_idem s, h⟩

theorem emitPiece_shape (out : List SplitPiece) (s : List Char) (k : Nat) (b : Bool) :
    emitPiece out s k b = out ∨
      (emitPiece out s k b = out ++ [⟨normalizeWhitespace s, k, b⟩] ∧
        normalizeWhitespace s ≠ []) := by
  unfold emitPiece
  simp only [trimSpace_normalizeWhitespace]
  by_cases h : normalizeWhitespace s = []
  · left; simp [h]
  · right; simp [h]

/-- Every piece committed inside the loop ends with a terminator and is a good piece. -/
theorem splitLoop_out (l : List Char) : ∀ (k : Nat) (st : SplitState),
    (∀ p ∈ st.out, p.EndWithTerminator = true ∧ GoodPiece p) →
    (st.candidat = true → st.terminatorBuf ≠ []) →
    (∀ p ∈ (splitLoop k st l).out, p.EndWithTerminator = true ∧ GoodPiece p) ∧
    ((splitLoop k st l).candidat = true → (splitLoop k st l).terminatorBuf ≠ []) := by
  induction l with
  | nil => intro k st h1 h2; exact ⟨h1, h2⟩
  | cons r rest ih =>
    intro k st h1 h2
    obtain ⟨out, sb, tb, cand, idx⟩ := st
    cases k with
    | succ k => simp only [splitLoop]; exact ih k _ h1 h2
    | zero =>
      simp only [splitLoop]
      cases cand
      · simp only [Bool.false_eq_true, if_false]
        split
        · exact ih 0 _ h1 (fun _ => by simp)
        · exact ih 0 _ h1 (fun h => by simp at h)
      · simp only [if_true]
        have htb : tb ≠ [] := h2 rfl
        split
        · exact ih 0 _ h1 (fun _ => by simp)
        · split
          · apply ih _ _ _ (fun h => by simp at h)
            intro p hp
            simp only at hp
            rcases emitPiece_shape out (sb ++ tb)
              (idx + ((r :: rest).takeWhile isSpace).length) (decide (tb.length > 0))
              with h | ⟨h, hn⟩
            · rw [h] at hp; exact h1 p hp
            · rw [h] at hp
              rcases List.mem_append.mp hp with hp | hp
              · exact h1 p hp
              · rw [List.mem_singleton] at hp
                subst hp
                exact ⟨by simpa using List.length_pos.mpr htb, goodPiece_normalized hn _ _⟩
          · exact ih 0 _ h1 (fun h => by simp at h)

/-- The pieces of a string: all but the last end with a terminator, all are good. -/
theorem splitSeg_shape (s : List Char) :
    ∃ init tail, splitSegOffsetsString s = init ++ tail ∧ tail.length ≤ 1 ∧
      (∀ p ∈ init, p.EndWithTerminator = true ∧ GoodPiece p) ∧ (∀ p ∈ tail, GoodPiece p) := by
  unfold splitSegOffsetsString
  split
  · exact ⟨[], [], rfl, by simp, by simp, by simp⟩
  · have h := (splitLoop_out s 0 ⟨[], [], [], false, 0⟩ (by simp) (by simp)).1
    generalize splitLoop 0 ⟨[], [], [], false, 0⟩ s = st at h
    unfold splitFlush
    split
    · rcases emitPiece_shape st.out (st.sb ++ st.terminatorBuf) st.runeIndex true
        with h2 | ⟨h2, hn⟩
      · exact ⟨st.out, [], by simp [h2], by simp, h, by simp⟩
      · refine ⟨st.out, [_], h2, by simp, h, ?_⟩
        intro p hp
        rw [List.mem_singleton] at hp
        subst hp
        exact goodPiece_normalized hn _ _
    · split
      · rcases emitPiece_shape st.out st.sb st.runeIndex false with h2 | ⟨h2, hn⟩
        · exact ⟨st.out, [], by simp [h2], by simp, h, by simp⟩
        · refine ⟨st.out, [_], h2, by simp, h, ?_⟩
          intro p hp
          rw [List.mem_singleton] at hp
          subst hp
          exact goodPiece_normalized hn _ _
      · exact ⟨st.out, [], by simp, by simp, h, by simp⟩

theorem fields_all_space {s : List Char} (h : ∀ c ∈ s, isSpace c = true) : Fields s = [] := by
  induction s with
  | nil => rfl
  | cons c s ih =>
    have hc := h c (List.mem_cons_self _ _)
    have := ih (fun d hd => h d (List.mem_cons_of_mem _ hd))
    simp only [Fields, fieldsAux, hc, if_true, List.isEmpty_nil] at this ⊢
    exact this

/-- A blank string has no piece. -/
theorem splitSeg_blank {s : List Char} (h : TrimSpace s = []) : splitSegOffsetsString s = [] := by
  have hall := all_space_of_trimSpace_eq_nil h
  have hnt : ∀ c ∈ s, isSentenceTerminatorRune c = false := by
    intro c hc
    cases ht : isSentenceTerminatorRune c
    · rfl
    · have := terminator_not_space ht
      rw [hall c hc] at this; cases this
  unfold splitSegOffsetsString
  split
  · rfl
  · have := splitLoop_plain s hnt [] [] [] 0
    rw [List.append_nil] at this
    rw [this]
    have hn : normalizeWhitespace s = [] := by
      rw [normalizeWhitespace_eq, fields_all_space hall]; rfl
    simp [splitLoop, splitFlush, emitPiece, hn, TrimSpace, dropRightWhile]

theorem pieceOffsetMs_eq {D : Int} {R : Nat} (hD : 0 < D) (hR : 0 < R) (k : Nat) :
    pieceOffsetMs D R k = int64OfFloat (F64.round
      (F64.mul (F64.div (F64.ofNat D.toNat) (F64.ofNat R)) (F64.ofNat k))) := by
  unfold pieceOffsetMs
  simp [hD, hR]

theorem pieceStart_ne_sentinel {S : Int} (h0 : 0 ≤ S) (h1 : S < 9223372036854775807) (n : Nat) :
    wrap64 (S + int64OfFloat n) ≠ -1 := by
  unfold int64OfFloat wrap64
  split <;> omega

theorem manualPieces_flush (S D : Int) (R : Nat) (h0 : 0 ≤ S) (h1 : S < 9223372036854775807)
    (hD : 0 < D) (hR : 0 < R) (init : List SplitPiece)
    (hinit : ∀ p ∈ init, p.EndWithTerminator = true ∧ GoodPiece p) (tail : List SplitPiece)
    (hlen : tail.length ≤ 1) (htail : ∀ p ∈ tail, GoodPiece p) :
    ∀ (k : Nat) (out : List Phrase) (cs : Int),
    manualFlush (manualPieces S D R k ⟨out, [], cs⟩ (init ++ tail)) =
      out ++ List.zipWith (pieceAsPhrase S D R) (init ++ tail)
        (k :: (init ++ tail).map SplitPiece.EndRune) := by
  induction init with
  | nil =>
    intro k out cs
    match tail, hlen, htail with
    | [], _, _ => simp [manualPieces, manualFlush, TrimSpace, dropRightWhile]
    | [x], _, htail =>
      obtain ⟨hx1, hx2⟩ := htail x (List.mem_singleton_self x)
      have hx3 : TrimSpace x.Text ≠ [] := by
        rw [← hx1, trimSpace_normalizeWhitespace, hx1]; exact hx2
      cases hx : x.EndWithTerminator
      · simp only [List.nil_append, manualPieces, List.length_nil, if_true, gt_iff_lt,
          Nat.lt_irrefl, if_false, hx, Bool.false_eq_true, manualFlush, ne_eq, hx3,
          not_false_eq_true, pieceOffsetMs_eq hD hR, pieceStart_ne_sentinel h0 h1, hx1,
          List.map_cons, List.map_nil, List.zipWith_cons_cons, List.zipWith_nil_left,
          pieceAsPhrase]
      · simp only [List.nil_append, manualPieces, List.length_nil, if_true, gt_iff_lt,
          Nat.lt_irrefl, if_false, hx, manualFlush, ne_eq, hx3, hx1,
          not_false_eq_true, pieceOffsetMs_eq hD hR,
          List.map_cons, List.map_nil, List.zipWith_cons_cons, List.zipWith_nil_left,
          pieceAsPhrase]
        simp [TrimSpace, dropRightWhile]
    | _ :: _ :: _, hlen, _ => simp at hlen
  | cons p init ih =>
    intro k out cs
    obtain ⟨hp0, hp1, hp2⟩ := hinit p (List.mem_cons_self _ _)
    have hp3 : TrimSpace p.Text ≠ [] := by
      rw [← hp1, trimSpace_normalizeWhitespace, hp1]; exact hp2
    rw [List.cons_append]
    simp only [manualPieces, List.length_nil, if_true, gt_iff_lt, Nat.lt_irrefl, if_false,
      hp0, List.nil_append, hp1, ne_eq, hp3, not_false_eq_true, pieceOffsetMs_eq hD hR]
    rw [ih (fun q hq => hinit q (List.mem_cons_of_mem _ hq))]
    simp [pieceAsPhrase]

/-- C9. One event with start `S` (a non-negative `int64` below the largest one),
duration `D > 0` and a cleaned text of `R` runes that splits into pieces: there is one
phrase per piece, with the text of the piece, and the phrase of a piece starts at
`S + round((D / R) * k)`, the product and the quotient in `float64`, where `k` is the
`EndRune` of the piece before it and 0 for the first piece; the first phrase starts
exactly at `S`. -/
theorem piece_starts_interpolated (wm : List Char) (ev : rawEvent)
    (h0 : 0 ≤ ev.TStartMs.getD 0) (h1 : ev.TStartMs.getD 0 < 9223372036854775807)
    (hD : 0 < ev.DDurationMs.getD 0)
    (hp : splitSegOffsetsString (EventText ev) ≠ []) :
    TransformManualRawToPhrases ⟨wm, [ev]⟩ =
      List.zipWith
        (pieceAsPhrase (ev.TStartMs.getD 0) (ev.DDurationMs.getD 0) (EventText ev).length)
        (splitSegOffsetsString (EventText ev))
        (0 :: (splitSegOffsetsString (EventText ev)).map SplitPiece.EndRune) ∧
    ∀ p, (pieceAsPhrase (ev.TStartMs.getD 0) (ev.DDurationMs.getD 0) (EventText ev).length
      p 0).TimestampMs = ev.TStartMs.getD 0 := by
  have hnb : TrimSpace (EventText ev) ≠ [] := fun h => hp (splitSeg_blank h)
  have hR : 0 < (EventText ev).length := by
    apply List.length_pos.mpr
    intro h
    rw [h] at hnb
    exact hnb rfl
  constructor
  · obtain ⟨init, tail, hsplit, hlen, hinit, htail⟩ := splitSeg_shape (EventText ev)
    unfold TransformManualRawToPhrases
    simp only [List.foldl_cons, List.foldl_nil]
    unfold manualEvent
    have hl : (splitSegOffsetsString (EventText ev)).length ≠ 0 := by
      intro h; exact hp (List.length_eq_zero.mp h)
    simp only [hnb, if_false, hl]
    rw [hsplit, manualPieces_flush _ _ _ h0 h1 hD hR init hinit tail hlen htail]
    simp
  · intro p
    have h := pieceOffsetMs_zero (ev.DDurationMs.getD 0) (EventText ev).length
    rw [pieceOffsetMs_eq hD hR] at h
    simp only [pieceAsPhrase, h, Int.add_zero]
    apply wrap64_eq
    unfold isInt64; omega

/-- Instance of C9: `First. Second.` over 2000 ms from 0; the second phrase starts at
`round(2000 / 14 * 7) = 1000`. -/
theorem piece_starts_interpolated_witness :
    TransformManualRawToPhrases
        ⟨[], [⟨some 0, some 2000, none, [⟨"First. Second.".toList, none⟩]⟩]⟩ =
      [⟨0, "First.".toList, 6, 1⟩, ⟨1000, "Second.".toList, 7, 1⟩] ∧
    int64OfFloat (F64.round (F64.mul (F64.div (F64.ofNat 2000) (F64.ofNat 14)) (F64.ofNat 7))) =
      1000 :=
  ⟨(piece_starts_interpolated [] ⟨some 0, some 2000, none, [⟨"First. Second.".toList, none⟩]⟩
    (by decide) (by decide) (by decide) (by decide)).1.trans (by decide), by decide⟩

/-- Instance of the amended C8: `Hello world` then `This is fine.`; the cleaned texts hold
no white space other than the plain space, and the text of the phrase is the joined
text. -/
theorem sentence_joined_across_events_witness :
    TransformManualRawToPhrases ⟨[],
        [⟨some 0, some 1000, none, [⟨"Hello world".toList, none⟩]⟩,
          ⟨some 1000, some 1000, none, [⟨"This is fine.".toList, none⟩]⟩]⟩ =
      [⟨0, "Hello world This is fine.".toList, 25, 5⟩] ∧
    EventText ⟨some 0, some 1000, none, [⟨"Hello world".toList, none⟩]⟩ ++ [' '] ++
        EventText ⟨some 1000, some 1000, none, [⟨"This is fine.".toList, none⟩]⟩ =
      "Hello world This is fine.".toList :=
  ⟨((sentence_joined_across_events []
      ⟨some 0, some 1000, none, [⟨"Hello world".toList, none⟩]⟩
      ⟨some 1000, some 1000, none, [⟨"This is fine.".toList, none⟩]⟩
      "This is fine".toList '.' [] (by decide) (by decide) (by decide) (by decide) (by decide)
      (by decide) (by decide)).2 (by decide) (by decide)).trans (by decide),
   by decide⟩

/-! ## C10: the pause rule -/

theorem autoSeg_foldl (ev : rawEvent) (segs : List rawSeg) : ∀ (st : AutoState),
    segs.foldl (autoSeg ev) st =
      autoRun st ((segs.filter (fun seg => !segSkipped seg)).map (fun seg => (ev, seg))) := by
  induction segs with
  | nil => intro st; rfl
  | cons seg segs ih =>
    intro st
    simp only [List.foldl_cons, List.filter_cons]
    cases hs : segSkipped seg
    · simp only [Bool.not_false, if_true, List.map_cons, autoRun, List.foldl_cons]
      rw [ih]
      simp [autoSeg, hs, autoStep, autoRun]
    · simp only [Bool.not_true, Bool.false_eq_true, if_false]
      rw [ih]
      simp [autoSeg, hs]

theorem autoRun_append (st : AutoState) (xs ys : List (rawEvent × rawSeg)) :
    autoRun st (xs ++ ys) = autoRun (autoRun st xs) ys := by
  simp [autoRun, List.foldl_append]

/-- The loops of `TransformAutoRawToPhrases` are the segment loop over the text-bearing
segments. -/
theorem autoEvent_foldl (events : List rawEvent) : ∀ (st : AutoState),
    events.foldl autoEvent st = autoRun st (textSegments events) := by
  induction events with
  | nil => intro st; rfl
  | cons ev events ih =>
    intro st
    simp only [List.foldl_cons, textSegments, autoRun_append]
    rw [ih]
    unfold autoEvent
    split
    · rfl
    · rw [autoSeg_foldl]

theorem commit_withPhrases (ph : List Phrase) (st : AutoState) :
    commit (withPhrases ph st) = withPhrases ph (commit st) := by
  unfold commit withPhrases
  simp only
  split <;> simp

theorem appendSegmentText_withPhrases (ph : List Phrase) (st : AutoState) (s : List Char) :
    appendSegmentText (withPhrases ph st) s = withPhrases ph (appendSegmentText st s) := by
  unfold appendSegmentText withPhrases
  simp only
  split
  · rfl
  · split <;> rfl

theorem pauseRule_withPhrases (ph : List Phrase) (st : AutoState) (ts : Int) :
    pauseRule (withPhrases ph st) ts = withPhrases ph (pauseRule st ts) := by
  unfold pauseRule
  split
  · split
    · rename_i h
      have h2 : st.lastWordTs ≥ 0 ∧ wrap64 (ts - st.lastWordTs) > pauseThresholdMs ∧
          st.currentSb.length > 0 := h
      rw [if_pos h2, commit_withPhrases]
      rfl
    · rename_i h
      have h2 : ¬ (st.lastWordTs ≥ 0 ∧ wrap64 (ts - st.lastWordTs) > pauseThresholdMs ∧
          st.currentSb.length > 0) := h
      rw [if_neg h2]
      rfl
  · rfl

theorem appendRule_withPhrases (ph : List Phrase) (st : AutoState) (s : List Char) :
    appendRule (withPhrases ph st) s = withPhrases ph (appendRule st s) := by
  unfold appendRule
  simp only [appendSegmentText_withPhrases]
  have hsb : (withPhrases ph (appendSegmentText st s)).currentSb =
      (appendSegmentText st s).currentSb := rfl
  rw [hsb]
  split
  · exact commit_withPhrases _ _
  · split
    · split
      · exact commit_withPhrases _ _
      · rfl
    · rfl

theorem autoRun_withPhrases (ph : List Phrase) (xs : List (rawEvent × rawSeg)) :
    ∀ (st : AutoState), autoRun (withPhrases ph st) xs = withPhrases ph (autoRun st xs) := by
  induction xs with
  | nil => intro st; rfl
  | cons x xs ih =>
    intro st
    simp only [autoRun, List.foldl_cons] at ih ⊢
    rw [← ih]
    congr 1
    unfold autoStep
    rw [pauseRule_withPhrases, appendRule_withPhrases]

theorem mem_textSegments {events : List rawEvent} {x : rawEvent × rawSeg}
    (h : x ∈ textSegments events) : segSkipped x.2 = false := by
  induction events with
  | nil => cases h
  | cons ev events ih =>
    unfold textSegments at h
    rcases List.mem_append.mp h with h | h
    · split at h
      · cases h
      · rw [List.mem_map] at h
        obtain ⟨seg, hseg, rfl⟩ := h
        rw [List.mem_filter] at hseg
        simpa using hseg.2
    · exact ih h

theorem nonspace_of_trimSpace_ne_nil {s : List Char} (h : TrimSpace s ≠ []) :
    ∃ c ∈ s, isSpace c = false := by
  by_contra hcon
  apply h
  have hall : ∀ c ∈ s, isSpace c = true := by
    intro c hc
    cases hs : isSpace c
    · exact absurd ⟨c, hc, hs⟩ hcon
    · rfl
  have : s.dropWhile isSpace = [] := List.dropWhile_eq_nil_iff.mpr hall
  simp [TrimSpace, dropRightWhile, this]

theorem commit_fields (st : AutoState) :
    (commit st).currentSb = [] ∧ (commit st).currentStartMs = -1 ∧
      (commit st).lastWordTs = st.lastWordTs := by
  unfold commit
  simp only
  split <;> simp

theorem pauseRule_lastWordTs (st : AutoState) {ts : Int} (h : 0 < ts) :
    (pauseRule st ts).lastWordTs = ts := by
  unfold pauseRule
  simp [h]

theorem appendRule_after (st1 : AutoState) (s : List Char)
    (hnb : normalizeWhitespace s ≠ []) :
    (appendRule st1 s).lastWordTs = st1.lastWordTs ∧
      ((appendRule st1 s).currentSb = [] → (appendRule st1 s).currentStartMs = -1) := by
  have happ : (appendSegmentText st1 s).currentSb ≠ [] ∧
      (appendSegmentText st1 s).lastWordTs = st1.lastWordTs := by
    unfold appendSegmentText
    simp only [hnb, if_false]
    split
    · exact ⟨hnb, rfl⟩
    · exact ⟨by simp, rfl⟩
  unfold appendRule
  simp only
  generalize appendSegmentText st1 s = st2 at happ
  have hc := commit_fields st2
  split
  · exact ⟨by rw [hc.2.2, happ.2], fun _ => hc.2.1⟩
  · split
    · split
      · exact ⟨by rw [hc.2.2, happ.2], fun _ => hc.2.1⟩
      · exact ⟨by rw [happ.2], fun h => absurd h happ.1⟩
    · exact ⟨by rw [happ.2], fun h => absurd h happ.1⟩

/-- After a text-bearing segment with a positive timestamp the last-word timestamp is
that of the segment, and an empty buffer means that the phrase start is unset. -/
theorem autoStep_after (st : AutoState) (x : rawEvent × rawSeg) (hx : segSkipped x.2 = false)
    (ht : 0 < calculateAbsTime x.1 x.2) :
    (autoStep st x).lastWordTs = calculateAbsTime x.1 x.2 ∧
      ((autoStep st x).currentSb = [] → (autoStep st x).currentStartMs = -1) := by
  have hnb : normalizeWhitespace (segText x.2) ≠ [] := by
    apply normalizeWhitespace_ne_nil
    apply nonspace_of_trimSpace_ne_nil
    intro h0
    simp [segSkipped, h0] at hx
  have hl := pauseRule_lastWordTs st ht
  have h := appendRule_after (pauseRule st (calculateAbsTime x.1 x.2)) (segText x.2) hnb
  rw [hl] at h
  exact h

/-- After a long pause the pause rule leaves what it leaves from an empty buffer, the
phrases flushed so far apart. -/
theorem pauseRule_after_pause (st : AutoState) (t1 t2 : Int) (h1 : 0 < t1) (h64 : isInt64 t2)
    (hp : t2 - t1 > 2000) (hl : st.lastWordTs = t1)
    (he : st.currentSb = [] → st.currentStartMs = -1) :
    pauseRule st t2 = withPhrases (commit st).phrases (pauseRule ⟨[], [], -1, t1⟩ t2) := by
  have ht2 : t2 > 0 := by omega
  have hw : wrap64 (t2 - t1) = t2 - t1 := by
    apply wrap64_eq
    unfold isInt64 at *; omega
  obtain ⟨ph, sb, cs, lw⟩ := st
  simp only at hl he
  subst hl
  have hfresh : pauseRule ⟨[], [], -1, lw⟩ t2 = ⟨[], [], t2, t2⟩ := by
    simp [pauseRule, ht2]
  rw [hfresh]
  cases sb with
  | nil =>
    have hcs : cs = -1 := he rfl
    subst hcs
    simp [pauseRule, ht2, commit, withPhrases, TrimSpace, dropRightWhile]
  | cons c sb =>
    have hc := commit_fields ⟨ph, c :: sb, cs, lw⟩
    have hcond : lw ≥ 0 ∧ wrap64 (t2 - lw) > pauseThresholdMs ∧ (c :: sb).length > 0 := by
      refine ⟨by omega, ?_, by simp⟩
      rw [hw]; unfold pauseThresholdMs; omega
    unfold pauseRule
    simp only [ht2, if_true, hcond, and_self]
    generalize commit ⟨ph, c :: sb, cs, lw⟩ = st2 at hc
    obtain ⟨ph2, sb2, cs2, lw2⟩ := st2
    simp only at hc
    obtain ⟨rfl, rfl, rfl⟩ := hc
    simp [withPhrases]

/-- C10, the claim as stated fails. One event that starts at 0 with the segments
`hello` (offset 0) and ` world` (offset 5000): both are text-bearing, their timestamps
are 0 and 5000, no terminator, and both land in one phrase. A timestamp 0 is not
recorded as the last word's (`if ts > 0`), so the pause is not seen. -/
theorem pause_after_time_zero_not_seen :
    textSegments [⟨some 0, none, none, [⟨"hello".toList, some 0⟩, ⟨" world".toList, some 5000⟩]⟩] =
      [(⟨some 0, none, none, [⟨"hello".toList, some 0⟩, ⟨" world".toList, some 5000⟩]⟩,
          ⟨"hello".toList, some 0⟩),
        (⟨some 0, none, none, [⟨"hello".toList, some 0⟩, ⟨" world".toList, some 5000⟩]⟩,
          ⟨" world".toList, some 5000⟩)] ∧
    calculateAbsTime
        ⟨some 0, none, none, [⟨"hello".toList, some 0⟩, ⟨" world".toList, some 5000⟩]⟩
        ⟨"hello".toList, some 0⟩ = 0 ∧
    calculateAbsTime
        ⟨some 0, none, none, [⟨"hello".toList, some 0⟩, ⟨" world".toList, some 5000⟩]⟩
        ⟨" world".toList, some 5000⟩ = 5000 ∧
    TransformAutoRawToPhrases
        ⟨[], [⟨some 0, none, none, [⟨"hello".toList, some 0⟩, ⟨" world".toList, some 5000⟩]⟩]⟩ =
      [⟨5000, "hello world".toList, 11, 2⟩] := by
  refine ⟨by decide, by decide, by decide, by decide⟩

/-- C10, amended. Two consecutive text-bearing segments with absolute timestamps `t1`
and `t2` (`int64` values), `t1 > 0` and `t2 - t1 > 2000`: the result is the phrases of
the segments up to the first one, flushed there, followed by the phrases built from the
second segment on out of an empty buffer. No phrase holds text of both segments,
whether or not the first one ends a sentence. -/
theorem long_pause_breaks_phrase (raw : rawJSON3) (pre post : List (rawEvent × rawSeg))
    (x1 x2 : rawEvent × rawSeg)
    (hsegs : textSegments raw.Events = pre ++ x1 :: x2 :: post)
    (h1 : 0 < calculateAbsTime x1.1 x1.2)
    (h64 : isInt64 (calculateAbsTime x2.1 x2.2))
    (hp : calculateAbsTime x2.1 x2.2 - calculateAbsTime x1.1 x1.2 > 2000) :
    TransformAutoRawToPhrases raw =
      (commit (autoRun ⟨[], [], -1, -1⟩ (pre ++ [x1]))).phrases ++
        (commit (autoRun ⟨[], [], -1, calculateAbsTime x1.1 x1.2⟩ (x2 :: post))).phrases := by
  have hne : raw.Events.length ≠ 0 := by
    intro h
    rw [List.length_eq_zero.mp h] at hsegs
    cases pre <;> cases hsegs
  have hx1 : segSkipped x1.2 = false :=
    mem_textSegments (show x1 ∈ textSegments raw.Events by rw [hsegs]; simp)
  unfold TransformAutoRawToPhrases
  rw [if_neg hne, autoEvent_foldl, hsegs]
  have e : pre ++ x1 :: x2 :: post = (pre ++ [x1]) ++ x2 :: post := by simp
  rw [e, autoRun_append]
  have hst : autoRun ⟨[], [], -1, -1⟩ (pre ++ [x1]) =
      autoStep (autoRun ⟨[], [], -1, -1⟩ pre) x1 := by
    simp [autoRun, List.foldl_append]
  obtain ⟨hl, he⟩ := autoStep_after (autoRun ⟨[], [], -1, -1⟩ pre) x1 hx1 h1
  rw [← hst] at hl he
  generalize autoRun ⟨[], [], -1, -1⟩ (pre ++ [x1]) = s1 at hl he
  have hstep : autoRun s1 (x2 :: post) =
      withPhrases (commit s1).phrases
        (autoRun ⟨[], [], -1, calculateAbsTime x1.1 x1.2⟩ (x2 :: post)) := by
    have hx : autoStep s1 x2 =
        autoStep (withPhrases (commit s1).phrases
          ⟨[], [], -1, calculateAbsTime x1.1 x1.2⟩) x2 := by
      unfold autoStep
      rw [pauseRule_withPhrases, pauseRule_after_pause s1 _ _ h1 h64 hp hl he]
    rw [← autoRun_withPhrases]
    simp only [autoRun, List.foldl_cons]
    rw [hx]
  rw [hstep, commit_withPhrases]
  rfl

/-- Instance of the amended C10: words at 10 ms and 5010 ms. -/
theorem long_pause_breaks_phrase_witness :
    TransformAutoRawToPhrases
        ⟨[], [⟨some 10, none, none, [⟨"hello".toList, some 0⟩, ⟨" world".toList, some 5000⟩]⟩]⟩ =
      [⟨10, "hello".toList, 5, 1⟩, ⟨5010, "world".toList, 5, 1⟩] :=
  (long_pause_breaks_phrase
    ⟨[], [⟨some 10, none, none, [⟨"hello".toList, some 0⟩, ⟨" world".toList, some 5000⟩]⟩]⟩
    [] []
    (⟨some 10, none, none, [⟨"hello".toList, some 0⟩, ⟨" world".toList, some 5000⟩]⟩,
      ⟨"hello".toList, some 0⟩)
    (⟨some 10, none, none, [⟨"hello".toList, some 0⟩, ⟨" world".toList, some 5000⟩]⟩,
      ⟨" world".toList, some 5000⟩)
    (by decide) (by decide) (by decide) (by decide)).trans (by decide)

/-! ## C15: the end of the rendered text -/

theorem dropRightWhile_last {p : Char → Bool} {s : List Char} {c : Char}
    (h : (dropRightWhile p s).getLast? = some c) : p c = false := by
  unfold dropRightWhile at h
  rw [List.getLast?_reverse] at h
  have hne : s.reverse.dropWhile p ≠ [] := by
    intro h0; rw [h0] at h; cases h
  have h3 := List.head_dropWhile_not p _ hne
  rw [List.head?_eq_head hne] at h
  injection h with h
  rw [h] at h3
  simpa using h3

/-- C15. For every list of events and both layouts, the text `mergeAndRender` returns
ends with exactly one line feed: it is a body followed by a line feed, its last rune is
the line feed, and the last rune of the body, when the body has one, is neither a space,
a tab, a carriage return nor a line feed. -/
theorem render_ends_with_one_newline (ev : List event) (request : OutputTextLayout) :
    ∃ body, mergeAndRender ev request = body ++ ['\n'] ∧
      (mergeAndRender ev request).getLast? = some '\n' ∧
      ∀ c, body.getLast? = some c → c ≠ ' ' ∧ c ≠ '\t' ∧ c ≠ '\r' ∧ c ≠ '\n' := by
  refine ⟨TrimRight (renderLoop request false (sortStable eventLess ev)) [' ', '\t', '\n', '\r'],
    rfl, ?_, ?_⟩
  · unfold mergeAndRender
    simp
  · intro c hc
    unfold TrimRight at hc
    have h := dropRightWhile_last hc
    simp at h
    tauto

/-! ## C17: `Plain` -/

/-- C17. `Plain` returns the empty string for every transcript without phrases; for a
transcript with at least one phrase and no chapter it returns the phrase texts in stored
order, joined by a single line feed, followed by one line feed; in every other case it
returns `transcriptWithChaptersSplit` with threshold 0 and the plain layout. -/
theorem plain_cases (t : Transcript) :
    (t.Phrases = [] → Plain t = []) ∧
    (t.Phrases ≠ [] → t.Chapters = [] →
      Plain t = Join (t.Phrases.map Phrase.Text) ['\n'] ++ ['\n']) ∧
    (t.Phrases ≠ [] → t.Chapters ≠ [] →
      Plain t = transcriptWithChaptersSplit t 0 OutputTextLayout.asPlain) := by
  refine ⟨?_, ?_, ?_⟩
  · intro h
    simp [Plain, h]
  · intro h1 h2
    have h3 : t.Phrases.length ≠ 0 := by simpa using h1
    simp [Plain, h3, h2, PlainNoChapters]
  · intro h1 h2
    have h3 : t.Phrases.length ≠ 0 := by simpa using h1
    have h4 : t.Chapters.length ≠ 0 := by simpa using h2
    simp [Plain, h3, h4]

theorem plain_cases_witness :
    Plain ⟨[], [], [⟨1, ['C']⟩]⟩ = [] ∧
    Plain ⟨[], [⟨5, ['b', ' '], 2, 1⟩, ⟨0, ['a'], 1, 1⟩], []⟩ = ['b', ' ', '\n', 'a', '\n'] ∧
    Plain ⟨[], [⟨5, ['b', ' '], 2, 1⟩, ⟨0, ['a'], 1, 1⟩], [⟨0, ['C']⟩]⟩ =
      transcriptWithChaptersSplit ⟨[], [⟨5, ['b', ' '], 2, 1⟩, ⟨0, ['a'], 1, 1⟩], [⟨0, ['C']⟩]⟩ 0
        OutputTextLayout.asPlain :=
  ⟨(plain_cases ⟨[], [], [⟨1, ['C']⟩]⟩).1 rfl,
   (plain_cases ⟨[], [⟨5, ['b', ' '], 2, 1⟩, ⟨0, ['a'], 1, 1⟩], []⟩).2.1 (by decide) rfl,
   (plain_cases ⟨[], [⟨5, ['b', ' '], 2, 1⟩, ⟨0, ['a'], 1, 1⟩], [⟨0, ['C']⟩]⟩).2.2
     (by decide) (by decide)⟩

/-! ## C19: `Filename` -/

/-- C19. `Filename` succeeds exactly for the formats txt and md; on success it returns
`SanitizeFilename` of the trimmed title followed by a dot and the format name, with a nil
error; for every other format it returns the empty string and a non-nil error. -/
theorem filename_textual_only (upper : Char → Char) (t : Transcript) (format : Format) :
    ((Filename upper t format).2 = none ↔ (format = FormatTXT ∨ format = FormatMARKDOWN)) ∧
    ((format = FormatTXT ∨ format = FormatMARKDOWN) →
      Filename upper t format =
        (SanitizeFilename upper (TrimSpace t.Title) ++ ['.'] ++ format, none)) ∧
    (¬ (format = FormatTXT ∨ format = FormatMARKDOWN) →
      (Filename upper t format).1 = [] ∧ (Filename upper t format).2 ≠ none) := by
  have key : IsTextual format = true ↔ (format = FormatTXT ∨ format = FormatMARKDOWN) := by
    simp [IsTextual]
  by_cases h : IsTextual format = true
  · have h2 := key.mp h
    simp [Filename, h, h2, Extension]
  · have h2 : ¬ (format = FormatTXT ∨ format = FormatMARKDOWN) := fun h3 => h (key.mpr h3)
    simp [Filename, h, h2]

theorem filename_textual_only_witness :
    Filename id ⟨[' ', 'a', ':', 'b', '?', ' '], [], []⟩ FormatTXT =
        (['A', '-', 'b', '.', 't', 'x', 't'], none) ∧
    (Filename id ⟨[' ', 'a', ':', 'b', '?', ' '], [], []⟩ FormatSRT).1 = [] ∧
    (Filename id ⟨[' ', 'a', ':', 'b', '?', ' '], [], []⟩ FormatSRT).2 ≠ none :=
  ⟨((filename_textual_only id ⟨[' ', 'a', ':', 'b', '?', ' '], [], []⟩ FormatTXT).2.1
      (Or.inl rfl)).trans (by decide),
   ((filename_textual_only id ⟨[' ', 'a', ':', 'b', '?', ' '], [], []⟩ FormatSRT).2.2
      (by decide)).1,
   ((filename_textual_only id ⟨[' ', 'a', ':', 'b', '?', ' '], [], []⟩ FormatSRT).2.2
      (by decide)).2⟩

/-! ## C20: the output does not depend on the order of the input -/

theorem ordered_perm_unique {α : Type} {less : α → α → Bool} {l1 l2 : List α}
    (hp : l1.Perm l2) (h1 : Ordered less l1) (h2 : Ordered less l2)
    (hd : l1.Pairwise (fun a b => less a b = true ∨ less b a = true)) : l1 = l2 := by
  have hd2 : l2.Pairwise (fun a b => less a b = true ∨ less b a = true) :=
    hp.pairwise hd (fun {a b} h => h.symm)
  have s1 : l1.Pairwise (fun a b => less a b = true ∧ less b a = false) := by
    refine (h1.and hd).imp ?_
    intro a b h
    rcases h.2 with h3 | h3
    · exact ⟨h3, h.1⟩
    · rw [h.1] at h3; cases h3
  have s2 : l2.Pairwise (fun a b => less a b = true ∧ less b a = false) := by
    refine (h2.and hd2).imp ?_
    intro a b h
    rcases h.2 with h3 | h3
    · exact ⟨h3, h.1⟩
    · rw [h.1] at h3; cases h3
  haveI : IsAntisymm α (fun a b => less a b = true ∧ less b a = false) :=
    ⟨fun a b h3 h4 => by rw [h3.1] at h4; cases h4.2⟩
  exact List.eq_of_perm_of_sorted hp s1 s2

theorem ensureSortedPhrases_perm {ps qs : List Phrase} (hp : qs.Perm ps)
    (hd : (ps.map Phrase.TimestampMs).Nodup) :
    ensureSortedPhrases qs = ensureSortedPhrases ps := by
  have p1 : (ensureSortedPhrases qs).Perm (ensureSortedPhrases ps) :=
    ((perm_ensureSortedPhrases qs).trans hp).trans (perm_ensureSortedPhrases ps).symm
  refine ordered_perm_unique p1 (ordered_of_chronological (chronological_ensureSortedPhrases qs))
    (ordered_of_chronological (chronological_ensureSortedPhrases ps)) ?_
  have hd1 : ((ensureSortedPhrases qs).map Phrase.TimestampMs).Nodup :=
    (((perm_ensureSortedPhrases qs).trans hp).map _).nodup_iff.mpr hd
  have hd2 := List.pairwise_map.mp hd1
  refine hd2.imp ?_
  intro a b h
  simp only [phraseLess, decide_eq_true_eq]
  omega

theorem sortChapters_perm {cs ds : List Chapter} (hp : ds.Perm cs)
    (hd : (cs.map (fun c => Milliseconds c.Start)).Nodup) :
    sortChapters ds = sortChapters cs := by
  have p1 : (sortChapters ds).Perm (sortChapters cs) :=
    ((perm_sortChapters ds).trans hp).trans (perm_sortChapters cs).symm
  refine ordered_perm_unique p1 (ordered_sortChapters ds) (ordered_sortChapters cs) ?_
  have hd1 : ((sortChapters ds).map (fun c => Milliseconds c.Start)).Nodup :=
    (((perm_sortChapters ds).trans hp).map _).nodup_iff.mpr hd
  have hd2 := List.pairwise_map.mp hd1
  refine hd2.imp ?_
  intro a b h
  simp only [chapterLess, decide_eq_true_eq]
  omega

/-- C20. For every transcript whose phrase timestamps are pairwise distinct and whose
chapter starts, in milliseconds as the code compares them, are pairwise distinct, and for
every threshold and layout, `transcriptWithChaptersSplit` returns the same text for every
reordering of the phrases and of the chapters; in particular the text is the one computed
on the phrases and chapters sorted ascending by time. -/
theorem output_independent_of_input_order (t u : Transcript) (thresholdMs : Int)
    (request : OutputTextLayout)
    (hp : (t.Phrases.map Phrase.TimestampMs).Nodup)
    (hc : (t.Chapters.map (fun c => Milliseconds c.Start)).Nodup)
    (hpu : u.Phrases.Perm t.Phrases) (hcu : u.Chapters.Perm t.Chapters) :
    transcriptWithChaptersSplit u thresholdMs request =
        transcriptWithChaptersSplit t thresholdMs request ∧
    transcriptWithChaptersSplit
        ⟨t.Title, sortStable phraseLess t.Phrases, sortStable chapterLess t.Chapters⟩
        thresholdMs request = transcriptWithChaptersSplit t thresholdMs request := by
  have key : ∀ v : Transcript, v.Phrases.Perm t.Phrases → v.Chapters.Perm t.Chapters →
      transcriptWithChaptersSplit v thresholdMs request =
        transcriptWithChaptersSplit t thresholdMs request := by
    intro v h1 h2
    unfold transcriptWithChaptersSplit
    rw [ensureSortedPhrases_perm h1 hp, sortChapters_perm h2 hc]
  exact ⟨key u hpu hcu, key _ (perm_sortStable _ _) (perm_sortStable _ _)⟩

theorem output_independent_of_input_order_witness :
    transcriptWithChaptersSplit
        ⟨[], [⟨9000, ['b'], 1, 1⟩, ⟨0, ['a'], 1, 1⟩], [⟨7, ['D']⟩, ⟨2, ['C']⟩]⟩ 3000
        OutputTextLayout.asPlain =
      transcriptWithChaptersSplit
        ⟨[], [⟨0, ['a'], 1, 1⟩, ⟨9000, ['b'], 1, 1⟩], [⟨2, ['C']⟩, ⟨7, ['D']⟩]⟩ 3000
        OutputTextLayout.asPlain :=
  (output_independent_of_input_order
    ⟨[], [⟨0, ['a'], 1, 1⟩, ⟨9000, ['b'], 1, 1⟩], [⟨2, ['C']⟩, ⟨7, ['D']⟩]⟩
    ⟨[], [⟨9000, ['b'], 1, 1⟩, ⟨0, ['a'], 1, 1⟩], [⟨7, ['D']⟩, ⟨2, ['C']⟩]⟩ 3000
    OutputTextLayout.asPlain (by decide) (by decide)
    (List.Perm.swap _ _ _) (List.Perm.swap _ _ _)).1

/-! ## C16: line feeds of the collapsed text -/

theorem of_mem_join {parts : List (List Char)} {sep : List Char} {c : Char}
    (h : c ∈ Join parts sep) : c ∈ sep ∨ ∃ p ∈ parts, c ∈ p := by
  induction parts with
  | nil => cases h
  | cons q parts ih =>
    cases parts with
    | nil => exact Or.inr ⟨q, List.mem_cons_self _ _, h⟩
    | cons r parts =>
      unfold Join at h
      rcases List.mem_append.mp h with h1 | h1
      · rcases List.mem_append.mp h1 with h2 | h2
        · exact Or.inr ⟨q, List.mem_cons_self _ _, h2⟩
        · exact Or.inl h2
      · rcases ih h1 with h2 | ⟨p, hp, h2⟩
        · exact Or.inl h2
        · exact Or.inr ⟨p, List.mem_cons_of_mem _ hp, h2⟩

theorem mem_of_mem_trimSpace {s : List Char} {c : Char} (h : c ∈ TrimSpace s) : c ∈ s :=
  List.IsInfix.subset ( trimSpace_infix s) h

theorem mem_of_mem_trimLeft {s cutset : List Char} {c : Char} (h : c ∈ TrimLeft s cutset) :
    c ∈ s :=
  (List.dropWhile_suffix _).subset h

theorem trimRight_initial (s cutset : List Char) : TrimRight s cutset <+: s := by
  unfold TrimRight dropRightWhile
  rw [← List.reverse_suffix, List.reverse_reverse]
  exact List.dropWhile_suffix _

theorem perm_splitChapters (cs : List Chapter) (f l : Int) :
    ((splitChapters cs f l).1 ++ (splitChapters cs f l).2.1 ++ (splitChapters cs f l).2.2).Perm
      cs := by
  induction cs with
  | nil => simp [splitChapters]
  | cons c cs ih =>
    unfold splitChapters
    simp only
    split
    · exact List.Perm.cons c ih
    · split
      · refine (List.Perm.trans ?_ (List.Perm.cons c ih))
        exact List.perm_middle
      · simp only [List.append_assoc] at ih ⊢
        refine (List.Perm.trans ?_ (List.Perm.cons c ih))
        exact List.perm_middle

theorem countP_chapterEvents (cs : List Chapter) (b : Nat) :
    (chapterEvents cs b).countP event.isChapter = cs.length := by
  induction cs generalizing b with
  | nil => rfl
  | cons c cs ih =>
    unfold chapterEvents
    rw [List.countP_cons_of_pos _ _ rfl, ih]
    rfl

theorem countP_adjustMiddleChapters (cs : List Chapter) (ps : List Phrase) (thr : Int) (b : Nat) :
    (adjustMiddleChapters cs ps thr b).countP event.isChapter = cs.length := by
  induction cs generalizing b with
  | nil => rfl
  | cons c cs ih =>
    unfold adjustMiddleChapters
    rw [List.countP_cons_of_pos _ _ rfl, ih]
    rfl

theorem countP_buildEventsFromPhrases (ps : List Phrase) (b : Nat) :
    (buildEventsFromPhrases ps b).countP event.isChapter = 0 := by
  induction ps generalizing b with
  | nil => rfl
  | cons p ps ih =>
    unfold buildEventsFromPhrases
    rw [List.countP_cons_of_neg _ _ (by simp), ih]

/-- The built list holds one chapter event for each chapter. -/
theorem countP_buildEvents (ps : List Phrase) (cs : List Chapter) (thr : Int) :
    (buildEvents ps cs thr).countP event.isChapter = cs.length := by
  unfold buildEvents
  simp only [List.countP_append, countP_chapterEvents, countP_adjustMiddleChapters,
    countP_buildEventsFromPhrases]
  have h := (perm_splitChapters cs ((ps.head?.map Phrase.TimestampMs).getD 0)
    ((ps.getLast?.map Phrase.TimestampMs).getD 0)).length_eq
  simp only [List.length_append] at h
  omega

theorem title_of_mem_chapterEvents {cs : List Chapter} {e : event} {b : Nat}
    (he : e ∈ chapterEvents cs b) : ∃ c ∈ cs, c.Title = e.text := by
  induction cs generalizing b with
  | nil => cases he
  | cons q cs ih =>
    unfold chapterEvents at he
    rcases List.mem_cons.mp he with h | h
    · subst h; exact ⟨q, List.mem_cons_self _ _, rfl⟩
    · obtain ⟨c, hc, h3⟩ := ih h
      exact ⟨c, List.mem_cons_of_mem _ hc, h3⟩

theorem title_of_mem_adjustMiddleChapters {cs : List Chapter} {ps : List Phrase} {thr : Int}
    {e : event} {b : Nat} (he : e ∈ adjustMiddleChapters cs ps thr b) :
    ∃ c ∈ cs, c.Title = e.text := by
  induction cs generalizing b with
  | nil => cases he
  | cons q cs ih =>
    unfold adjustMiddleChapters at he
    rcases List.mem_cons.mp he with h | h
    · subst h; exact ⟨q, List.mem_cons_self _ _, rfl⟩
    · obtain ⟨c, hc, h3⟩ := ih h
      exact ⟨c, List.mem_cons_of_mem _ hc, h3⟩

/-- Every event of the built list carries the text of a phrase or the title of a
chapter. -/
theorem text_of_mem_buildEvents {ps : List Phrase} {cs : List Chapter} {thr : Int} {e : event}
    (he : e ∈ buildEvents ps cs thr) :
    (e.isChapter = false ∧ ∃ p ∈ ps, p.Text = e.text) ∨
    (e.isChapter = true ∧ ∃ c ∈ cs, c.Title = e.text) := by
  have hsub : ∀ c, (c ∈ (splitChapters cs ((ps.head?.map Phrase.TimestampMs).getD 0)
      ((ps.getLast?.map Phrase.TimestampMs).getD 0)).1 ∨
      c ∈ (splitChapters cs ((ps.head?.map Phrase.TimestampMs).getD 0)
      ((ps.getLast?.map Phrase.TimestampMs).getD 0)).2.1 ∨
      c ∈ (splitChapters cs ((ps.head?.map Phrase.TimestampMs).getD 0)
      ((ps.getLast?.map Phrase.TimestampMs).getD 0)).2.2) → c ∈ cs := by
    intro c hc
    refine (perm_splitChapters cs ((ps.head?.map Phrase.TimestampMs).getD 0)
      ((ps.getLast?.map Phrase.TimestampMs).getD 0)).mem_iff.mp ?_
    simp only [List.mem_append]
    tauto
  unfold buildEvents at he
  simp only [List.mem_append] at he
  rcases he with ((h | h) | h) | h
  · obtain ⟨c, hc, h2⟩ := title_of_mem_chapterEvents h
    exact Or.inr ⟨isChapter_of_mem_chapterEvents h, c, hsub c (Or.inl hc), h2⟩
  · obtain ⟨h1, p, hp, _, h2⟩ := of_mem_buildEventsFromPhrases h
    exact Or.inl ⟨h1, p, hp, h2⟩
  · obtain ⟨c, hc, h2⟩ := title_of_mem_adjustMiddleChapters h
    exact Or.inr ⟨isChapter_of_mem_adjustMiddleChapters h, c, hsub c (Or.inr (Or.inl hc)), h2⟩
  · obtain ⟨c, hc, h2⟩ := title_of_mem_chapterEvents h
    exact Or.inr ⟨isChapter_of_mem_chapterEvents h, c, hsub c (Or.inr (Or.inr hc)), h2⟩

/-- In the collapsed layout the line feeds of the rendered events are those around the
chapter lines: at most two for each chapter event. -/
theorem count_newline_renderLoop (S : List event) (h : ∀ e ∈ S, '\n' ∉ e.text) :
    ∀ ic, (renderLoop OutputTextLayout.asCollapsed ic S).count '\n' ≤
      2 * S.countP event.isChapter := by
  induction S with
  | nil => intro ic; simp [renderLoop]
  | cons e S ih =>
    intro ic
    have he : '\n' ∉ e.text := h e (List.mem_cons_self _ _)
    have ih2 := ih (fun x hx => h x (List.mem_cons_of_mem _ hx))
    have h1 : (TrimSpace e.text).count '\n' = 0 :=
      List.count_eq_zero.mpr (fun hm => he (mem_of_mem_trimSpace hm))
    have h2 : (TrimSpace (TrimLeft e.text ['#', ' '])).count '\n' = 0 :=
      List.count_eq_zero.mpr (fun hm => he (mem_of_mem_trimLeft (mem_of_mem_trimSpace hm)))
    unfold renderLoop
    by_cases hc : e.isChapter = true
    · rw [List.countP_cons_of_pos _ _ hc]
      simp only [hc, if_true, List.count_append, h2, chapterSep]
      have := ih2 false
      cases ic <;> simp <;> omega
    · rw [List.countP_cons_of_neg _ _ hc]
      simp only [hc, Bool.false_eq_true, if_false]
      split
      · exact ih2 ic
      · have := ih2 true
        cases ic <;> simp [List.count_append, h1, phraseSep] <;> omega

/-- C16 as stated fails: with a chapter between two phrases the collapsed text holds three
line feeds, two of them around the chapter line. -/
theorem collapsed_chapter_adds_newlines :
    (Collapsed ⟨[], [⟨0, "phrase1".toList, 7, 1⟩, ⟨100000, "phrase2".toList, 7, 1⟩],
        [⟨51, "ChapB".toList⟩]⟩ = "phrase1\n## ChapB\nphrase2\n".toList) ∧
    (Collapsed ⟨[], [⟨0, "phrase1".toList, 7, 1⟩, ⟨100000, "phrase2".toList, 7, 1⟩],
        [⟨51, "ChapB".toList⟩]⟩).count '\n' = 3 ∧
    '\n' ∉ "phrase1".toList ∧ '\n' ∉ "phrase2".toList ∧ '\n' ∉ "ChapB".toList := by
  decide

/-- C16, amended. For every transcript with at least one phrase whose phrase texts and
chapter titles hold no line feed, the collapsed text ends with a line feed and holds at
most one line feed plus two for each chapter; without chapters it holds exactly one line
feed, its last rune. -/
theorem collapsed_newlines_bounded (t : Transcript) (hne : t.Phrases ≠ [])
    (hp : ∀ p ∈ t.Phrases, '\n' ∉ p.Text) (hc : ∀ c ∈ t.Chapters, '\n' ∉ c.Title) :
    (Collapsed t).getLast? = some '\n' ∧
    (Collapsed t).count '\n' ≤ 2 * t.Chapters.length + 1 ∧
    (t.Chapters = [] → ∃ body, Collapsed t = body ++ ['\n'] ∧ '\n' ∉ body) := by
  have hlen : t.Phrases.length ≠ 0 := by simpa using hne
  have hbody : '\n' ∉ TrimSpace (Join (t.Phrases.map (fun p => TrimSpace p.Text)) [' ']) := by
    intro hm
    rcases of_mem_join (mem_of_mem_trimSpace hm) with h | ⟨q, hq, h⟩
    · simp at h
    · obtain ⟨p, hp1, rfl⟩ := List.mem_map.mp hq
      exact hp p hp1 (mem_of_mem_trimSpace h)
  by_cases h0 : t.Chapters = []
  · have e : Collapsed t =
        TrimSpace (Join (t.Phrases.map (fun p => TrimSpace p.Text)) [' ']) ++ ['\n'] := by
      simp [Collapsed, hlen, h0, CollapsedNoChapters]
    refine ⟨by rw [e]; simp, ?_, fun _ => ⟨_, e, hbody⟩⟩
    rw [e, List.count_append, List.count_eq_zero.mpr hbody]
    simp
  · have hlen2 : t.Chapters.length ≠ 0 := by simpa using h0
    have e : Collapsed t = TrimRight (renderLoop OutputTextLayout.asCollapsed false
        (mergedStream t 0)) trailingCutset ++ ['\n'] := by
      simp only [Collapsed, hlen, hlen2, if_false]
      exact transcriptWithChaptersSplit_eq t 0 _ hne
    refine ⟨by rw [e]; simp, ?_, fun h => absurd h h0⟩
    have htxt : ∀ e ∈ mergedStream t 0, '\n' ∉ e.text := by
      intro e he
      have he2 := (mem_sortStable _ _ _).mp he
      rcases text_of_mem_buildEvents he2 with ⟨_, p, hp1, h⟩ | ⟨_, c, hc1, h⟩
      · rw [← h]; exact hp p ((perm_ensureSortedPhrases _).mem_iff.mp hp1)
      · rw [← h]; exact hc c ((perm_sortChapters _).mem_iff.mp hc1)
    have h1 := count_newline_renderLoop (mergedStream t 0) htxt false
    have h2 : (mergedStream t 0).countP event.isChapter = t.Chapters.length := by
      unfold mergedStream
      rw [(perm_sortStable _ _).countP_eq, countP_buildEvents,
        (perm_sortChapters _).length_eq]
    have h3 := (trimRight_initial (renderLoop OutputTextLayout.asCollapsed false
      (mergedStream t 0)) trailingCutset).sublist.count_le '\n'
    rw [e, List.count_append]
    simp
    omega

theorem collapsed_newlines_bounded_witness :
    (Collapsed ⟨[], [⟨0, "phrase1".toList, 7, 1⟩, ⟨100000, "phrase2".toList, 7, 1⟩],
        [⟨51, "ChapB".toList⟩]⟩).getLast? = some '\n' ∧
    (Collapsed ⟨[], [⟨0, "phrase1".toList, 7, 1⟩, ⟨100000, "phrase2".toList, 7, 1⟩],
        [⟨51, "ChapB".toList⟩]⟩).count '\n' ≤ 2 * 1 + 1 :=
  ⟨(collapsed_newlines_bounded ⟨[], [⟨0, "phrase1".toList, 7, 1⟩,
      ⟨100000, "phrase2".toList, 7, 1⟩], [⟨51, "ChapB".toList⟩]⟩
      (by decide) (by decide) (by decide)).1,
   (collapsed_newlines_bounded ⟨[], [⟨0, "phrase1".toList, 7, 1⟩,
      ⟨100000, "phrase2".toList, 7, 1⟩], [⟨51, "ChapB".toList⟩]⟩
      (by decide) (by decide) (by decide)).2.1⟩

/-! ## Invariants of the automatic segmenter -/

theorem commit_invariant {P : Phrase → Prop} {Q Q' : List Char → Prop} (hQ0 : Q [])
    (hcommit : ∀ sb ts, Q' sb → TrimSpace sb ≠ [] →
      P ⟨ts, TrimSpace sb, (TrimSpace (TrimSpace sb)).length, (Fields (TrimSpace sb)).length⟩)
    (st : AutoState) (h1 : Q' st.currentSb) (h2 : ∀ p ∈ st.phrases, P p) :
    Q (commit st).currentSb ∧ ∀ p ∈ (commit st).phrases, P p := by
  unfold commit
  simp only
  split
  · exact ⟨hQ0, h2⟩
  · rename_i hne
    refine ⟨hQ0, ?_⟩
    intro p hp
    rcases List.mem_append.mp hp with h | h
    · exact h2 p h
    · rw [List.mem_singleton] at h
      subst h
      exact hcommit _ _ h1 hne

theorem pauseRule_invariant {P : Phrase → Prop} {Q Q' : List Char → Prop} (hQ0 : Q [])
    (hQQ' : ∀ sb, Q sb → Q' sb)
    (hcommit : ∀ sb ts, Q' sb → TrimSpace sb ≠ [] →
      P ⟨ts, TrimSpace sb, (TrimSpace (TrimSpace sb)).length, (Fields (TrimSpace sb)).length⟩)
    (st : AutoState) (ts : Int) (h1 : Q st.currentSb) (h2 : ∀ p ∈ st.phrases, P p) :
    Q (pauseRule st ts).currentSb ∧ ∀ p ∈ (pauseRule st ts).phrases, P p := by
  unfold pauseRule
  split
  · simp only
    split
    · exact commit_invariant hQ0 hcommit st (hQQ' _ h1) h2
    · exact ⟨h1, h2⟩
  · exact ⟨h1, h2⟩

theorem appendRule_invariant {P : Phrase → Prop} {Q Q' : List Char → Prop} (hQ0 : Q [])
    (hQQ' : ∀ sb, Q sb → Q' sb)
    (hkeep : ∀ sb, Q' sb → (Fields sb).length < maxWordsPerPhrase → Q sb)
    (hcommit : ∀ sb ts, Q' sb → TrimSpace sb ≠ [] →
      P ⟨ts, TrimSpace sb, (TrimSpace (TrimSpace sb)).length, (Fields (TrimSpace sb)).length⟩)
    (s : List Char)
    (happ : ∀ sb, normalizeWhitespace s ≠ [] → Q sb →
      Q' (if sb.length = 0 then normalizeWhitespace s
        else sb ++ [' '] ++ TrimSpace (normalizeWhitespace s)))
    (st : AutoState) (h1 : Q st.currentSb) (h2 : ∀ p ∈ st.phrases, P p) :
    Q (appendRule st s).currentSb ∧ ∀ p ∈ (appendRule st s).phrases, P p := by
  have ha : Q' (appendSegmentText st s).currentSb ∧
      ∀ p ∈ (appendSegmentText st s).phrases, P p := by
    unfold appendSegmentText
    simp only
    split
    · exact ⟨hQQ' _ h1, h2⟩
    · rename_i hn
      have := happ st.currentSb hn h1
      split
      · rename_i h0
        rw [if_pos h0] at this
        exact ⟨this, h2⟩
      · rename_i h0
        rw [if_neg h0] at this
        exact ⟨this, h2⟩
  unfold appendRule
  simp only
  generalize appendSegmentText st s = st1 at ha
  split
  · exact commit_invariant hQ0 hcommit st1 ha.1 ha.2
  · rename_i hcap
    have hq : Q st1.currentSb := hkeep _ ha.1 (by omega)
    split
    · split
      · exact commit_invariant hQ0 hcommit st1 ha.1 ha.2
      · exact ⟨hq, ha.2⟩
    · exact ⟨hq, ha.2⟩

/-- A property of the buffer (`Q` between segments, `Q'` after an append) and a property
`P` of the committed phrases are kept by the segment loop. -/
theorem autoRun_invariant {P : Phrase → Prop} {Q Q' : List Char → Prop} (hQ0 : Q [])
    (hQQ' : ∀ sb, Q sb → Q' sb)
    (hkeep : ∀ sb, Q' sb → (Fields sb).length < maxWordsPerPhrase → Q sb)
    (hcommit : ∀ sb ts, Q' sb → TrimSpace sb ≠ [] →
      P ⟨ts, TrimSpace sb, (TrimSpace (TrimSpace sb)).length, (Fields (TrimSpace sb)).length⟩)
    (xs : List (rawEvent × rawSeg))
    (happ : ∀ x ∈ xs, ∀ sb, normalizeWhitespace (segText x.2) ≠ [] → Q sb →
      Q' (if sb.length = 0 then normalizeWhitespace (segText x.2)
        else sb ++ [' '] ++ TrimSpace (normalizeWhitespace (segText x.2)))) :
    ∀ (st : AutoState), Q st.currentSb → (∀ p ∈ st.phrases, P p) →
      Q (autoRun st xs).currentSb ∧ ∀ p ∈ (autoRun st xs).phrases, P p := by
  induction xs with
  | nil => intro st h1 h2; exact ⟨h1, h2⟩
  | cons x xs ih =>
    intro st h1 h2
    have hp := pauseRule_invariant hQ0 hQQ' hcommit st (calculateAbsTime x.1 x.2) h1 h2
    have hs := appendRule_invariant hQ0 hQQ' hkeep hcommit (segText x.2)
      (happ x (List.mem_cons_self _ _)) _ hp.1 hp.2
    exact ih (fun y hy => happ y (List.mem_cons_of_mem _ hy)) (autoStep st x) hs.1 hs.2

/-- The phrases of `TransformAutoRawToPhrases` have every property that the commits of
the segment loop establish. -/
theorem transformAuto_invariant {P : Phrase → Prop} {Q Q' : List Char → Prop} (hQ0 : Q [])
    (hQQ' : ∀ sb, Q sb → Q' sb)
    (hkeep : ∀ sb, Q' sb → (Fields sb).length < maxWordsPerPhrase → Q sb)
    (hcommit : ∀ sb ts, Q' sb → TrimSpace sb ≠ [] →
      P ⟨ts, TrimSpace sb, (TrimSpace (TrimSpace sb)).length, (Fields (TrimSpace sb)).length⟩)
    (raw : rawJSON3)
    (happ : ∀ x ∈ textSegments raw.Events, ∀ sb, normalizeWhitespace (segText x.2) ≠ [] → Q sb →
      Q' (if sb.length = 0 then normalizeWhitespace (segText x.2)
        else sb ++ [' '] ++ TrimSpace (normalizeWhitespace (segText x.2)))) :
    ∀ p ∈ TransformAutoRawToPhrases raw, P p := by
  unfold TransformAutoRawToPhrases
  split
  · intro p hp; cases hp
  · rw [autoEvent_foldl]
    have h := autoRun_invariant hQ0 hQQ' hkeep hcommit (textSegments raw.Events) happ
      ⟨[], [], -1, -1⟩ hQ0 (by intro p hp; cases hp)
    exact (commit_invariant hQ0 hcommit _ (hQQ' _ h.1) h.2).2

/-! ## C14: the invariant of finished phrases -/

theorem chain_of_no_space : ∀ (l : List Char), (∀ c ∈ l, isSpace c = false) →
    l.Chain' (fun a b => ¬ (isSpace a = true ∧ isSpace b = true))
  | [], _ => List.chain'_nil
  | [_], _ => List.chain'_singleton _
  | a :: b :: l, h => by
    refine List.chain'_cons.mpr ⟨?_, chain_of_no_space (b :: l)
      (fun c hc => h c (List.mem_cons_of_mem _ hc))⟩
    intro h2
    rw [h a (List.mem_cons_self _ _)] at h2
    cases h2.1

theorem singleSpaced_word {w : List Char} (hw : Word w) : SingleSpaced w := by
  refine ⟨?_, ?_, ?_, ?_⟩
  · intro c hc hs
    rw [hw.2 c hc] at hs; cases hs
  · exact chain_of_no_space w hw.2
  · intro c hc
    exact hw.2 c (List.mem_of_mem_head? hc)
  · intro c hc
    exact hw.2 c (List.mem_of_mem_getLast? hc)

theorem singleSpaced_normalizeWhitespace (s : List Char) :
    SingleSpaced (normalizeWhitespace s) := by
  rw [normalizeWhitespace_eq]
  apply singleSpaced_join
  intro p hp
  exact ⟨singleSpaced_word (fields_words s p hp), (fields_words s p hp).1⟩

theorem trimSpace_of_singleSpaced {s : List Char} (h : SingleSpaced s) : TrimSpace s = s :=
  trimSpace_eq_self h.2.2.1 h.2.2.2

theorem wellFormed_normalized (ts : Int) (s : List Char) (h : normalizeWhitespace s ≠ []) :
    WellFormedPhrase ⟨ts, normalizeWhitespace s, (normalizeWhitespace s).length,
      (Fields (normalizeWhitespace s)).length⟩ :=
  ⟨h, singleSpaced_normalizeWhitespace s, rfl, rfl⟩

theorem trimSpace_nil : TrimSpace [] = [] := rfl

theorem manualPieces_wellFormed (S D : Int) (R : Nat) (pieces : List SplitPiece) :
    ∀ (k : Nat) (st : ManualState), (∀ p ∈ st.out, WellFormedPhrase p) →
      ∀ p ∈ (manualPieces S D R k st pieces).out, WellFormedPhrase p := by
  induction pieces with
  | nil => intro k st h; exact h
  | cons q pieces ih =>
    intro k st h
    unfold manualPieces
    simp only
    generalize wrap64 (S + pieceOffsetMs D R k) = ts
    generalize (if st.currBuilder.length = 0 then ts else st.currStartMs) = cs
    generalize ((if st.currBuilder.length > 0 then st.currBuilder ++ [' ']
      else st.currBuilder) ++ q.Text) = builder
    refine ih q.EndRune _ ?_
    cases q.EndWithTerminator
    · simpa using h
    · by_cases hne : TrimSpace (normalizeWhitespace builder) = []
      · simpa [hne] using h
      · have hn : normalizeWhitespace builder ≠ [] := by
          intro h0
          rw [h0] at hne
          exact hne trimSpace_nil
        have hw := wellFormed_normalized cs builder hn
        simp only [if_true, ne_eq, hne, not_false_eq_true, List.mem_append,
          List.mem_singleton]
        intro p hp
        rcases hp with h1 | h1
        · exact h p h1
        · rw [h1]; exact hw

theorem manualEvents_wellFormed (events : List rawEvent) :
    ∀ (st : ManualState), (∀ p ∈ st.out, WellFormedPhrase p) →
      ∀ p ∈ (events.foldl manualEvent st).out, WellFormedPhrase p := by
  induction events with
  | nil => intro st h; exact h
  | cons ev events ih =>
    intro st h
    rw [List.foldl_cons]
    apply ih
    unfold manualEvent
    simp only
    split
    · exact h
    · exact manualPieces_wellFormed _ _ _ _ _ _ h

/-- C14. Every phrase returned by `TransformManualRawToPhrases` and by
`TransformAutoRawToPhrases`, for every raw input, has a text that is not empty, with no
white space at either end and no white space other than single spaces between words, a
rune count that is the number of runes of the text, and a word count that is the number
of white-space-separated words of the text. -/
theorem phrases_well_formed (raw : rawJSON3) :
    (∀ p ∈ TransformManualRawToPhrases raw, WellFormedPhrase p) ∧
    (∀ p ∈ TransformAutoRawToPhrases raw, WellFormedPhrase p) := by
  constructor
  · unfold TransformManualRawToPhrases
    have h := manualEvents_wellFormed raw.Events ⟨[], [], -1⟩ (by intro p hp; cases hp)
    generalize raw.Events.foldl manualEvent ⟨[], [], -1⟩ = st at h
    unfold manualFlush
    split
    · rename_i hne
      intro p hp
      rcases List.mem_append.mp hp with h1 | h1
      · exact h p h1
      · rw [List.mem_singleton] at h1
        subst h1
        exact wellFormed_normalized _ _
          (normalizeWhitespace_ne_nil (nonspace_of_trimSpace_ne_nil hne))
    · exact h
  · refine @transformAuto_invariant WellFormedPhrase (fun sb => sb = [] ∨ SingleSpaced sb)
      (fun sb => sb = [] ∨ SingleSpaced sb) (Or.inl rfl) (fun _ h => h)
      (fun _ h _ => h) ?_ raw ?_
    · intro sb ts hq hne
      rcases hq with h0 | hs
      · rw [h0] at hne; exact absurd trimSpace_nil hne
      · rw [trimSpace_of_singleSpaced hs] at hne ⊢
        rw [trimSpace_of_singleSpaced hs]
        exact ⟨hne, hs, rfl, rfl⟩
    · intro x _ sb hn hq
      have hN := singleSpaced_normalizeWhitespace (segText x.2)
      split
      · exact Or.inr hN
      · rename_i h0
        have hsb : sb ≠ [] := fun h => h0 (by rw [h]; rfl)
        rcases hq with h1 | hs
        · exact absurd h1 hsb
        · right
          rw [trimSpace_of_singleSpaced hN, List.append_assoc]
          exact singleSpaced_append_space hs hN hsb hn

/-! ## C12: the word cap -/

theorem fields_dropRightWhile (s : List Char) : Fields (dropRightWhile isSpace s) = Fields s := by
  unfold dropRightWhile
  induction s using List.reverseRecOn with
  | nil => rfl
  | append_singleton l c ih =>
    rw [List.reverse_append]
    simp only [List.reverse_cons, List.reverse_nil, List.nil_append, List.singleton_append,
      List.dropWhile]
    cases hc : isSpace c
    · simp
    · simp only [List.nil_append]
      show Fields (List.dropWhile isSpace l.reverse).reverse = Fields (l ++ [c])
      rw [ih]
      have := fields_append_space l c hc []
      rw [this]
      simp [Fields, fieldsAux]

theorem fields_trimSpace (s : List Char) : Fields (TrimSpace s) = Fields s := by
  unfold TrimSpace
  rw [fields_dropRightWhile, fields_dropWhile]

/-- C12 as stated fails: a segment is appended whole before the cap is looked at, so one
segment of 101 words gives a phrase of 101 words. -/
theorem long_segment_exceeds_cap :
    (TransformAutoRawToPhrases
      ⟨[], [⟨some 1, none, none, [⟨(List.replicate 101 ['a', ' ']).flatten, none⟩]⟩]⟩).map
        Phrase.WordCount = [101] := by
  decide

/-- C12, amended. When no text-bearing segment holds more than `W` words, every phrase
returned by `TransformAutoRawToPhrases` holds at most `99 + W` words; with one word per
segment that is at most 100 words. -/
theorem words_bounded_by_cap_and_segment (raw : rawJSON3) (W : Nat)
    (hW : ∀ x ∈ textSegments raw.Events, (Fields (segText x.2)).length ≤ W) :
    ∀ p ∈ TransformAutoRawToPhrases raw, p.WordCount ≤ 99 + W := by
  refine @transformAuto_invariant (fun p => p.WordCount ≤ 99 + W)
    (fun sb => (Fields sb).length < maxWordsPerPhrase) (fun sb => (Fields sb).length ≤ 99 + W)
    (by decide) ?_ (fun _ _ h => h) ?_ raw ?_
  · intro sb h
    simp only [maxWordsPerPhrase] at h
    omega
  · intro sb ts h _
    simp only [fields_trimSpace]
    exact h
  · intro x hx sb _ hq
    have h1 := hW x hx
    simp only [maxWordsPerPhrase] at hq
    split
    · rw [fields_normalizeWhitespace]
      omega
    · rw [trimSpace_normalizeWhitespace, List.append_assoc, List.singleton_append,
        fields_append_space _ _ (by decide), fields_normalizeWhitespace, List.length_append]
      omega

theorem words_bounded_by_cap_and_segment_witness :
    (⟨1, ['a', ' ', 'b', '.'], 4, 2⟩ : Phrase) ∈ TransformAutoRawToPhrases
      ⟨[], [⟨some 1, none, none, [⟨['a'], none⟩, ⟨['b', '.'], some 5⟩, ⟨['c'], some 9⟩]⟩]⟩ ∧
    (⟨1, ['a', ' ', 'b', '.'], 4, 2⟩ : Phrase).WordCount ≤ 99 + 1 :=
  ⟨by decide, words_bounded_by_cap_and_segment
    ⟨[], [⟨some 1, none, none, [⟨['a'], none⟩, ⟨['b', '.'], some 5⟩, ⟨['c'], some 9⟩]⟩]⟩ 1
    (by decide) ⟨1, ['a', ' ', 'b', '.'], 4, 2⟩ (by decide)⟩

/-! ## C13: a sentence terminator ends the phrase -/

theorem textBearing_normalized_ne_nil {x : rawEvent × rawSeg} (hx : segSkipped x.2 = false) :
    normalizeWhitespace (segText x.2) ≠ [] := by
  apply normalizeWhitespace_ne_nil
  apply nonspace_of_trimSpace_ne_nil
  intro h0
  simp [segSkipped, h0] at hx

theorem appendRule_terminator (st : AutoState) (s : List Char) (r : Char)
    (hlast : lastNonSpaceRune (trimTrailingClosers s) = some r)
    (hterm : isSentenceTerminatorRune r = true) :
    appendRule st s = commit (appendSegmentText st s) := by
  unfold appendRule
  simp only
  split
  · rfl
  · rw [hlast]
    simp only [hterm, if_true]

theorem appendSegmentText_fields (st : AutoState) (s : List Char)
    (hn : normalizeWhitespace s ≠ []) :
    (appendSegmentText st s).phrases = st.phrases ∧
    (appendSegmentText st s).lastWordTs = st.lastWordTs ∧
    (appendSegmentText st s).currentStartMs = st.currentStartMs ∧
    (appendSegmentText st s).currentSb =
      (if st.currentSb = [] then normalizeWhitespace s
       else st.currentSb ++ ' ' :: normalizeWhitespace s) := by
  unfold appendSegmentText
  simp only [hn, if_false]
  by_cases h0 : st.currentSb = []
  · simp [h0]
  · have h1 : st.currentSb.length ≠ 0 := by simpa using h0
    simp [h0, h1, trimSpace_normalizeWhitespace]

/-- Trimming a text that ends with a normalised text keeps that text at its end. -/
theorem trimSpace_append_normalized (u : List Char) {n : List Char} (hs : SingleSpaced n)
    (hn : n ≠ []) : ∃ v, TrimSpace (u ++ n) = v ++ n := by
  have hd : ∃ v, (u ++ n).dropWhile isSpace = v ++ n := by
    rw [dropWhile_append_stop u n hs.2.2.1]
    exact ⟨_, rfl⟩
  obtain ⟨v, hv⟩ := hd
  refine ⟨v, ?_⟩
  unfold TrimSpace
  rw [hv]
  apply dropRightWhile_eq_self
  intro c hc
  rw [List.getLast?_append_of_ne_nil _ hn] at hc
  exact hs.2.2.2 c hc

theorem commit_nonblank (st : AutoState) (h : TrimSpace st.currentSb ≠ []) :
    ∃ p, (commit st).phrases = st.phrases ++ [p] ∧ p.Text = TrimSpace st.currentSb := by
  unfold commit
  simp only [h, if_false]
  exact ⟨_, rfl, rfl⟩

theorem replaceEscapedNewline_id (r : Char) : ∀ (l : List Char), (∀ c ∈ l, c ≠ backslash) →
    replaceEscapedNewline r l = l
  | [], _ => rfl
  | [_], _ => rfl
  | c :: d :: rest, h => by
    have hc : c ≠ backslash := h c (List.mem_cons_self _ _)
    simp only [replaceEscapedNewline, hc, false_and, if_false]
    rw [replaceEscapedNewline_id r (d :: rest) (fun x hx => h x (List.mem_cons_of_mem _ hx))]

/-- Replacing the escaped line feeds leaves a tail alone that starts with a rune other
than the backslash and `n` and holds no backslash. -/
theorem replaceEscapedNewline_append (r t : Char) (Z : List Char) (h1 : t ≠ backslash)
    (h2 : t ≠ 'n') (hZ : ∀ c ∈ Z, c ≠ backslash) : ∀ (X : List Char),
    replaceEscapedNewline r (X ++ t :: Z) = replaceEscapedNewline r X ++ t :: Z
  | [] => by
    simp only [List.nil_append, replaceEscapedNewline]
    apply replaceEscapedNewline_id
    intro c hc
    rcases List.mem_cons.mp hc with h | h
    · rw [h]; exact h1
    · exact hZ c h
  | [c] => by
    have e : replaceEscapedNewline r (t :: Z) = t :: Z :=
      replaceEscapedNewline_append r t Z h1 h2 hZ []
    simp only [List.cons_append, List.nil_append, replaceEscapedNewline, h2, and_false,
      if_false, e]
  | c :: d :: X => by
    have e1 := replaceEscapedNewline_append r t Z h1 h2 hZ X
    have e2 := replaceEscapedNewline_append r t Z h1 h2 hZ (d :: X)
    simp only [List.cons_append] at e2 ⊢
    simp only [replaceEscapedNewline]
    split
    · rw [e1]; rfl
    · rw [e2]; rfl

theorem trimTrailingClosersRev_skip (Z l : List Char)
    (hZ : ∀ c ∈ Z, isSpace c = true ∨ isCloserRune c = true) :
    trimTrailingClosersRev (Z ++ l) = trimTrailingClosersRev l := by
  induction Z with
  | nil => rfl
  | cons c Z ih =>
    have ih2 := ih (fun d hd => hZ d (List.mem_cons_of_mem _ hd))
    rw [List.cons_append, ← ih2]
    conv_lhs => unfold trimTrailingClosersRev
    rcases hZ c (List.mem_cons_self _ _) with h | h
    · simp only [h, if_true]
    · cases hs : isSpace c
      · simp only [h, if_true, Bool.false_eq_true, if_false]
      · simp only [if_true]

theorem trimTrailingClosersRev_decompose (l : List Char) :
    ∃ Z, (∀ c ∈ Z, isSpace c = true ∨ isCloserRune c = true) ∧
      l = Z ++ trimTrailingClosersRev l ∧
      ∀ t rest, trimTrailingClosersRev l = t :: rest →
        isSpace t = false ∧ isCloserRune t = false := by
  induction l with
  | nil => exact ⟨[], by simp, rfl, by intro t rest h; cases h⟩
  | cons c l ih =>
    obtain ⟨Z, hZ, hl, hstop⟩ := ih
    unfold trimTrailingClosersRev
    cases hs : isSpace c
    · cases hc : isCloserRune c
      · refine ⟨[], by simp, by simp, ?_⟩
        intro t rest h
        simp only [Bool.false_eq_true, if_false] at h
        injection h with h3 _
        rw [← h3]
        exact ⟨hs, hc⟩
      · refine ⟨c :: Z, ?_, ?_, ?_⟩
        · intro d hd
          rcases List.mem_cons.mp hd with h | h
          · rw [h]; exact Or.inr hc
          · exact hZ d h
        · simp only [Bool.false_eq_true, if_false, if_true, List.cons_append]
          rw [← hl]
        · simpa using hstop
    · refine ⟨c :: Z, ?_, ?_, ?_⟩
      · intro d hd
        rcases List.mem_cons.mp hd with h | h
        · rw [h]; exact Or.inl hs
        · exact hZ d h
      · simp only [if_true, List.cons_append]
        rw [← hl]
      · simpa using hstop

/-- A text that ends in a sentence terminator, trailing white space and closers apart,
still does once its escaped line feeds are replaced. -/
theorem terminator_after_unescape (s : List Char) (r : Char)
    (hlast : lastNonSpaceRune (trimTrailingClosers s) = some r)
    (hterm : isSentenceTerminatorRune r = true) :
    lastNonSpaceRune (trimTrailingClosers (replaceEscapedNewline '\n' s)) = some r := by
  have hrs : isSpace r = false := terminator_not_space hterm
  have hrc : isCloserRune r = false := by
    simp only [isSentenceTerminatorRune, Bool.or_eq_true, beq_iff_eq] at hterm
    rcases hterm with (h | h) | h <;> subst h <;> decide
  have hrb : r ≠ backslash ∧ r ≠ 'n' := by
    simp only [isSentenceTerminatorRune, Bool.or_eq_true, beq_iff_eq] at hterm
    rcases hterm with (h | h) | h <;> subst h <;> decide
  unfold lastNonSpaceRune trimTrailingClosers at hlast ⊢
  rw [List.reverse_reverse] at hlast ⊢
  obtain ⟨Z, hZ, hl, hstop⟩ := trimTrailingClosersRev_decompose s.reverse
  cases hT : trimTrailingClosersRev s.reverse with
  | nil => rw [hT] at hlast; cases hlast
  | cons t X =>
    rw [hT] at hlast hl
    have ht := (hstop t X hT).1
    simp only [List.dropWhile, ht, List.head?_cons] at hlast
    injection hlast with hlast
    subst hlast
    have hs : s = X.reverse ++ t :: Z.reverse := by
      have := congrArg List.reverse hl
      simpa using this
    have hZb : ∀ c ∈ Z.reverse, c ≠ backslash := by
      intro c hc hcb
      subst hcb
      rcases hZ _ (List.mem_reverse.mp hc) with h | h <;> revert h <;> decide
    rw [hs, replaceEscapedNewline_append _ t _ hrb.1 hrb.2 hZb]
    simp only [List.reverse_append, List.reverse_cons, List.reverse_reverse, List.append_assoc,
      List.singleton_append]
    rw [trimTrailingClosersRev_skip Z _ hZ]
    unfold trimTrailingClosersRev
    simp [hrs, hrc]

/-- C13. Whenever the text of a text-bearing segment, as stored or with its escaped line
feeds replaced as the loop reads it, ends in `.`, `!` or `?` once trailing white space
and closing punctuation are stripped, the segment is the last one of its phrase: after
the segment the buffer is empty, the phrase committed last ends with the normalised text
of the segment, and the phrases of the segments that follow are built from an empty
buffer, so the next text-bearing segment begins a new phrase. -/
theorem terminator_ends_phrase (raw : rawJSON3) (pre post : List (rawEvent × rawSeg))
    (x : rawEvent × rawSeg) (r : Char)
    (hsegs : textSegments raw.Events = pre ++ x :: post)
    (hlast : lastNonSpaceRune (trimTrailingClosers x.2.Utf8) = some r ∨
      lastNonSpaceRune (trimTrailingClosers (segText x.2)) = some r)
    (hterm : isSentenceTerminatorRune r = true) :
    (autoRun ⟨[], [], -1, -1⟩ (pre ++ [x])).currentSb = [] ∧
    (∃ ph p u, (autoRun ⟨[], [], -1, -1⟩ (pre ++ [x])).phrases = ph ++ [p] ∧
      p.Text = u ++ normalizeWhitespace (segText x.2)) ∧
    TransformAutoRawToPhrases raw =
      (autoRun ⟨[], [], -1, -1⟩ (pre ++ [x])).phrases ++
        (commit (autoRun ⟨[], [], -1, (autoRun ⟨[], [], -1, -1⟩ (pre ++ [x])).lastWordTs⟩
          post)).phrases := by
  have hne : raw.Events.length ≠ 0 := by
    intro h
    rw [List.length_eq_zero.mp h] at hsegs
    cases pre <;> cases hsegs
  have hx : segSkipped x.2 = false :=
    mem_textSegments (show x ∈ textSegments raw.Events by rw [hsegs]; simp)
  have hN := textBearing_normalized_ne_nil hx
  have hl2 : lastNonSpaceRune (trimTrailingClosers (segText x.2)) = some r := by
    rcases hlast with h | h
    · exact terminator_after_unescape _ r h hterm
    · exact h
  have hst : autoRun ⟨[], [], -1, -1⟩ (pre ++ [x]) =
      commit (appendSegmentText (pauseRule (autoRun ⟨[], [], -1, -1⟩ pre)
        (calculateAbsTime x.1 x.2)) (segText x.2)) := by
    rw [← appendRule_terminator _ _ r hl2 hterm]
    simp [autoRun, List.foldl_append, autoStep]
  generalize pauseRule (autoRun ⟨[], [], -1, -1⟩ pre) (calculateAbsTime x.1 x.2) = sp at hst
  obtain ⟨_, _, _, hsb⟩ := appendSegmentText_fields sp (segText x.2) hN
  have hu : ∃ u, (appendSegmentText sp (segText x.2)).currentSb =
      u ++ normalizeWhitespace (segText x.2) := by
    rw [hsb]
    split
    · exact ⟨[], rfl⟩
    · exact ⟨sp.currentSb ++ [' '], by simp⟩
  obtain ⟨u, hu⟩ := hu
  obtain ⟨v, hv⟩ := trimSpace_append_normalized u
    (singleSpaced_normalizeWhitespace (segText x.2)) hN
  rw [← hu] at hv
  have hnb : TrimSpace (appendSegmentText sp (segText x.2)).currentSb ≠ [] := by
    rw [hv]
    intro h0
    exact hN (List.append_eq_nil.mp h0).2
  obtain ⟨p, hp1, hp2⟩ := commit_nonblank _ hnb
  have hc := commit_fields (appendSegmentText sp (segText x.2))
  rw [← hst] at hp1 hc
  have hT : TransformAutoRawToPhrases raw =
      (commit (autoRun (autoRun ⟨[], [], -1, -1⟩ (pre ++ [x])) post)).phrases := by
    unfold TransformAutoRawToPhrases
    rw [if_neg hne, autoEvent_foldl, hsegs]
    have e : pre ++ x :: post = (pre ++ [x]) ++ post := by simp
    rw [e, autoRun_append]
  rw [hT]
  generalize autoRun ⟨[], [], -1, -1⟩ (pre ++ [x]) = s1 at hp1 hc ⊢
  refine ⟨hc.1, ⟨_, p, v, hp1, by rw [hp2, hv]⟩, ?_⟩
  have hs1 : s1 = withPhrases s1.phrases ⟨[], [], -1, s1.lastWordTs⟩ := by
    obtain ⟨ph, sb, cs, lw⟩ := s1
    simp only at hc
    simp [withPhrases, hc.1, hc.2.1]
  conv_lhs => rw [hs1]
  rw [autoRun_withPhrases, commit_withPhrases]
  rfl

theorem terminator_ends_phrase_witness :
    (autoRun ⟨[], [], -1, -1⟩ ([] ++ [(⟨some 1, none, none, []⟩, ⟨"Hi there.)".toList, none⟩)])
      ).currentSb = [] ∧
    TransformAutoRawToPhrases ⟨[], [⟨some 1, none, none,
        [⟨"Hi there.)".toList, none⟩, ⟨"you".toList, some 5⟩]⟩]⟩ =
      [⟨1, "Hi there.)".toList, 10, 2⟩, ⟨6, "you".toList, 3, 1⟩] :=
  ⟨(terminator_ends_phrase ⟨[], [⟨some 1, none, none,
        [⟨"Hi there.)".toList, none⟩, ⟨"you".toList, some 5⟩]⟩]⟩ []
      [(⟨some 1, none, none, [⟨"Hi there.)".toList, none⟩, ⟨"you".toList, some 5⟩]⟩,
        ⟨"you".toList, some 5⟩)]
      (⟨some 1, none, none, [⟨"Hi there.)".toList, none⟩, ⟨"you".toList, some 5⟩]⟩,
        ⟨"Hi there.)".toList, none⟩) '.' (by decide) (Or.inl (by decide)) (by decide)).1,
   by decide⟩

/-! ## C18: the lines of the plain text -/

theorem splitLines_ne_nil (s : List Char) : splitLines s ≠ [] := by
  cases s with
  | nil => simp [splitLines]
  | cons c s =>
    unfold splitLines
    split
    · simp
    · split <;> simp

theorem splitLines_append_newline {l : List Char} (hl : '\n' ∉ l) (rest : List Char) :
    splitLines (l ++ '\n' :: rest) = l :: splitLines rest := by
  induction l with
  | nil => simp [splitLines]
  | cons c l ih =>
    have hc : c ≠ '\n' := fun h => hl (by rw [h]; exact List.mem_cons_self _ _)
    have ih2 := ih (fun h => hl (List.mem_cons_of_mem _ h))
    rw [List.cons_append, splitLines, if_neg hc, ih2]

theorem splitLines_of_no_newline {l : List Char} (hl : '\n' ∉ l) : splitLines l = [l] := by
  induction l with
  | nil => rfl
  | cons c l ih =>
    have hc : c ≠ '\n' := fun h => hl (by rw [h]; exact List.mem_cons_self _ _)
    have ih2 := ih (fun h => hl (List.mem_cons_of_mem _ h))
    rw [splitLines, if_neg hc, ih2]

theorem splitLines_append_singleton (s : List Char) :
    splitLines (s ++ ['\n']) = splitLines s ++ [[]] := by
  induction s with
  | nil => rfl
  | cons c s ih =>
    rw [List.cons_append, splitLines, ih]
    conv_rhs => rw [splitLines]
    split
    · rfl
    · cases h : splitLines s with
      | nil => exact absurd h (splitLines_ne_nil s)
      | cons m ms => rfl

theorem nonEmptyLines_append_newline (s : List Char) :
    nonEmptyLines (s ++ ['\n']) = nonEmptyLines s := by
  unfold nonEmptyLines
  rw [splitLines_append_singleton, List.filter_append]
  simp

theorem nonEmptyLines_cons_newline (s : List Char) :
    nonEmptyLines ('\n' :: s) = nonEmptyLines s := by
  unfold nonEmptyLines
  simp [splitLines]

/-- A non-empty line followed by nothing or by a line feed is the first non-empty
line. -/
theorem nonEmptyLines_line {l : List Char} (hl : '\n' ∉ l) (hne : l ≠ []) {r : List Char}
    (hr : r = [] ∨ ∃ r1, r = '\n' :: r1) :
    nonEmptyLines (l ++ r) = l :: nonEmptyLines r := by
  have he : l.isEmpty = false := by
    cases l with
    | nil => exact absurd rfl hne
    | cons _ _ => rfl
  rcases hr with h | ⟨r1, h⟩
  · subst h
    unfold nonEmptyLines
    rw [List.append_nil, splitLines_of_no_newline hl]
    simp [splitLines, he]
  · subst h
    rw [nonEmptyLines_cons_newline]
    unfold nonEmptyLines
    rw [splitLines_append_newline hl]
    simp [he]

theorem eventLine_line {e : event} (h1 : '\n' ∉ e.text)
    (h2 : if e.isChapter then TrimSpace (TrimLeft e.text ['#', ' ']) ≠ []
      else TrimSpace e.text ≠ []) :
    '\n' ∉ eventLine e ∧ eventLine e ≠ [] ∧
      ∀ c, (eventLine e).getLast? = some c → c ∉ trailingCutset := by
  have hcut : ∀ c, isSpace c = false → c ∉ trailingCutset := by
    intro c hc hm
    simp only [trailingCutset, List.mem_cons, List.mem_singleton, List.not_mem_nil,
      or_false] at hm
    rcases hm with h | h | h | h <;> subst h <;> revert hc <;> decide
  unfold eventLine
  by_cases hc : e.isChapter = true
  · simp only [hc, if_true] at h2 ⊢
    refine ⟨?_, by simp, ?_⟩
    · intro hm
      rcases List.mem_append.mp hm with h | h
      · revert h; decide
      · exact h1 (mem_of_mem_trimLeft (mem_of_mem_trimSpace h))
    · intro c hl
      rw [List.getLast?_append_of_ne_nil _ h2] at hl
      exact hcut c (trimSpace_last hl)
  · simp only [hc, Bool.false_eq_true, if_false] at h2 ⊢
    exact ⟨fun hm => h1 (mem_of_mem_trimSpace hm), h2, fun c hl => hcut c (trimSpace_last hl)⟩

/-- Inside a content run the plain render loop writes nothing or starts with a line
feed. -/
theorem renderLoop_plain_open (S : List event) :
    renderLoop OutputTextLayout.asPlain true S = [] ∨
      ∃ r, renderLoop OutputTextLayout.asPlain true S = '\n' :: r := by
  induction S with
  | nil => exact Or.inl rfl
  | cons e S ih =>
    unfold renderLoop
    by_cases hc : e.isChapter = true
    · simp only [hc, if_true, chapterSep]
      exact Or.inr ⟨_, rfl⟩
    · simp only [hc, Bool.false_eq_true, if_false]
      split
      · exact ih
      · simp only [Bool.not_true, Bool.false_eq_true, if_false, phraseSep]
        exact Or.inr ⟨_, rfl⟩

/-- The non-empty lines of what the plain render loop writes are the lines of the
events, one for each, in order. -/
theorem nonEmptyLines_renderLoop (S : List event)
    (hg : ∀ e ∈ S, '\n' ∉ e.text ∧
      (if e.isChapter then TrimSpace (TrimLeft e.text ['#', ' ']) ≠ []
       else TrimSpace e.text ≠ [])) :
    ∀ ic, nonEmptyLines (renderLoop OutputTextLayout.asPlain ic S) = S.map eventLine := by
  induction S with
  | nil => intro ic; rfl
  | cons e S ih =>
    intro ic
    have ih2 := ih (fun x hx => hg x (List.mem_cons_of_mem _ hx))
    obtain ⟨g1, g2⟩ := hg e (List.mem_cons_self _ _)
    obtain ⟨l1, l2, _⟩ := eventLine_line g1 g2
    rw [List.map_cons]
    by_cases hc : e.isChapter = true
    · have hl : eventLine e = ['#', '#', ' '] ++ TrimSpace (TrimLeft e.text ['#', ' ']) := by
        simp [eventLine, hc]
      have e1 : renderLoop OutputTextLayout.asPlain ic (e :: S) =
          (if ic then ['\n', '\n'] else []) ++ (eventLine e ++
            '\n' :: '\n' :: renderLoop OutputTextLayout.asPlain false S) := by
        rw [hl]
        simp [renderLoop, hc, chapterSep]
      have e2 : nonEmptyLines (eventLine e ++
          '\n' :: '\n' :: renderLoop OutputTextLayout.asPlain false S) =
          eventLine e :: S.map eventLine := by
        rw [nonEmptyLines_line l1 l2 (Or.inr ⟨_, rfl⟩), nonEmptyLines_cons_newline,
          nonEmptyLines_cons_newline, ih2 false]
      rw [e1]
      cases ic
      · simpa using e2
      · simp only [if_true, List.cons_append, List.nil_append, nonEmptyLines_cons_newline]
        exact e2
    · have hcf : e.isChapter = false := by simpa using hc
      have hl : eventLine e = TrimSpace e.text := by simp [eventLine, hcf]
      simp only [hcf, Bool.false_eq_true, if_false] at g2
      have hemp : (TrimSpace e.text).isEmpty = false := by
        cases h : TrimSpace e.text with
        | nil => exact absurd h g2
        | cons _ _ => rfl
      have e1 : renderLoop OutputTextLayout.asPlain ic (e :: S) =
          (if ic then ['\n'] else []) ++ (eventLine e ++
            renderLoop OutputTextLayout.asPlain true S) := by
        rw [hl]
        cases ic <;> simp [renderLoop, hcf, hemp, phraseSep]
      have e2 : nonEmptyLines (eventLine e ++ renderLoop OutputTextLayout.asPlain true S) =
          eventLine e :: S.map eventLine := by
        rw [nonEmptyLines_line l1 l2 (renderLoop_plain_open S), ih2 true]
      rw [e1]
      cases ic
      · simpa using e2
      · simp only [if_true, List.cons_append, List.nil_append, nonEmptyLines_cons_newline]
        exact e2

theorem dropRightWhile_append_all {p : Char → Bool} (x w : List Char)
    (hw : ∀ c ∈ w, p c = true) : dropRightWhile p (x ++ w) = dropRightWhile p x := by
  unfold dropRightWhile
  rw [List.reverse_append, dropWhile_append_all _ _ (fun c hc => hw c (List.mem_reverse.mp hc))]

theorem nonEmptyLines_trimRight (S : List event) (hne : S ≠ [])
    (hg : ∀ e ∈ S, '\n' ∉ e.text ∧
      (if e.isChapter then TrimSpace (TrimLeft e.text ['#', ' ']) ≠ []
       else TrimSpace e.text ≠ [])) :
    nonEmptyLines (TrimRight (renderLoop OutputTextLayout.asPlain false S) trailingCutset ++
      ['\n']) = S.map eventLine := by
  have hP := nonEmptyLines_renderLoop S hg false
  rcases List.eq_nil_or_concat S with h0 | ⟨S1, e, h0⟩
  · exact absurd h0 hne
  · obtain ⟨g1, g2⟩ := hg e (by rw [h0]; simp)
    obtain ⟨_, l2, l3⟩ := eventLine_line g1 g2
    have hdec : ∃ A W, renderLoop OutputTextLayout.asPlain false S = A ++ eventLine e ++ W ∧
        (W = [] ∨ W = ['\n', '\n']) := by
      rw [h0, List.concat_eq_append, renderLoop_append]
      generalize contentOpen false S1 = ic
      by_cases hc : e.isChapter = true
      · refine ⟨renderLoop OutputTextLayout.asPlain false S1 ++
          (if ic then ['\n', '\n'] else []), ['\n', '\n'], ?_, Or.inr rfl⟩
        simp [renderLoop, hc, chapterSep, eventLine]
      · have hcf : e.isChapter = false := by simpa using hc
        simp only [hcf, Bool.false_eq_true, if_false] at g2
        have hemp : (TrimSpace e.text).isEmpty = false := by
          cases h : TrimSpace e.text with
          | nil => exact absurd h g2
          | cons _ _ => rfl
        refine ⟨renderLoop OutputTextLayout.asPlain false S1 ++
          (if ic then ['\n'] else []), [], ?_, Or.inl rfl⟩
        cases ic <;> simp [renderLoop, hcf, hemp, phraseSep, eventLine]
    obtain ⟨A, W, hR, hW⟩ := hdec
    have hWc : ∀ c ∈ W, decide (c ∈ trailingCutset) = true := by
      intro c hc
      rcases hW with h | h <;> rw [h] at hc
      · cases hc
      · have : c = '\n' := by simpa using hc
        subst this
        decide
    have hT : TrimRight (renderLoop OutputTextLayout.asPlain false S) trailingCutset =
        A ++ eventLine e := by
      unfold TrimRight
      rw [hR, dropRightWhile_append_all _ _ hWc]
      apply dropRightWhile_eq_self
      intro c hc
      rw [List.getLast?_append_of_ne_nil _ l2] at hc
      simpa using l3 c hc
    rw [hT, nonEmptyLines_append_newline, ← hP, hR]
    rcases hW with h | h <;> subst h
    · simp
    · have : A ++ eventLine e ++ ['\n', '\n'] = (A ++ eventLine e ++ ['\n']) ++ ['\n'] := by
        simp
      rw [this, nonEmptyLines_append_newline, nonEmptyLines_append_newline]

theorem length_chapterEvents (cs : List Chapter) (b : Nat) :
    (chapterEvents cs b).length = cs.length := by
  induction cs generalizing b with
  | nil => rfl
  | cons c cs ih => unfold chapterEvents; simp [ih]

theorem length_adjustMiddleChapters (cs : List Chapter) (ps : List Phrase) (thr : Int) (b : Nat) :
    (adjustMiddleChapters cs ps thr b).length = cs.length := by
  induction cs generalizing b with
  | nil => rfl
  | cons c cs ih => unfold adjustMiddleChapters; simp [ih]

theorem length_buildEventsFromPhrases (ps : List Phrase) (b : Nat) :
    (buildEventsFromPhrases ps b).length = ps.length := by
  induction ps generalizing b with
  | nil => rfl
  | cons p ps ih => unfold buildEventsFromPhrases; simp [ih]

/-- The merged stream holds one event for each phrase and each chapter. -/
theorem length_mergedStream (t : Transcript) (thr : Int) :
    (mergedStream t thr).length = t.Phrases.length + t.Chapters.length := by
  unfold mergedStream
  rw [(perm_sortStable _ _).length_eq]
  unfold buildEvents
  simp only [List.length_append, length_chapterEvents, length_adjustMiddleChapters,
    length_buildEventsFromPhrases]
  have h := (perm_splitChapters (sortChapters t.Chapters)
    (((ensureSortedPhrases t.Phrases).head?.map Phrase.TimestampMs).getD 0)
    (((ensureSortedPhrases t.Phrases).getLast?.map Phrase.TimestampMs).getD 0)).length_eq
  simp only [List.length_append] at h
  rw [(perm_ensureSortedPhrases _).length_eq]
  rw [(perm_sortChapters _).length_eq] at h
  omega

/-- C18 as stated fails: a phrase text of one space gives no line, and the chapter line
holds the title without its trailing space. Three events, two non-empty lines, and the
line of the chapter is not the marker followed by the title. -/
theorem plain_drops_blank_phrase_and_trims_title :
    nonEmptyLines (Plain ⟨[], [⟨0, " ".toList, 1, 0⟩, ⟨100000, "phrase2".toList, 7, 1⟩],
        [⟨51, "ChapB ".toList⟩]⟩) = ["## ChapB".toList, "phrase2".toList] ∧
    (mergedStream ⟨[], [⟨0, " ".toList, 1, 0⟩, ⟨100000, "phrase2".toList, 7, 1⟩],
        [⟨51, "ChapB ".toList⟩]⟩ 0).map (fun e => (e.isChapter, e.text)) =
      [(false, " ".toList), (true, "ChapB ".toList), (false, "phrase2".toList)] := by
  decide

theorem map_eventTag_chapterEvents (cs : List Chapter) (b : Nat) :
    (chapterEvents cs b).map eventTag = cs.map (fun c => (true, c.Title)) := by
  induction cs generalizing b with
  | nil => rfl
  | cons c cs ih => unfold chapterEvents; simp [ih, eventTag]

theorem map_eventTag_adjustMiddleChapters (cs : List Chapter) (ps : List Phrase) (thr : Int)
    (b : Nat) :
    (adjustMiddleChapters cs ps thr b).map eventTag = cs.map (fun c => (true, c.Title)) := by
  induction cs generalizing b with
  | nil => rfl
  | cons c cs ih => unfold adjustMiddleChapters; simp [ih, eventTag]

theorem map_eventTag_buildEventsFromPhrases (ps : List Phrase) (b : Nat) :
    (buildEventsFromPhrases ps b).map eventTag = ps.map (fun p => (false, p.Text)) := by
  induction ps generalizing b with
  | nil => rfl
  | cons p ps ih => unfold buildEventsFromPhrases; simp [ih, eventTag]

/-- The events built are the phrases and the chapters, each once. -/
theorem perm_eventTag_buildEvents (ps : List Phrase) (cs : List Chapter) (thr : Int) :
    ((buildEvents ps cs thr).map eventTag).Perm
      (ps.map (fun p => (false, p.Text)) ++ cs.map (fun c => (true, c.Title))) := by
  unfold buildEvents
  simp only [List.map_append, map_eventTag_chapterEvents, map_eventTag_adjustMiddleChapters,
    map_eventTag_buildEventsFromPhrases]
  have h := (perm_splitChapters cs ((ps.head?.map Phrase.TimestampMs).getD 0)
    ((ps.getLast?.map Phrase.TimestampMs).getD 0)).map (fun c => (true, c.Title))
  simp only [List.map_append] at h
  refine List.Perm.trans ?_ (List.Perm.append_left _ h)
  simp only [List.append_assoc]
  exact List.perm_append_comm_assoc _ _ _

theorem perm_ensureSortedPhrasesWith (slice : (α : Type) → (α → α → Bool) → List α → List α)
    (hslice : ∀ (α : Type) (less : α → α → Bool) (l : List α), (slice α less l).Perm l)
    (ps : List Phrase) : (ensureSortedPhrasesWith slice ps).Perm ps := by
  unfold ensureSortedPhrasesWith
  split
  · exact List.Perm.refl _
  · split
    · exact List.Perm.refl _
    · exact hslice _ _ _

theorem perm_sortChaptersWith (slice : (α : Type) → (α → α → Bool) → List α → List α)
    (hslice : ∀ (α : Type) (less : α → α → Bool) (l : List α), (slice α less l).Perm l)
    (cs : List Chapter) : (sortChaptersWith slice cs).Perm cs := by
  unfold sortChaptersWith
  split
  · exact List.Perm.refl _
  · exact hslice _ _ _

/-- With the insertion sort for `sort.Slice` the functions are those of the stable
model. -/
theorem plainWith_sortStable (t : Transcript) :
    PlainWith (fun _ less l => sortStable less l) t = Plain t ∧
    mergedStreamWith (fun _ less l => sortStable less l) t 0 = mergedStream t 0 :=
  ⟨rfl, rfl⟩

/-- C18, amended. For every transcript with at least one phrase and one chapter, whose
phrase texts hold no line feed and a rune that is no white space, and whose chapter
titles hold no line feed and, after their leading `#` and spaces, a rune that is no
white space: the non-empty lines of `Plain` are, in order, one line for each event of the
merged sorted stream, the trimmed text for a phrase and the marker followed by the
title, trimmed of leading `#`, spaces and surrounding white space, for a chapter. The
stream is ordered by the comparator of the merge sort and its events are the phrases and
the chapters, each once. `sort.Slice`, which orders the phrases and the chapters before
the events are built, is any function that returns a permutation of its input: the
statement holds whatever order the library gives to equal keys. -/
theorem plain_lines_are_events (slice : (α : Type) → (α → α → Bool) → List α → List α)
    (hslice : ∀ (α : Type) (less : α → α → Bool) (l : List α), (slice α less l).Perm l)
    (t : Transcript) (hp : t.Phrases ≠ []) (hc : t.Chapters ≠ [])
    (hpt : ∀ p ∈ t.Phrases, '\n' ∉ p.Text ∧ TrimSpace p.Text ≠ [])
    (hct : ∀ c ∈ t.Chapters, '\n' ∉ c.Title ∧ TrimSpace (TrimLeft c.Title ['#', ' ']) ≠ []) :
    nonEmptyLines (PlainWith slice t) = (mergedStreamWith slice t 0).map eventLine ∧
    Ordered eventLess (mergedStreamWith slice t 0) ∧
    ((mergedStreamWith slice t 0).map eventTag).Perm
      (t.Phrases.map (fun p => (false, p.Text)) ++ t.Chapters.map (fun c => (true, c.Title))) ∧
    (mergedStreamWith slice t 0).length = t.Phrases.length + t.Chapters.length := by
  have hperm : ((mergedStreamWith slice t 0).map eventTag).Perm
      (t.Phrases.map (fun p => (false, p.Text)) ++
        t.Chapters.map (fun c => (true, c.Title))) := by
    unfold mergedStreamWith
    refine ((perm_sortStable _ _).map eventTag).trans ?_
    refine (perm_eventTag_buildEvents _ _ _).trans ?_
    exact List.Perm.append
      ((perm_ensureSortedPhrasesWith slice hslice _).map _)
      ((perm_sortChaptersWith slice hslice _).map _)
  have hlenS : (mergedStreamWith slice t 0).length = t.Phrases.length + t.Chapters.length := by
    have := hperm.length_eq
    simpa using this
  refine ⟨?_, ordered_sortStable weakOrder_eventLess _, hperm, hlenS⟩
  have hlen : t.Phrases.length ≠ 0 := by simpa using hp
  have hlen2 : t.Chapters.length ≠ 0 := by simpa using hc
  have hlen3 : (ensureSortedPhrasesWith slice t.Phrases).length ≠ 0 := by
    rw [(perm_ensureSortedPhrasesWith slice hslice _).length_eq]; exact hlen
  have e : PlainWith slice t = TrimRight (renderLoop OutputTextLayout.asPlain false
      (mergedStreamWith slice t 0)) trailingCutset ++ ['\n'] := by
    simp only [PlainWith, hlen, hlen2, if_false, transcriptWithChaptersSplitWith, hlen3]
    rfl
  rw [e]
  apply nonEmptyLines_trimRight
  · intro h0
    rw [h0] at hlenS
    simp only [List.length_nil] at hlenS
    omega
  · intro ev hev
    have he2 := (mem_sortStable _ _ _).mp hev
    rcases text_of_mem_buildEvents he2 with ⟨h1, p, hp1, h⟩ | ⟨h1, c, hc1, h⟩
    · have := hpt p ((perm_ensureSortedPhrasesWith slice hslice _).mem_iff.mp hp1)
      rw [h] at this
      simpa [h1] using this
    · have := hct c ((perm_sortChaptersWith slice hslice _).mem_iff.mp hc1)
      rw [h] at this
      simpa [h1] using this

theorem plain_lines_are_events_witness :
    nonEmptyLines (PlainWith (fun _ less l => sortStable less l)
        ⟨[], [⟨100000, "phrase2".toList, 7, 1⟩, ⟨0, " a".toList, 1, 0⟩],
          [⟨51, "# ChapB ".toList⟩]⟩) =
      (mergedStreamWith (fun _ less l => sortStable less l)
        ⟨[], [⟨100000, "phrase2".toList, 7, 1⟩, ⟨0, " a".toList, 1, 0⟩],
          [⟨51, "# ChapB ".toList⟩]⟩ 0).map eventLine ∧
    (mergedStreamWith (fun _ less l => sortStable less l)
        ⟨[], [⟨100000, "phrase2".toList, 7, 1⟩, ⟨0, " a".toList, 1, 0⟩],
          [⟨51, "# ChapB ".toList⟩]⟩ 0).map eventLine =
      ["a".toList, "## ChapB".toList, "phrase2".toList] :=
  ⟨(plain_lines_are_events (fun _ less l => sortStable less l)
      (fun _ less l => perm_sortStable less l)
      ⟨[], [⟨100000, "phrase2".toList, 7, 1⟩, ⟨0, " a".toList, 1, 0⟩],
        [⟨51, "# ChapB ".toList⟩]⟩ (by decide) (by decide) (by decide) (by decide)).1,
   by decide⟩

/-! ## C11: the timestamp of a phrase -/

theorem firstPositive_append (a b : List (rawEvent × rawSeg)) :
    firstPositive (a ++ b) = (firstPositive a).or (firstPositive b) := by
  unfold firstPositive
  rw [List.map_append, List.find?_append]

theorem lastPositive_append (a b : List (rawEvent × rawSeg)) :
    lastPositive (a ++ b) = (lastPositive b).or (lastPositive a) := by
  unfold lastPositive
  rw [List.reverse_append, firstPositive_append]

theorem firstPositive_singleton (x : rawEvent × rawSeg) :
    firstPositive [x] = if 0 < segTime x then some (segTime x) else none := by
  unfold firstPositive
  by_cases h : 0 < segTime x <;> simp [List.find?, h]

theorem lastPositive_singleton (x : rawEvent × rawSeg) :
    lastPositive [x] = if 0 < segTime x then some (segTime x) else none :=
  firstPositive_singleton x

theorem firstPositive_pos {g : List (rawEvent × rawSeg)} {t : Int}
    (h : firstPositive g = some t) : 0 < t := by
  unfold firstPositive at h
  have := List.find?_some h
  simpa using this

theorem lastPositive_pos {g : List (rawEvent × rawSeg)} {t : Int}
    (h : lastPositive g = some t) : 0 < t :=
  firstPositive_pos h

theorem lastPositive_none_of_firstPositive {g : List (rawEvent × rawSeg)}
    (h : firstPositive g = none) : lastPositive g = none := by
  unfold lastPositive firstPositive at *
  rw [List.find?_eq_none] at h ⊢
  intro t ht
  refine h t ?_
  rw [List.map_reverse, List.mem_reverse] at ht
  exact ht

theorem expectedStarts_append (gs : List (List (rawEvent × rawSeg)))
    (g : List (rawEvent × rawSeg)) : ∀ (b : List (rawEvent × rawSeg)),
    expectedStarts b (gs ++ [g]) = expectedStarts b gs ++
      [(firstPositive g).or (lastPositive (b ++ gs.flatten))] := by
  induction gs with
  | nil => intro b; simp [expectedStarts]
  | cons h gs ih =>
    intro b
    rw [List.cons_append]
    simp only [expectedStarts, ih, List.flatten_cons, List.append_assoc, List.cons_append]

theorem join_append_singleton {L : List (List Char)} (hL : L ≠ []) (p sep : List Char) :
    Join (L ++ [p]) sep = Join L sep ++ sep ++ p := by
  induction L with
  | nil => exact absurd rfl hL
  | cons q L ih =>
    cases L with
    | nil => rfl
    | cons r L =>
      have := ih (by simp)
      rw [List.cons_append, join_cons_of_ne_nil q (by simp), this,
        join_cons_of_ne_nil q (by simp)]
      simp

theorem groupText_append_singleton {cur : List (rawEvent × rawSeg)} (hc : cur ≠ [])
    (x : rawEvent × rawSeg) :
    groupText (cur ++ [x]) = groupText cur ++ ' ' :: normalizeWhitespace (segText x.2) := by
  unfold groupText
  rw [List.map_append, List.map_singleton, join_append_singleton (by simpa using hc)]
  simp

theorem groupText_singleton (x : rawEvent × rawSeg) :
    groupText [x] = normalizeWhitespace (segText x.2) := rfl

theorem singleSpaced_groupText {cur : List (rawEvent × rawSeg)}
    (hb : ∀ x ∈ cur, segSkipped x.2 = false) : SingleSpaced (groupText cur) := by
  unfold groupText
  apply singleSpaced_join
  intro p hp
  obtain ⟨x, hx, rfl⟩ := List.mem_map.mp hp
  exact ⟨singleSpaced_normalizeWhitespace _, textBearing_normalized_ne_nil (hb x hx)⟩

theorem groupText_ne_nil {cur : List (rawEvent × rawSeg)} (hc : cur ≠ [])
    (hb : ∀ x ∈ cur, segSkipped x.2 = false) : groupText cur ≠ [] := by
  cases cur with
  | nil => exact absurd rfl hc
  | cons x cur =>
    have hx := textBearing_normalized_ne_nil (hb x (List.mem_cons_self _ _))
    obtain ⟨c, hcm⟩ := List.exists_mem_of_ne_nil _ hx
    intro h0
    have : c ∈ groupText (x :: cur) := join_cons_mem hcm [' ']
    rw [h0] at this
    cases this

theorem commit_blank (st : AutoState) (h : TrimSpace st.currentSb = []) :
    (commit st).phrases = st.phrases := by
  unfold commit
  simp only [h, if_true]

theorem commit_nonblank_start (st : AutoState) (h : TrimSpace st.currentSb ≠ []) :
    ∃ p, (commit st).phrases = st.phrases ++ [p] ∧ p.Text = TrimSpace st.currentSb ∧
      p.TimestampMs =
        (if st.currentStartMs ≥ 0 then st.currentStartMs else st.lastWordTs) := by
  unfold commit
  simp only [h, if_false]
  exact ⟨_, rfl, rfl, rfl⟩

theorem flatten_snoc (groups : List (List (rawEvent × rawSeg)))
    (cur : List (rawEvent × rawSeg)) :
    (if cur = [] then groups else groups ++ [cur]).flatten = groups.flatten ++ cur := by
  split
  · rename_i h; simp [h]
  · simp

/-- A commit closes the group of the segments in the buffer. -/
theorem autoTrace_commit {st : AutoState} {groups : List (List (rawEvent × rawSeg))}
    {cur : List (rawEvent × rawSeg)} (h : AutoTrace st groups cur) :
    AutoTrace (commit st) (if cur = [] then groups else groups ++ [cur]) [] := by
  obtain ⟨hsb, hcs, hlw⟩ := commit_fields st
  have hlast : (commit st).lastWordTs = (lastPositive
      ((if cur = [] then groups else groups ++ [cur]).flatten ++ [])).getD (-1) := by
    rw [hlw, h.last, flatten_snoc, List.append_nil]
  by_cases hc : cur = []
  · have hb : TrimSpace st.currentSb = [] := by
      rw [h.buffer, hc]; rfl
    refine ⟨?_, by simp, ?_, ?_, by rw [hsb]; rfl, by rw [hcs]; rfl, hlast⟩
    · rw [if_pos hc]; exact h.groups_ne
    · rw [if_pos hc, commit_blank st hb]; exact h.texts
    · rw [if_pos hc, commit_blank st hb]; exact h.starts
  · have hss := singleSpaced_groupText h.bearing
    have hne := groupText_ne_nil hc h.bearing
    have htrim : TrimSpace st.currentSb = groupText cur := by
      rw [h.buffer]; exact trimSpace_of_singleSpaced hss
    obtain ⟨p, hp1, hp2, hp3⟩ := commit_nonblank_start st (by rw [htrim]; exact hne)
    refine ⟨?_, by simp, ?_, ?_, by rw [hsb]; rfl, by rw [hcs]; rfl, hlast⟩
    · rw [if_neg hc]
      intro g hg
      rcases List.mem_append.mp hg with h1 | h1
      · exact h.groups_ne g h1
      · rw [List.mem_singleton] at h1; rw [h1]; exact hc
    · rw [if_neg hc, hp1, List.map_append, List.map_append, h.texts]
      simp [hp2, htrim]
    · rw [if_neg hc, hp1, expectedStarts_append]
      refine List.rel_append h.starts (List.Forall₂.cons ?_ List.Forall₂.nil)
      intro t ho
      rw [List.nil_append] at ho
      have hl := h.last
      rw [lastPositive_append] at hl
      cases hf : firstPositive cur with
      | none =>
        rw [hf, Option.none_or] at ho
        rw [lastPositive_none_of_firstPositive hf, Option.none_or, ho] at hl
        have hs := h.start
        rw [hf] at hs
        simp only [Option.getD_none, Option.getD_some] at hs hl
        rw [hp3, hs, hl]
        exact ⟨by simp, lastPositive_pos ho⟩
      | some t1 =>
        rw [hf, Option.or_some] at ho
        injection ho with ho
        subst ho
        have hs := h.start
        rw [hf] at hs
        simp only [Option.getD_some] at hs
        have hpos := firstPositive_pos hf
        rw [hp3, hs]
        exact ⟨by simp [le_of_lt hpos], hpos⟩

/-- Appending the text of a text-bearing segment, the timestamps updated as the pause
rule does, adds the segment to the group in the buffer. -/
theorem autoTrace_append {st st1 : AutoState} {groups : List (List (rawEvent × rawSeg))}
    {cur : List (rawEvent × rawSeg)} (h : AutoTrace st groups cur) (x : rawEvent × rawSeg)
    (hx : segSkipped x.2 = false)
    (e1 : st1.phrases = st.phrases) (e2 : st1.currentSb = st.currentSb)
    (e3 : st1.currentStartMs =
      if 0 < segTime x then (if st.currentStartMs < 0 then segTime x else st.currentStartMs)
      else st.currentStartMs)
    (e4 : st1.lastWordTs = if 0 < segTime x then segTime x else st.lastWordTs) :
    AutoTrace (appendSegmentText st1 (segText x.2)) groups (cur ++ [x]) := by
  have hN := textBearing_normalized_ne_nil hx
  obtain ⟨f1, f2, f3, f4⟩ := appendSegmentText_fields st1 (segText x.2) hN
  rw [e1] at f1
  rw [e4] at f2
  rw [e3] at f3
  rw [e2] at f4
  refine ⟨h.groups_ne, ?_, by rw [f1]; exact h.texts, by rw [f1]; exact h.starts, ?_, ?_, ?_⟩
  · intro y hy
    rcases List.mem_append.mp hy with h1 | h1
    · exact h.bearing y h1
    · rw [List.mem_singleton] at h1; rw [h1]; exact hx
  · rw [f4, h.buffer]
    by_cases hc : cur = []
    · subst hc
      simp [groupText, Join]
    · rw [if_neg (groupText_ne_nil hc h.bearing), groupText_append_singleton hc]
  · rw [f3, firstPositive_append, firstPositive_singleton]
    have hs := h.start
    by_cases ht : 0 < segTime x
    · simp only [ht, if_true]
      cases hf : firstPositive cur with
      | none =>
        rw [hf] at hs
        simp only [Option.getD_none] at hs
        simp [hs]
      | some t1 =>
        rw [hf] at hs
        simp only [Option.getD_some] at hs
        have hpos := firstPositive_pos hf
        have : ¬ t1 < 0 := by omega
        simp [hs, this]
    · simp only [ht, if_false, Option.or_none]
      exact hs
  · rw [f2, ← List.append_assoc, lastPositive_append, lastPositive_singleton]
    by_cases ht : 0 < segTime x
    · simp [ht]
    · simp only [ht, if_false, Option.none_or]
      exact h.last

theorem appendRule_cases (st : AutoState) (s : List Char) :
    appendRule st s = commit (appendSegmentText st s) ∨
      appendRule st s = appendSegmentText st s := by
  unfold appendRule
  simp only
  split
  · exact Or.inl rfl
  · split
    · split
      · exact Or.inl rfl
      · exact Or.inr rfl
    · exact Or.inr rfl

/-- What the pause rule leaves: the state before it or its commit, with the timestamps of
the segment written over it. -/
theorem autoTrace_pause {st : AutoState} {groups : List (List (rawEvent × rawSeg))}
    {cur : List (rawEvent × rawSeg)} (h : AutoTrace st groups cur) (t : Int) :
    ∃ stA gA cA, AutoTrace stA gA cA ∧ gA.flatten ++ cA = groups.flatten ++ cur ∧
      (pauseRule st t).phrases = stA.phrases ∧
      (pauseRule st t).currentSb = stA.currentSb ∧
      (pauseRule st t).currentStartMs =
        (if 0 < t then (if stA.currentStartMs < 0 then t else stA.currentStartMs)
         else stA.currentStartMs) ∧
      (pauseRule st t).lastWordTs = (if 0 < t then t else stA.lastWordTs) := by
  unfold pauseRule
  by_cases ht : t > 0
  · have ht2 : 0 < t := ht
    simp only [ht, if_true, ht2]
    split
    · exact ⟨commit st, _, [], autoTrace_commit h, by rw [flatten_snoc, List.append_nil],
        rfl, rfl, rfl, trivial⟩
    · exact ⟨st, groups, cur, h, rfl, rfl, rfl, rfl, trivial⟩
  · have ht2 : ¬ 0 < t := ht
    simp only [ht, if_false, ht2]
    exact ⟨st, groups, cur, h, rfl, rfl, rfl, rfl, rfl⟩

/-- One text-bearing segment: the trace goes on with the segment consumed. -/
theorem autoTrace_step {st : AutoState} {groups : List (List (rawEvent × rawSeg))}
    {cur : List (rawEvent × rawSeg)} (h : AutoTrace st groups cur) (x : rawEvent × rawSeg)
    (hx : segSkipped x.2 = false) :
    ∃ g c, AutoTrace (autoStep st x) g c ∧ g.flatten ++ c = groups.flatten ++ cur ++ [x] := by
  obtain ⟨stA, gA, cA, hA, hfl, p1, p2, p3, p4⟩ := autoTrace_pause h (calculateAbsTime x.1 x.2)
  have h2 := autoTrace_append hA x hx p1 p2 p3 p4
  unfold autoStep
  rcases appendRule_cases (pauseRule st (calculateAbsTime x.1 x.2)) (segText x.2) with e | e
  · rw [e]
    refine ⟨_, [], autoTrace_commit h2, ?_⟩
    rw [flatten_snoc, List.append_nil, ← List.append_assoc, hfl]
  · rw [e]
    refine ⟨gA, cA ++ [x], h2, ?_⟩
    rw [← List.append_assoc, hfl]

theorem autoTrace_run (xs : List (rawEvent × rawSeg)) :
    ∀ {st : AutoState} {groups : List (List (rawEvent × rawSeg))}
      {cur : List (rawEvent × rawSeg)}, AutoTrace st groups cur →
      (∀ x ∈ xs, segSkipped x.2 = false) →
      ∃ g c, AutoTrace (autoRun st xs) g c ∧ g.flatten ++ c = groups.flatten ++ cur ++ xs := by
  induction xs with
  | nil =>
    intro st groups cur h _
    exact ⟨groups, cur, h, by simp⟩
  | cons x xs ih =>
    intro st groups cur h hb
    obtain ⟨g1, c1, h1, e1⟩ := autoTrace_step h x (hb x (List.mem_cons_self _ _))
    obtain ⟨g2, c2, h2, e2⟩ := ih h1 (fun y hy => hb y (List.mem_cons_of_mem _ hy))
    refine ⟨g2, c2, h2, ?_⟩
    rw [e2, e1]
    simp

theorem autoTrace_init : AutoTrace ⟨[], [], -1, -1⟩ [] [] :=
  ⟨by simp, by simp, rfl, List.Forall₂.nil, rfl, rfl, rfl⟩

/-- C11 as stated fails: the first segment appended to the phrase has absolute timestamp
0, the phrase gets the timestamp 5000 of the second segment. -/
theorem phrase_start_skips_time_zero :
    TransformAutoRawToPhrases ⟨[], [⟨some 0, none, none,
        [⟨"hello".toList, none⟩, ⟨"world.".toList, some 5000⟩]⟩]⟩ =
      [⟨5000, "hello world.".toList, 12, 2⟩] ∧
    calculateAbsTime ⟨some 0, none, none,
        [⟨"hello".toList, none⟩, ⟨"world.".toList, some 5000⟩]⟩ ⟨"hello".toList, none⟩ = 0 := by
  decide

/-- C11, amended. The phrases returned by `TransformAutoRawToPhrases` are built from
consecutive groups of the text-bearing segments, the text of a phrase being the
normalised texts of its segments joined by single spaces; a phrase has the absolute
timestamp of the first of its segments whose absolute timestamp is positive, and when it
has no such segment, that of the last segment with a positive absolute timestamp read
before it, if there is one. In both cases the timestamp of the phrase is positive. -/
theorem phrase_start_is_first_positive_segment (raw : rawJSON3) :
    ∃ groups : List (List (rawEvent × rawSeg)),
      groups.flatten = textSegments raw.Events ∧
      (∀ g ∈ groups, g ≠ []) ∧
      (TransformAutoRawToPhrases raw).map Phrase.Text = groups.map groupText ∧
      List.Forall₂ StartsAt (TransformAutoRawToPhrases raw) (expectedStarts [] groups) := by
  unfold TransformAutoRawToPhrases
  split
  · rename_i h0
    refine ⟨[], ?_, by simp, rfl, List.Forall₂.nil⟩
    rw [List.length_eq_zero.mp h0]
    rfl
  · rw [autoEvent_foldl]
    obtain ⟨g, c, h, e⟩ := autoTrace_run (textSegments raw.Events) autoTrace_init
      (fun x hx => mem_textSegments hx)
    have hc := autoTrace_commit h
    refine ⟨_, ?_, hc.groups_ne, hc.texts, hc.starts⟩
    rw [flatten_snoc, e]
    simp

/-! ## C22: `TimestampHHMMSS` -/

theorem pad2_two_digits (n : Nat) (hn : n < 100) :
    pad2 (n : Int) = [Nat.digitChar (n / 10), Nat.digitChar (n % 10)] := by
  interval_cases n <;> rfl

theorem toDigitsCore_length_pos (b f : Nat) : ∀ (n : Nat) (tl : List Char),
    tl.length + 1 ≤ (Nat.toDigitsCore b (f + 1) n tl).length := by
  induction f with
  | zero =>
    intro n tl
    simp only [Nat.toDigitsCore]
    split <;> simp
  | succ f ih =>
    intro n tl
    rw [Nat.toDigitsCore]
    split
    · simp
    · have := ih (n / b) (Nat.digitChar (n % b) :: tl)
      simp only [List.length_cons] at this
      omega

theorem toDigits_length_ge_three {n : Nat} (h : 100 ≤ n) : 3 ≤ (Nat.toDigits 10 n).length := by
  obtain ⟨k, rfl⟩ : ∃ k, n = k + 2 := ⟨n - 2, by omega⟩
  have h1 : (k + 2) / 10 ≠ 0 := by omega
  have h2 : (k + 2) / 10 / 10 ≠ 0 := by omega
  unfold Nat.toDigits
  simp only [Nat.toDigitsCore, h1, h2, if_false]
  have := toDigitsCore_length_pos 10 k ((k + 2) / 10 / 10)
    [Nat.digitChar ((k + 2) / 10 % 10), Nat.digitChar ((k + 2) % 10)]
  simpa using this

theorem timestampHHMMSS_eq (n : Nat) :
    TimestampHHMMSS (n : Int) =
      pad2 ((n / 3600 : Nat) : Int) ++ [':'] ++ pad2 ((n % 3600 / 60 : Nat) : Int) ++ [':'] ++
        pad2 ((n % 60 : Nat) : Int) := by
  unfold TimestampHHMMSS
  simp only
  have h1 : Int.tdiv (n : Int) 3600 = ((n / 3600 : Nat) : Int) := (Int.ofNat_tdiv n 3600).symm
  have h2 : Int.tmod (n : Int) 3600 = ((n % 3600 : Nat) : Int) := (Int.ofNat_tmod n 3600).symm
  have h3 : Int.tdiv ((n % 3600 : Nat) : Int) 60 = ((n % 3600 / 60 : Nat) : Int) :=
    (Int.ofNat_tdiv (n % 3600) 60).symm
  have h4 : Int.tmod (n : Int) 60 = ((n % 60 : Nat) : Int) := (Int.ofNat_tmod n 60).symm
  rw [h1, h2, h3, h4]

/-- C22, at the failing input. 100 hours are 360000 seconds: the hour component is
written with three digits, where the comment of the function promises two digits for each
component. -/
theorem hundred_hours_three_digits :
    TimestampHHMMSS 360000 = ['1', '0', '0', ':', '0', '0', ':', '0', '0'] := by
  decide

/-- X1. For every non-negative number of seconds `n`, `TimestampHHMMSS`
returns the hour component, a colon, the minutes `(n mod 3600) / 60` with exactly two
decimal digits, a colon and the seconds `n mod 60` with exactly two decimal digits; the
hour component `n / 3600` has exactly two decimal digits when `n < 360000`, and is the
decimal numeral of `n / 3600`, of three digits or more, from 360000 on. -/
theorem timestamp_components (n : Nat) :
    TimestampHHMMSS (n : Int) =
      pad2 ((n / 3600 : Nat) : Int) ++
        [':', Nat.digitChar (n % 3600 / 60 / 10), Nat.digitChar (n % 3600 / 60 % 10),
         ':', Nat.digitChar (n % 60 / 10), Nat.digitChar (n % 60 % 10)] ∧
    (n < 360000 → pad2 ((n / 3600 : Nat) : Int) =
      [Nat.digitChar (n / 3600 / 10), Nat.digitChar (n / 3600 % 10)]) ∧
    (360000 ≤ n → pad2 ((n / 3600 : Nat) : Int) = Nat.toDigits 10 (n / 3600) ∧
      3 ≤ (Nat.toDigits 10 (n / 3600)).length) := by
  refine ⟨?_, ?_, ?_⟩
  · rw [timestampHHMMSS_eq, pad2_two_digits (n % 3600 / 60) (by omega),
      pad2_two_digits (n % 60) (by omega)]
    simp
  · intro h
    exact pad2_two_digits (n / 3600) (by omega)
  · intro h
    have h100 : 100 ≤ n / 3600 := by omega
    constructor
    · unfold pad2
      have h1 : ¬ ((n / 3600 : Nat) : Int) < 0 := by omega
      have h2 : ¬ ((n / 3600 : Nat) : Int) < 10 := by omega
      simp only [h1, h2, if_false, Int.toNat_ofNat]
    · exact toDigits_length_ge_three h100

theorem timestamp_components_witness :
    TimestampHHMMSS 65 = "00:01:05".toList ∧ TimestampHHMMSS 3661 = "01:01:01".toList :=
  ⟨((timestamp_components 65).1).trans (by decide),
   ((timestamp_components 3661).1).trans (by decide)⟩

/-! ## C29: the shortcut renderers and the merge path -/

theorem join_eq_flatten (p : List Char) (ps : List (List Char)) (sep : List Char) :
    Join (p :: ps) sep = p ++ (ps.map (fun q => sep ++ q)).flatten := by
  induction ps generalizing p with
  | nil => simp [Join]
  | cons q ps ih =>
    rw [join_cons_of_ne_nil p (by simp), ih q]
    simp

theorem join_ends {texts : List (List Char)} (hne : texts ≠ [])
    (ht : ∀ x ∈ texts, TrimSpace x = x ∧ x ≠ []) (sep : List Char) :
    (∀ c, (Join texts sep).head? = some c → isSpace c = false) ∧
    (∀ c, (Join texts sep).getLast? = some c → isSpace c = false) := by
  induction texts with
  | nil => exact absurd rfl hne
  | cons p ps ih =>
    obtain ⟨hp1, hp2⟩ := ht p (List.mem_cons_self _ _)
    have hhead : ∀ c, p.head? = some c → isSpace c = false := by
      intro c hc
      rw [← hp1] at hc
      exact trimSpace_head? hc
    have hlast : ∀ c, p.getLast? = some c → isSpace c = false := by
      intro c hc
      rw [← hp1] at hc
      exact trimSpace_last hc
    cases ps with
    | nil => exact ⟨hhead, hlast⟩
    | cons q ps =>
      have ih2 := ih (by simp) (fun x hx => ht x (List.mem_cons_of_mem _ hx))
      rw [join_cons_of_ne_nil p (by simp)]
      constructor
      · intro c hc
        cases p with
        | nil => exact absurd rfl hp2
        | cons a p => exact hhead c (by simpa using hc)
      · intro c hc
        have hj : Join (q :: ps) sep ≠ [] := by
          intro h0
          have hq := (ht q (by simp)).2
          obtain ⟨d, hd⟩ := List.exists_mem_of_ne_nil _ hq
          have := @join_cons_mem q ps d hd sep
          rw [h0] at this
          cases this
        rw [List.getLast?_append_of_ne_nil _ hj] at hc
        exact ih2.2 c hc

/-- The render loop over phrases alone writes their texts with the phrase separator
between them. -/
theorem renderLoop_phrases (request : OutputTextLayout) (ps : List Phrase)
    (ht : ∀ p ∈ ps, TrimSpace p.Text = p.Text ∧ p.Text ≠ []) : ∀ (b : Nat),
    renderLoop request true (buildEventsFromPhrases ps b) =
      (ps.map (fun p => phraseSep request ++ p.Text)).flatten := by
  induction ps with
  | nil => intro b; rfl
  | cons p ps ih =>
    intro b
    obtain ⟨h1, h2⟩ := ht p (List.mem_cons_self _ _)
    have hemp : (TrimSpace p.Text).isEmpty = false := by
      rw [h1]
      cases h : p.Text with
      | nil => exact absurd h h2
      | cons _ _ => rfl
    unfold buildEventsFromPhrases
    simp only [renderLoop, Bool.false_eq_true, if_false, hemp, Bool.not_true, h1,
      List.map_cons, List.flatten_cons]
    rw [ih (fun q hq => ht q (List.mem_cons_of_mem _ hq))]
    simp [h2]

theorem renderLoop_phrases_closed (request : OutputTextLayout) (p : Phrase) (ps : List Phrase)
    (ht : ∀ q ∈ p :: ps, TrimSpace q.Text = q.Text ∧ q.Text ≠ []) (b : Nat) :
    renderLoop request false (buildEventsFromPhrases (p :: ps) b) =
      Join ((p :: ps).map Phrase.Text) (phraseSep request) := by
  obtain ⟨h1, h2⟩ := ht p (List.mem_cons_self _ _)
  have hemp : (TrimSpace p.Text).isEmpty = false := by
    rw [h1]
    cases h : p.Text with
    | nil => exact absurd h h2
    | cons _ _ => rfl
  unfold buildEventsFromPhrases
  simp only [renderLoop, Bool.false_eq_true, if_false, hemp, Bool.not_false, if_true, h1,
    List.map_cons]
  rw [renderLoop_phrases request ps (fun q hq => ht q (List.mem_cons_of_mem _ hq)),
    join_eq_flatten, List.map_map]
  simp [h2, Function.comp_def]

theorem mergedStream_no_chapters (t : Transcript) (thr : Int) (hc : t.Chapters = [])
    (hs : Chronological t.Phrases) :
    mergedStream t thr = buildEventsFromPhrases t.Phrases 0 := by
  unfold mergedStream
  rw [ensureSortedPhrases_of_chronological hs, hc]
  have e : buildEvents t.Phrases (sortChapters []) thr = buildEventsFromPhrases t.Phrases 0 := by
    simp [buildEvents, sortChapters, splitChapters, chapterEvents, adjustMiddleChapters]
  rw [e]
  exact sortStable_eq_self _ _ (ordered_buildEventsFromPhrases hs 0)

/-- C29 as stated fails: for the transcript with no phrase and no chapter both shortcut
renderers return a line feed, the merge path returns the empty string. -/
theorem shortcuts_differ_on_empty_transcript :
    PlainNoChapters ⟨[], [], []⟩ = ['\n'] ∧
    transcriptWithChaptersSplit ⟨[], [], []⟩ 0 OutputTextLayout.asPlain = [] ∧
    CollapsedNoChapters ⟨[], [], []⟩ = ['\n'] ∧
    transcriptWithChaptersSplit ⟨[], [], []⟩ 0 OutputTextLayout.asCollapsed = [] := by
  decide

/-- C29, amended. For every transcript with no chapters and at least one phrase, whose
phrases are sorted ascending by timestamp and whose phrase texts are not empty and have
no leading or trailing white space, the shortcut renderers agree with the merge path:
`PlainNoChapters` is `transcriptWithChaptersSplit` with threshold 0 in the plain layout
and `CollapsedNoChapters` is the same in the collapsed layout. -/
theorem shortcuts_agree_with_merge (t : Transcript) (hc : t.Chapters = [])
    (hne : t.Phrases ≠ []) (hs : Chronological t.Phrases)
    (ht : ∀ p ∈ t.Phrases, TrimSpace p.Text = p.Text ∧ p.Text ≠ []) :
    PlainNoChapters t = transcriptWithChaptersSplit t 0 OutputTextLayout.asPlain ∧
    CollapsedNoChapters t = transcriptWithChaptersSplit t 0 OutputTextLayout.asCollapsed := by
  have htexts : ∀ x ∈ t.Phrases.map Phrase.Text, TrimSpace x = x ∧ x ≠ [] := by
    intro x hx
    obtain ⟨p, hp, rfl⟩ := List.mem_map.mp hx
    exact ht p hp
  have hmne : t.Phrases.map Phrase.Text ≠ [] := by simpa using hne
  have key : ∀ request, transcriptWithChaptersSplit t 0 request =
      Join (t.Phrases.map Phrase.Text) (phraseSep request) ++ ['\n'] := by
    intro request
    rw [transcriptWithChaptersSplit_eq t 0 request hne, mergedStream_no_chapters t 0 hc hs]
    cases hps : t.Phrases with
    | nil => exact absurd hps hne
    | cons p ps =>
      rw [hps] at ht htexts hmne
      rw [renderLoop_phrases_closed request p ps ht 0]
      congr 1
      unfold TrimRight
      apply dropRightWhile_eq_self
      intro c hcl
      have hsp := (join_ends hmne htexts (phraseSep request)).2 c hcl
      simp only [trailingCutset, decide_eq_false_iff_not, List.mem_cons, List.mem_singleton,
        List.not_mem_nil, or_false]
      intro hm
      rcases hm with h | h | h | h <;> subst h <;> revert hsp <;> decide
  refine ⟨by rw [key]; rfl, ?_⟩
  rw [key]
  unfold CollapsedNoChapters
  have hmap : t.Phrases.map (fun p => TrimSpace p.Text) = t.Phrases.map Phrase.Text := by
    apply List.map_congr_left
    intro p hp
    exact (ht p hp).1
  have he := join_ends hmne htexts [' ']
  rw [hmap, trimSpace_eq_self he.1 he.2]
  rfl

theorem shortcuts_agree_with_merge_witness :
    PlainNoChapters ⟨[], [⟨0, "a b".toList, 3, 2⟩, ⟨7, "c".toList, 1, 1⟩], []⟩ =
      transcriptWithChaptersSplit ⟨[], [⟨0, "a b".toList, 3, 2⟩, ⟨7, "c".toList, 1, 1⟩], []⟩ 0
        OutputTextLayout.asPlain ∧
    CollapsedNoChapters ⟨[], [⟨0, "a b".toList, 3, 2⟩, ⟨7, "c".toList, 1, 1⟩], []⟩ =
      transcriptWithChaptersSplit ⟨[], [⟨0, "a b".toList, 3, 2⟩, ⟨7, "c".toList, 1, 1⟩], []⟩ 0
        OutputTextLayout.asCollapsed :=
  shortcuts_agree_with_merge ⟨[], [⟨0, "a b".toList, 3, 2⟩, ⟨7, "c".toList, 1, 1⟩], []⟩ rfl
    (by decide) (by unfold Chronological; decide) (by decide)

/-! ## C21: the length of a sanitised name -/

set_option maxRecDepth 100000 in
/-- C21, at the failing input. 199 letters `a` followed by `é` (two bytes) make 201
bytes; the cut at 200 bytes splits `é`, the byte left is read as U+FFFD by
`CapitalizeFirst`, and the name returned has 202 bytes, whatever the case table. -/
theorem sanitized_name_exceeds_limit (upper : Char → Char) :
    SanitizeFilename upper (List.replicate 199 'a' ++ [Char.ofNat 233]) =
      'A' :: List.replicate 198 'a' ++ [runeError] ∧
    byteLen (SanitizeFilename upper (List.replicate 199 'a' ++ [Char.ofNat 233])) = 202 := by
  constructor <;> rfl

/-! ## C30: the runes of a sanitised name -/

theorem forbidden_is_ascii {c : Char} (h : forbiddenInName c = true) : c.toNat ≤ 127 := by
  simp only [forbiddenInName, isInvalidFileRune, Bool.or_eq_true, beq_iff_eq,
    decide_eq_true_eq] at h
  rcases h with h | ((((((((h | h) | h) | h) | h) | h) | h) | h) | h)
  all_goals first | omega | (subst h; decide)

theorem replaced_not_forbidden (c : Char) :
    forbiddenInName
      (if isInvalidFileRune (if c = ':' then '-' else c) then ' '
       else (if c = ':' then '-' else c)) = false := by
  by_cases hc : c = ':'
  · subst hc; decide
  · simp only [hc, if_false]
    by_cases hi : isInvalidFileRune c = true
    · simp only [hi, if_true]; decide
    · simp only [hi, Bool.false_eq_true, if_false, forbiddenInName, Bool.or_eq_false_iff,
        beq_eq_false_iff_ne, ne_eq]
      exact ⟨hc, by simp [hi]⟩

theorem mem_collapseSpaces {c : Char} : ∀ (l : List Char) (b : Bool),
    c ∈ collapseSpaces b l → c = ' ' ∨ c ∈ l := by
  intro l
  induction l with
  | nil => intro b h; cases h
  | cons d l ih =>
    intro b h
    unfold collapseSpaces at h
    split at h
    · split at h
      · rcases ih true h with h1 | h1
        · exact Or.inl h1
        · exact Or.inr (List.mem_cons_of_mem _ h1)
      · rcases List.mem_cons.mp h with h1 | h1
        · exact Or.inl h1
        · rcases ih true h1 with h2 | h2
          · exact Or.inl h2
          · exact Or.inr (List.mem_cons_of_mem _ h2)
    · rcases List.mem_cons.mp h with h1 | h1
      · exact Or.inr (by rw [h1]; exact List.mem_cons_self _ _)
      · rcases ih false h1 with h2 | h2
        · exact Or.inl h2
        · exact Or.inr (List.mem_cons_of_mem _ h2)

theorem mem_truncateBytes {c : Char} : ∀ (l : List Char) (n : Nat),
    c ∈ truncateBytes n l → c = runeError ∨ c ∈ l := by
  intro l
  induction l with
  | nil => intro n h; cases h
  | cons d l ih =>
    intro n h
    unfold truncateBytes at h
    split at h
    · rcases List.mem_cons.mp h with h1 | h1
      · exact Or.inr (by rw [h1]; exact List.mem_cons_self _ _)
      · rcases ih _ h1 with h2 | h2
        · exact Or.inl h2
        · exact Or.inr (List.mem_cons_of_mem _ h2)
    · exact Or.inl (List.eq_of_mem_replicate h)

theorem utf8Len_le (c : Char) : utf8Len c ≤ 4 := by
  unfold utf8Len
  split
  · omega
  · split
    · omega
    · split <;> omega

theorem truncateBytes_ne_nil {l : List Char} (h : l ≠ []) : truncateBytes maxNameBytes l ≠ [] := by
  cases l with
  | nil => exact absurd rfl h
  | cons c l =>
    unfold truncateBytes
    have := utf8Len_le c
    have h2 : utf8Len c ≤ maxNameBytes := by unfold maxNameBytes; omega
    simp [h2]

theorem upper_letter_not_forbidden (k : Nat) (h1 : 65 ≤ k) (h2 : k ≤ 90) :
    forbiddenInName (Char.ofNat k) = false := by
  interval_cases k <;> rfl

theorem toUpper_not_forbidden {upper : Char → Char}
    (hup : ∀ r : Char, 127 < r.toNat → forbiddenInName (upper r) = false) {r : Char}
    (hr : forbiddenInName r = false) : forbiddenInName (ToUpper upper r) = false := by
  unfold ToUpper
  split
  · split
    · rename_i h
      exact upper_letter_not_forbidden _ (by omega) (by omega)
    · exact hr
  · rename_i h
    exact hup r (by omega)

theorem capitalizeFirst_not_forbidden {upper : Char → Char}
    (hup : ∀ r : Char, 127 < r.toNat → forbiddenInName (upper r) = false) {l : List Char}
    (hl : ∀ c ∈ l, forbiddenInName c = false) :
    ∀ c ∈ CapitalizeFirst upper l, forbiddenInName c = false := by
  cases l with
  | nil => intro c hc; cases hc
  | cons r l =>
    intro c hc
    unfold CapitalizeFirst at hc
    rcases List.mem_cons.mp hc with h | h
    · rw [h]; exact toUpper_not_forbidden hup (hl r (List.mem_cons_self _ _))
    · exact hl c (List.mem_cons_of_mem _ h)

/-- C30. For every input string, the name returned by `SanitizeFilename` is not empty
and holds none of the characters `<`, `>`, `:`, double quote, `/`, backslash, `|`, `?`,
`*` and no control character U+0000 to U+001F, hence no path separator. The case table
of `unicode.ToUpper` is any table that maps no rune above ASCII to one of these
characters. -/
theorem sanitized_name_safe (upper : Char → Char)
    (hup : ∀ r : Char, 127 < r.toNat → forbiddenInName (upper r) = false)
    (name : List Char) :
    SanitizeFilename upper name ≠ [] ∧
      ∀ c ∈ SanitizeFilename upper name, forbiddenInName c = false := by
  have hunt : untitled ≠ [] ∧ ∀ c ∈ untitled, forbiddenInName c = false := by
    constructor
    · decide
    · decide
  unfold SanitizeFilename
  split
  · exact hunt
  · simp only
    split
    · exact hunt
    · rename_i hne hne4
      have h4 : ∀ c ∈ TrimRight (collapseSpaces false (TrimSpace
          ((name.map (fun c => if c = ':' then '-' else c)).map
            (fun c => if isInvalidFileRune c then ' ' else c)))) ['.'],
          forbiddenInName c = false := by
        intro c hc
        have h3 := (trimRight_initial _ _).subset hc
        rcases mem_collapseSpaces _ _ h3 with h2 | h2
        · rw [h2]; decide
        · have h1 := mem_of_mem_trimSpace h2
          rw [List.map_map] at h1
          obtain ⟨d, _, rfl⟩ := List.mem_map.mp h1
          exact replaced_not_forbidden d
      generalize TrimRight (collapseSpaces false (TrimSpace
          ((name.map (fun c => if c = ':' then '-' else c)).map
            (fun c => if isInvalidFileRune c then ' ' else c)))) ['.'] = clean4 at h4 hne4
      have h5 : (if byteLen clean4 > maxNameBytes then truncateBytes maxNameBytes clean4
          else clean4) ≠ [] ∧
          ∀ c ∈ (if byteLen clean4 > maxNameBytes then truncateBytes maxNameBytes clean4
            else clean4), forbiddenInName c = false := by
        split
        · refine ⟨truncateBytes_ne_nil hne4, ?_⟩
          intro c hc
          rcases mem_truncateBytes _ _ hc with h | h
          · rw [h]; decide
          · exact h4 c h
        · exact ⟨hne4, h4⟩
      generalize (if byteLen clean4 > maxNameBytes then truncateBytes maxNameBytes clean4
          else clean4) = clean5 at h5
      refine ⟨?_, capitalizeFirst_not_forbidden hup h5.2⟩
      cases clean5 with
      | nil => exact absurd rfl h5.1
      | cons r l => simp [CapitalizeFirst]

theorem sanitized_name_safe_witness :
    SanitizeFilename id "a/b: c?.".toList ≠ [] ∧
    ∀ c ∈ SanitizeFilename id "a/b: c?.".toList, forbiddenInName c = false :=
  sanitized_name_safe id (fun r hr => by
    show forbiddenInName r = false
    cases h : forbiddenInName r with
    | false => rfl
    | true => exact absurd (forbidden_is_ascii h) (by omega)) "a/b: c?.".toList

/-! ## C23: the cap of `findRawTags` -/

theorem collectTags_length (lower : Char → Char) (found : List (List Char)) :
    ∀ (tags : List (List Char)), tags.length ≤ 64 →
      (collectTags lower tags found).length = min (tags.length + found.length) 65 := by
  induction found with
  | nil =>
    intro tags h
    simp only [collectTags, List.length_nil, Nat.add_zero]
    omega
  | cons grp found ih =>
    intro tags h
    have hl : (tags ++ [ToLower lower grp]).length = tags.length + 1 := by simp
    unfold collectTags
    simp only
    split
    · rename_i h1
      rw [hl] at h1 ⊢
      rw [List.length_cons]
      omega
    · rename_i h1
      rw [hl] at h1
      rw [ih _ (by rw [hl]; omega), hl, List.length_cons]
      omega

/-- C23, at the failing input. The test `len(tags) > 64` comes after the append, so the
loop stops with 65 tags: a text of 65 hashtags `#a` gives 65 tags. For every text the
list holds as many tags as there are matches, up to 65. -/
theorem sixty_five_tags_returned :
    (findRawTags id (fun _ => false) id (List.replicate 65 ['#', 'a', ' ']).flatten).length
      = 65 ∧
    ∀ (unescape : List Char → List Char) (letterOrNumber : Char → Bool) (lower : Char → Char)
      (text : List Char), text ≠ [] →
      (findRawTags unescape letterOrNumber lower text).length =
        min (scanTags (isTagRune letterOrNumber) none (unescape text)).length 65 := by
  constructor
  · decide
  · intro unescape letterOrNumber lower text h
    unfold findRawTags
    rw [if_neg h, collectTags_length lower _ [] (by simp)]
    simp

/-! ## C24: the nearest phrase -/

/-- C24, counterexample. The distance of the only phrase is 2^62, not below the sentinel
`1<<62 - 1`: no candidate is taken and the index is -1 on a list that is not empty. -/
theorem nearest_index_negative_beyond_sentinel :
    nearestPhraseIndex [⟨0, ['a'], 1, 1⟩] 4611686018427387904 = (-1, 4611686018427387903) := by
  decide

/-- C24, amended. For a list of phrases in chronological order that is not empty and a
timestamp whose distance to every phrase is below the sentinel `1<<62 - 1`,
`nearestPhraseIndex` returns an index of the list together with the distance of the phrase
at that index, and no phrase is nearer; the distance is 0 when a phrase is at the
timestamp. On the empty list the index is -1. -/
theorem nearest_phrase_index (ps : List Phrase) (chTs : Int) (hne : ps ≠ [])
    (hs : Chronological ps) (hd : ∀ p ∈ ps, |p.TimestampMs - chTs| < maxInt64) :
    (∃ (i : Nat) (p : Phrase), i < ps.length ∧ ps[i]? = some p ∧
      nearestPhraseIndex ps chTs = ((i : Int), |p.TimestampMs - chTs|) ∧
      (∀ q ∈ ps, |p.TimestampMs - chTs| ≤ |q.TimestampMs - chTs|) ∧
      ((∃ q ∈ ps, q.TimestampMs = chTs) → (nearestPhraseIndex ps chTs).2 = 0)) ∧
    (nearestPhraseIndex [] chTs).1 = -1 := by
  refine ⟨?_, rfl⟩
  have hn : ps.length ≠ 0 := fun h => hne (List.length_eq_zero.mp h)
  have hmax : maxInt64 = 4611686018427387903 := rfl
  obtain ⟨hle, hlo, hhi, hf⟩ := binarySearchFunc_spec hs chTs
  -- the distance of a phrase, as the code computes it on either side
  have hright : ∀ p ∈ ps, chTs ≤ p.TimestampMs →
      absInt64 (wrap64 (p.TimestampMs - chTs)) = |p.TimestampMs - chTs| ∧
      |p.TimestampMs - chTs| = p.TimestampMs - chTs := by
    intro p hp hge
    have h1 := hd p hp
    have h2 : |p.TimestampMs - chTs| = p.TimestampMs - chTs := abs_of_nonneg (by omega)
    rw [h2] at h1 ⊢
    rw [wrap64_eq (by unfold isInt64; omega), absInt64_nonneg (by omega)]
    exact ⟨rfl, rfl⟩
  have hleft : ∀ p ∈ ps, p.TimestampMs ≤ chTs →
      absInt64 (wrap64 (chTs - p.TimestampMs)) = |p.TimestampMs - chTs| ∧
      |p.TimestampMs - chTs| = chTs - p.TimestampMs := by
    intro p hp hge
    have h1 := hd p hp
    have h2 : |p.TimestampMs - chTs| = chTs - p.TimestampMs := by
      rw [abs_of_nonpos (by omega)]; omega
    rw [h2] at h1 ⊢
    rw [wrap64_eq (by unfold isInt64; omega), absInt64_nonneg (by omega)]
    exact ⟨rfl, rfl⟩
  have hzero : ∀ d : Int, (∀ q ∈ ps, d ≤ |q.TimestampMs - chTs|) → 0 ≤ d →
      (∃ q ∈ ps, q.TimestampMs = chTs) → d = 0 := by
    intro d hmin h0 ⟨q, hq, he⟩
    have := hmin q hq
    rw [he, sub_self, abs_zero] at this
    omega
  cases hb : (binarySearchFunc ps chTs).2 with
  | true =>
    obtain ⟨p, hp, hk⟩ := hf.mp hb
    have hi := (List.getElem?_eq_some.mp hp).1
    have hres : nearestPhraseIndex ps chTs = ((((binarySearchFunc ps chTs).1 : Nat) : Int), 0) := by
      unfold nearestPhraseIndex
      simp only [if_neg hn, hb, if_true]
    refine ⟨_, p, hi, hp, ?_, ?_, ?_⟩
    · rw [hres, hk, sub_self, abs_zero]
    · intro q _
      rw [hk, sub_self, abs_zero]; exact abs_nonneg _
    · intro _; rw [hres]
  | false =>
    have hnot : ∀ p, ps[(binarySearchFunc ps chTs).1]? = some p → p.TimestampMs ≠ chTs := by
      intro p hp he
      have := hf.mpr ⟨p, hp, he⟩
      rw [hb] at this; cases this
    generalize hidx : (binarySearchFunc ps chTs).1 = idx at hle hlo hhi hnot
    have hunf : nearestPhraseIndex ps chTs =
        (let s0 : Int × Int := (-1, maxInt64)
         let s1 : Int × Int :=
           match (if idx < ps.length then ps[idx]? else none) with
           | some p =>
             let d := absInt64 (wrap64 (p.TimestampMs - chTs))
             if d < s0.2 then ((idx : Int), d) else s0
           | none => s0
         let s2 : Int × Int :=
           match (if 1 ≤ idx then ps[idx - 1]? else none) with
           | some p =>
             let d := absInt64 (wrap64 (chTs - p.TimestampMs))
             if d < s1.2 then ((idx : Int) - 1, d) else s1
           | none => s1
         s2) := by
      unfold nearestPhraseIndex
      simp only [if_neg hn, hb, hidx, Bool.false_eq_true, if_false]
    rw [hunf]
    by_cases hlt : idx < ps.length
    · -- a phrase on the right
      obtain ⟨pr, hpr⟩ : ∃ pr, ps[idx]? = some pr := ⟨ps[idx], List.getElem?_eq_getElem hlt⟩
      have hprm : pr ∈ ps := List.mem_iff_getElem?.mpr ⟨_, hpr⟩
      have hge : chTs ≤ pr.TimestampMs := hhi idx pr (le_refl _) hpr
      have hgt : chTs < pr.TimestampMs := lt_of_le_of_ne hge (Ne.symm (hnot pr hpr))
      obtain ⟨hr1, hr2⟩ := hright pr hprm hge
      have hrd := hd pr hprm
      have hafter : ∀ q ∈ ps, chTs ≤ q.TimestampMs →
          |pr.TimestampMs - chTs| ≤ |q.TimestampMs - chTs| := by
        intro q hq hqge
        obtain ⟨k, hk, hqk⟩ := List.getElem_of_mem hq
        have hqk2 : ps[k]? = some q := by rw [List.getElem?_eq_getElem hk, hqk]
        have hkge : idx ≤ k := by
          by_contra hc
          have := hlo k q (by omega) hqk2
          omega
        have := chronological_index hs hkge hpr hqk2
        rw [hr2, (hright q hq hqge).2]; omega
      by_cases h1 : 1 ≤ idx
      · obtain ⟨pl, hpl⟩ : ∃ pl, ps[idx - 1]? = some pl :=
          ⟨ps[idx - 1], List.getElem?_eq_getElem (by omega)⟩
        have hplm : pl ∈ ps := List.mem_iff_getElem?.mpr ⟨_, hpl⟩
        have hlt2 : pl.TimestampMs < chTs := hlo (idx - 1) pl (by omega) hpl
        obtain ⟨hl1, hl2⟩ := hleft pl hplm (le_of_lt hlt2)
        have hbefore : ∀ q ∈ ps, q.TimestampMs < chTs →
            |pl.TimestampMs - chTs| ≤ |q.TimestampMs - chTs| := by
          intro q hq hqlt
          obtain ⟨k, hk, hqk⟩ := List.getElem_of_mem hq
          have hqk2 : ps[k]? = some q := by rw [List.getElem?_eq_getElem hk, hqk]
          have hkle : k ≤ idx - 1 := by
            by_contra hc
            have := hhi k q (by omega) hqk2
            omega
          have := chronological_index hs hkle hqk2 hpl
          rw [hl2, (hleft q hq (le_of_lt hqlt)).2]; omega
        simp only [if_pos hlt, hpr, hr1, if_pos hrd, if_pos h1, hpl, hl1]
        by_cases hc : |pl.TimestampMs - chTs| < |pr.TimestampMs - chTs|
        · rw [if_pos hc]
          have hmin : ∀ q ∈ ps, |pl.TimestampMs - chTs| ≤ |q.TimestampMs - chTs| := by
            intro q hq
            rcases lt_or_le q.TimestampMs chTs with h | h
            · exact hbefore q hq h
            · exact le_trans (le_of_lt hc) (hafter q hq h)
          refine ⟨idx - 1, pl, by omega, hpl, ?_, hmin, hzero _ hmin (abs_nonneg _)⟩
          rw [Int.ofNat_sub h1]; rfl
        · rw [if_neg hc]
          have hmin : ∀ q ∈ ps, |pr.TimestampMs - chTs| ≤ |q.TimestampMs - chTs| := by
            intro q hq
            rcases lt_or_le q.TimestampMs chTs with h | h
            · exact le_trans (not_lt.mp hc) (hbefore q hq h)
            · exact hafter q hq h
          exact ⟨idx, pr, hlt, hpr, rfl, hmin, hzero _ hmin (abs_nonneg _)⟩
      · have hmin : ∀ q ∈ ps, |pr.TimestampMs - chTs| ≤ |q.TimestampMs - chTs| := by
          intro q hq
          rcases lt_or_le q.TimestampMs chTs with h | h
          · obtain ⟨k, hk, hqk⟩ := List.getElem_of_mem hq
            have hqk2 : ps[k]? = some q := by rw [List.getElem?_eq_getElem hk, hqk]
            have := hhi k q (by omega) hqk2
            omega
          · exact hafter q hq h
        simp only [if_pos hlt, hpr, hr1, if_pos hrd, if_neg h1]
        exact ⟨idx, pr, hlt, hpr, rfl, hmin, hzero _ hmin (abs_nonneg _)⟩
    · -- every phrase is before the timestamp
      have h1 : 1 ≤ idx := by omega
      obtain ⟨pl, hpl⟩ : ∃ pl, ps[idx - 1]? = some pl :=
        ⟨ps[idx - 1], List.getElem?_eq_getElem (by omega)⟩
      have hplm : pl ∈ ps := List.mem_iff_getElem?.mpr ⟨_, hpl⟩
      have hlt2 : pl.TimestampMs < chTs := hlo (idx - 1) pl (by omega) hpl
      obtain ⟨hl1, hl2⟩ := hleft pl hplm (le_of_lt hlt2)
      have hld := hd pl hplm
      have hmin : ∀ q ∈ ps, |pl.TimestampMs - chTs| ≤ |q.TimestampMs - chTs| := by
        intro q hq
        obtain ⟨k, hk, hqk⟩ := List.getElem_of_mem hq
        have hqk2 : ps[k]? = some q := by rw [List.getElem?_eq_getElem hk, hqk]
        have hqlt : q.TimestampMs < chTs := hlo k q (by omega) hqk2
        have := chronological_index hs (show k ≤ idx - 1 by omega) hqk2 hpl
        rw [hl2, (hleft q hq (le_of_lt hqlt)).2]; omega
      simp only [if_neg hlt, if_pos h1, hpl, hl1, if_pos hld]
      refine ⟨idx - 1, pl, by omega, hpl, ?_, hmin, hzero _ hmin (abs_nonneg _)⟩
      rw [Int.ofNat_sub h1]; rfl

theorem nearest_phrase_index_witness :
    (∃ (i : Nat) (p : Phrase), i < 3 ∧
      [(⟨1000, ['a'], 1, 1⟩ : Phrase), ⟨2000, ['b'], 1, 1⟩, ⟨5000, ['c'], 1, 1⟩][i]? = some p ∧
      nearestPhraseIndex [⟨1000, ['a'], 1, 1⟩, ⟨2000, ['b'], 1, 1⟩, ⟨5000, ['c'], 1, 1⟩] 3400
        = ((i : Int), |p.TimestampMs - 3400|)) ∧
    nearestPhraseIndex [⟨1000, ['a'], 1, 1⟩, ⟨2000, ['b'], 1, 1⟩, ⟨5000, ['c'], 1, 1⟩] 3400
      = (1, 1400) := by
  have h := nearest_phrase_index
    [⟨1000, ['a'], 1, 1⟩, ⟨2000, ['b'], 1, 1⟩, ⟨5000, ['c'], 1, 1⟩] 3400 (by decide)
    (by unfold Chronological; decide) (by decide)
  obtain ⟨⟨i, p, h1, h2, h3, _⟩, _⟩ := h
  exact ⟨⟨i, p, h1, h2, h3⟩, by decide⟩

/-! ## C25: the order of the chapter headings -/

/-- C25, at the failing input. Phrases at 1000 ms and 5000 ms, chapter `A` at 1 s and
chapter `B` at 2 s, threshold 0. `A` is not after the first phrase and keeps 1000 ms; `B`
is moved just before its nearest phrase, to 999 ms: the heading of `B` is written before
the heading of `A`, in both layouts. -/
theorem later_chapter_rendered_first :
    transcriptWithChaptersSplit
        ⟨[], [⟨1000, ['P', '1'], 2, 1⟩, ⟨5000, ['P', '2'], 2, 1⟩], [⟨1, ['A']⟩, ⟨2, ['B']⟩]⟩
        0 OutputTextLayout.asPlain
      = ['#', '#', ' ', 'B', '\n', '\n', '#', '#', ' ', 'A', '\n', '\n',
         'P', '1', '\n', 'P', '2', '\n'] ∧
    transcriptWithChaptersSplit
        ⟨[], [⟨1000, ['P', '1'], 2, 1⟩, ⟨5000, ['P', '2'], 2, 1⟩], [⟨1, ['A']⟩, ⟨2, ['B']⟩]⟩
        0 OutputTextLayout.asCollapsed
      = ['#', '#', ' ', 'B', '\n', '#', '#', ' ', 'A', '\n',
         'P', '1', ' ', 'P', '2', '\n'] ∧
    buildEvents [⟨1000, ['P', '1'], 2, 1⟩, ⟨5000, ['P', '2'], 2, 1⟩] [⟨1, ['A']⟩, ⟨2, ['B']⟩] 0
      = [⟨1000, true, ['A'], 0⟩, ⟨1000, false, ['P', '1'], 1⟩, ⟨5000, false, ['P', '2'], 2⟩,
         ⟨999, true, ['B'], 3⟩] := by
  decide

/-! ## Concrete instances -/

theorem runsFollowedByText_of_check (s : List Char) (h : runsFollowedByTextB s = true) :
    RunsFollowedByText s := by
  induction s with
  | nil => intro pre t post hp _; cases pre <;> cases hp
  | cons a s ih =>
    simp only [runsFollowedByTextB, Bool.and_eq_true] at h
    intro pre t post hp ht
    cases pre with
    | nil =>
      injection hp with h1 h2
      subst h1; subst h2
      have h3 := h.1
      simp only [ht, if_true] at h3
      split at h3
      · rename_i c rest hd
        exact ⟨c, rest, hd, by simpa using h3⟩
      · cases h3
    | cons b pre =>
      injection hp with h1 h2
      exact ih h.2 pre t post h2 ht

/-- Instance of C1: phrases at 0 and 100 s, chapter at 50 s. -/
theorem tie_attaches_to_later_phrase_witness :
    nearestPhraseIndex [⟨0, "phrase1".toList, 7, 1⟩, ⟨100000, "phrase2".toList, 7, 1⟩]
      (Milliseconds 50) = (1, 50000) :=
  (tie_attaches_to_later_phrase
    ⟨[], [⟨0, "phrase1".toList, 7, 1⟩, ⟨100000, "phrase2".toList, 7, 1⟩], [⟨50, "Chap".toList⟩]⟩
    OutputTextLayout.asPlain ⟨50, "Chap".toList⟩ 0 ⟨0, "phrase1".toList, 7, 1⟩
    ⟨100000, "phrase2".toList, 7, 1⟩ (by unfold Chronological; decide) (by decide) rfl rfl
    (by decide) (by decide) (by decide) (by decide)).1

/-- Instance of C2: phrases at 0 and 100 s, chapter at 51 s, threshold 20 s. -/
theorem threshold_prevents_nudge_witness :
    transcriptWithChaptersSplit ⟨[], [⟨0, ['A'], 1, 1⟩, ⟨100000, ['B'], 1, 1⟩], [⟨51, ['C']⟩]⟩
      20000 OutputTextLayout.asPlain = "A\n\n## C\n\nB\n".toList :=
  (threshold_prevents_nudge [] ⟨0, ['A'], 1, 1⟩ ⟨100000, ['B'], 1, 1⟩ ⟨51, ['C']⟩ 20000
    OutputTextLayout.asPlain (by decide) (by decide) (by decide) (by decide) (by decide)
    (by decide) (by decide)).2.trans (by decide)

/-- Instance of the amended C3: phrases at 0 and 100 s, chapter at 51 s, threshold 0. -/
theorem snapped_chapter_before_nearest_witness :
    ∃ (idx : Nat) (p : Phrase),
      [(⟨0, ['A'], 1, 1⟩ : Phrase), ⟨100000, ['B'], 1, 1⟩][idx]? = some p ∧
      adjustedTs ⟨51, ['C']⟩ [⟨0, ['A'], 1, 1⟩, ⟨100000, ['B'], 1, 1⟩] 0 =
        (if p.TimestampMs = 0 then 0 else p.TimestampMs - 1) :=
  let ⟨idx, p, h1, _, h3, _⟩ := snapped_chapter_before_nearest
    ⟨[], [⟨0, ['A'], 1, 1⟩, ⟨100000, ['B'], 1, 1⟩], [⟨51, ['C']⟩]⟩ ⟨51, ['C']⟩ 0
    ⟨0, ['A'], 1, 1⟩ ⟨100000, ['B'], 1, 1⟩ (by unfold Chronological; decide) (by decide)
    (by decide) rfl rfl (by decide) (by decide) (Or.inl rfl)
  ⟨idx, p, h1, h3⟩

/-- Instance of C4: two chapters at 0 s before phrases at 0 and 100 s. -/
theorem same_start_chapters_keep_input_order_witness :
    transcriptWithChaptersSplit
      ⟨[], [⟨0, ['X'], 1, 1⟩, ⟨100000, ['Y'], 1, 1⟩], [⟨0, "C1".toList⟩, ⟨0, "C2".toList⟩]⟩ 0
      OutputTextLayout.asPlain = "## C1\n\n## C2\n\nX\nY\n".toList :=
  (same_start_chapters_keep_input_order
    ⟨[], [⟨0, ['X'], 1, 1⟩, ⟨100000, ['Y'], 1, 1⟩], [⟨0, "C1".toList⟩, ⟨0, "C2".toList⟩]⟩ 0
    OutputTextLayout.asPlain 0 (by decide) (by decide)
    (by
      intro p hp
      have h : (ensureSortedPhrases [⟨0, ['X'], 1, 1⟩, ⟨100000, ['Y'], 1, 1⟩]).head? =
          some ⟨0, ['X'], 1, 1⟩ := by decide
      rw [h] at hp
      injection hp with hp
      subst hp
      decide)).2.trans (by decide)

/-- Instance of C5: no phrase, chapters at 0 and 10 s. -/
theorem no_phrases_concatenates_titles_witness :
    transcriptWithChaptersSplit ⟨[], [], [⟨0, "OnlyChap1".toList⟩, ⟨10, "OnlyChap2".toList⟩]⟩ 0
      OutputTextLayout.asPlain = "OnlyChap1OnlyChap2".toList :=
  (no_phrases_concatenates_titles
    ⟨[], [], [⟨0, "OnlyChap1".toList⟩, ⟨10, "OnlyChap2".toList⟩]⟩ 0 OutputTextLayout.asPlain
    rfl).1.trans (by decide)

/-- Instance of the amended C6: a decimal number. -/
theorem decimal_like_input_is_one_piece_witness :
    splitSegOffsetsString "2.6 meters".toList = [⟨"2.6 meters".toList, 10, false⟩] :=
  (decimal_like_input_is_one_piece "2.6 meters".toList
    (runsFollowedByText_of_check _ (by decide)) ⟨'2', by decide, by decide⟩).trans (by decide)

/-- Instance of the amended C7: an ellipsis, then a question. -/
theorem two_terminated_sentences_two_pieces_witness :
    splitSegOffsetsString "Wait... what?".toList =
      [⟨"Wait...".toList, 8, true⟩, ⟨"what?".toList, 13, true⟩] :=
  (two_terminated_sentences_two_pieces "Wait".toList "...".toList " ".toList "what".toList
    "?".toList (by decide) (by decide) (by decide) (by decide) (by decide) (by decide)
    (by decide) (by decide)).1.trans (by decide)

/-! ## C26: the rune offsets of the pieces -/

theorem emitPiece_endRune (out : List SplitPiece) (s : List Char) (k : Nat) (b : Bool)
    (h1 : out.Pairwise (fun p q => p.EndRune ≤ q.EndRune)) (h2 : ∀ p ∈ out, p.EndRune ≤ k) :
    (emitPiece out s k b).Pairwise (fun p q => p.EndRune ≤ q.EndRune) ∧
    ∀ p ∈ emitPiece out s k b, p.EndRune ≤ k := by
  rcases emitPiece_shape out s k b with h | ⟨h, _⟩
  · rw [h]; exact ⟨h1, h2⟩
  · rw [h]
    constructor
    · rw [List.pairwise_append]
      refine ⟨h1, List.pairwise_singleton _ _, ?_⟩
      intro p hp q hq
      rw [List.mem_singleton] at hq
      subst hq
      exact h2 p hp
    · intro p hp
      rcases List.mem_append.mp hp with hp | hp
      · exact h2 p hp
      · rw [List.mem_singleton] at hp
        subst hp
        exact le_refl _

/-- The rune index and the runes left add up to the length of the string, and the pieces
committed so far end at offsets in order, none beyond the rune index. -/
theorem splitLoop_endRune (N : Nat) (l : List Char) : ∀ (k : Nat) (st : SplitState),
    st.runeIndex + l.length = N + k → k ≤ l.length →
    st.out.Pairwise (fun p q => p.EndRune ≤ q.EndRune) →
    (∀ p ∈ st.out, p.EndRune ≤ st.runeIndex) →
    (splitLoop k st l).runeIndex = N ∧
    (splitLoop k st l).out.Pairwise (fun p q => p.EndRune ≤ q.EndRune) ∧
    (∀ p ∈ (splitLoop k st l).out, p.EndRune ≤ N) := by
  induction l with
  | nil =>
    intro k st h1 h2 h3 h4
    simp only [List.length_nil] at h1 h2
    have hk : st.runeIndex = N := by omega
    simp only [splitLoop]
    exact ⟨hk, h3, fun p hp => hk ▸ h4 p hp⟩
  | cons r rest ih =>
    intro k st h1 h2 h3 h4
    obtain ⟨out, sb, tb, cand, idx⟩ := st
    simp only [List.length_cons] at h1 h2
    simp only at h1 h3 h4
    have hstep : ∀ p ∈ out, p.EndRune ≤ idx + 1 := fun p hp => Nat.le_succ_of_le (h4 p hp)
    cases k with
    | succ k => simp only [splitLoop]; exact ih k _ (by simp only; omega) (by omega) h3 h4
    | zero =>
      simp only [splitLoop]
      cases cand
      · simp only [Bool.false_eq_true, if_false]
        split
        · exact ih 0 _ (by simp only; omega) (Nat.zero_le _) h3 hstep
        · exact ih 0 _ (by simp only; omega) (Nat.zero_le _) h3 hstep
      · simp only [if_true]
        split
        · exact ih 0 _ (by simp only; omega) (Nat.zero_le _) h3 hstep
        · split
          · rename_i hsp
            have hlen : ((r :: rest).takeWhile isSpace).length ≤ rest.length + 1 := by
              have := List.Sublist.length_le (List.takeWhile_sublist (l := r :: rest) isSpace)
              simpa using this
            have hpos : 1 ≤ ((r :: rest).takeWhile isSpace).length := by
              simp [List.takeWhile, hsp]
            obtain ⟨e1, e2⟩ := emitPiece_endRune out (sb ++ tb)
              (idx + ((r :: rest).takeWhile isSpace).length) (decide (tb.length > 0)) h3
              (fun p hp => Nat.le_trans (h4 p hp) (Nat.le_add_right _ _))
            exact ih _ _ (by simp only; omega) (by omega) e1 e2
          · exact ih 0 _ (by simp only; omega) (Nat.zero_le _) h3 hstep

/-- C26. The `EndRune` values of the pieces of `splitSegOffsetsString` never decrease
from a piece to a later one, and each is at most the number of runes of the string (the
offsets are counted from 0 upwards). -/
theorem end_runes_ordered_and_bounded (s : List Char) :
    (splitSegOffsetsString s).Pairwise (fun p q => p.EndRune ≤ q.EndRune) ∧
    (splitSegOffsetsString s).Chain' (fun p q => p.EndRune ≤ q.EndRune) ∧
    ∀ p ∈ splitSegOffsetsString s, 0 ≤ p.EndRune ∧ p.EndRune ≤ s.length := by
  have key : (splitSegOffsetsString s).Pairwise (fun p q => p.EndRune ≤ q.EndRune) ∧
      ∀ p ∈ splitSegOffsetsString s, p.EndRune ≤ s.length := by
    unfold splitSegOffsetsString
    split
    · exact ⟨List.Pairwise.nil, by simp⟩
    · obtain ⟨h1, h2, h3⟩ := splitLoop_endRune s.length s 0 ⟨[], [], [], false, 0⟩
        (by simp) (Nat.zero_le _) List.Pairwise.nil (by simp)
      generalize splitLoop 0 ⟨[], [], [], false, 0⟩ s = st at h1 h2 h3
      unfold splitFlush
      split
      · rw [h1]; exact emitPiece_endRune _ _ _ _ h2 h3
      · split
        · rw [h1]; exact emitPiece_endRune _ _ _ _ h2 h3
        · exact ⟨h2, h3⟩
  exact ⟨key.1, List.Pairwise.chain' key.1, fun p hp => ⟨Nat.zero_le _, key.2 p hp⟩⟩

/-! ## C27: the words of a manual transcript -/

theorem fields_eq_nil_of_normalized_nil {s : List Char} (h : normalizeWhitespace s = []) :
    Fields s = [] := by
  rw [← fields_normalizeWhitespace s, h]; rfl

theorem emitPiece_fields (out : List SplitPiece) (s : List Char) (k : Nat) (b : Bool) :
    (((emitPiece out s k b).map SplitPiece.Text).map Fields).flatten =
      ((out.map SplitPiece.Text).map Fields).flatten ++ Fields s := by
  unfold emitPiece
  simp only [trimSpace_normalizeWhitespace]
  by_cases h : normalizeWhitespace s = []
  · simp [h, fields_eq_nil_of_normalized_nil h]
  · simp [h, fields_normalizeWhitespace]

/-- The words of the pieces committed and of the two buffers, followed by the words of
the runes left, are the same before and after the loop. -/
theorem splitLoop_fields (l : List Char) : ∀ (k : Nat) (st : SplitState),
    (st.candidat = false → st.terminatorBuf = []) →
    (((splitLoop k st l).out.map SplitPiece.Text).map Fields).flatten ++
        Fields ((splitLoop k st l).sb ++ (splitLoop k st l).terminatorBuf) =
      ((st.out.map SplitPiece.Text).map Fields).flatten ++
        Fields (st.sb ++ st.terminatorBuf ++ l.drop k) ∧
    ((splitLoop k st l).candidat = false → (splitLoop k st l).terminatorBuf = []) := by
  induction l with
  | nil =>
    intro k st h
    exact ⟨by simp [splitLoop], by simpa [splitLoop] using h⟩
  | cons r rest ih =>
    intro k st h
    obtain ⟨out, sb, tb, cand, idx⟩ := st
    cases k with
    | succ k =>
      simp only [splitLoop, List.drop_succ_cons]
      exact ih k _ h
    | zero =>
      simp only [splitLoop, List.drop_zero]
      cases cand
      · have htb : tb = [] := h rfl
        subst htb
        simp only [Bool.false_eq_true, if_false]
        split
        · obtain ⟨e1, e2⟩ := ih 0 ⟨out, sb, [] ++ [r], true, idx + 1⟩ (fun hc => by simp at hc)
          refine ⟨?_, e2⟩
          rw [e1]
          simp
        · obtain ⟨e1, e2⟩ := ih 0 ⟨out, sb ++ [r], [], false, idx + 1⟩ (fun _ => rfl)
          refine ⟨?_, e2⟩
          rw [e1]
          simp
      · simp only [if_true]
        split
        · obtain ⟨e1, e2⟩ := ih 0 ⟨out, sb, tb ++ [r], true, idx + 1⟩ (fun hc => by simp at hc)
          refine ⟨?_, e2⟩
          rw [e1]
          simp
        · split
          · rename_i hsp
            obtain ⟨e1, e2⟩ := ih (((r :: rest).takeWhile isSpace).length - 1)
              ⟨emitPiece out (sb ++ tb) (idx + ((r :: rest).takeWhile isSpace).length)
                (decide (tb.length > 0)), [], [], false,
                idx + ((r :: rest).takeWhile isSpace).length⟩ (fun _ => rfl)
            refine ⟨?_, e2⟩
            have hd : rest.drop (((r :: rest).takeWhile isSpace).length - 1) =
                (r :: rest).dropWhile isSpace := by
              rw [← drop_length_takeWhile isSpace (r :: rest)]
              simp [List.takeWhile, hsp]
            have hF : Fields (sb ++ tb ++ r :: rest) = Fields (sb ++ tb) ++
                Fields (rest.drop (((r :: rest).takeWhile isSpace).length - 1)) := by
              rw [hd, fields_dropWhile, fields_append_space (sb ++ tb) r hsp rest]
              have : Fields (r :: rest) = Fields rest := by
                simpa using fields_append_space [] r hsp rest
              rw [this]
            rw [e1, hF]
            simp only [emitPiece_fields, List.nil_append, List.append_assoc]
          · obtain ⟨e1, e2⟩ := ih 0 ⟨out, sb ++ tb ++ [r], [], false, idx + 1⟩ (fun _ => rfl)
            refine ⟨?_, e2⟩
            rw [e1]
            simp

/-- The words of the pieces of a string are the words of the string. -/
theorem splitSeg_fields (s : List Char) :
    (((splitSegOffsetsString s).map SplitPiece.Text).map Fields).flatten = Fields s := by
  unfold splitSegOffsetsString
  split
  · rename_i h; subst h; rfl
  · obtain ⟨h1, h2⟩ := splitLoop_fields s 0 ⟨[], [], [], false, 0⟩ (fun _ => rfl)
    simp only [List.map_nil, List.flatten_nil, List.nil_append, List.drop_zero] at h1
    rw [← h1]
    generalize splitLoop 0 ⟨[], [], [], false, 0⟩ s = st at h2
    unfold splitFlush
    split
    · exact emitPiece_fields _ _ _ _
    · rename_i hc
      have htb : st.terminatorBuf = [] := by
        cases hcand : st.candidat
        · exact h2 hcand
        · by_contra hne
          exact hc ⟨hcand, List.length_pos.mpr hne⟩
      rw [htb, List.append_nil]
      split
      · exact emitPiece_fields _ _ _ _
      · rename_i hsb
        have : st.sb = [] := by
          by_contra hne
          exact hsb (List.length_pos.mpr hne)
        rw [this]
        simp [Fields, fieldsAux]

theorem fields_builder (cb t : List Char) :
    Fields ((if cb.length > 0 then cb ++ [' '] else cb) ++ t) = Fields cb ++ Fields t := by
  by_cases h : cb.length > 0
  · rw [if_pos h, List.append_assoc]
    exact fields_append_space cb ' ' (by decide) t
  · rw [if_neg h]
    have : cb = [] := by
      by_contra hne
      exact h (List.length_pos.mpr hne)
    subst this
    rfl

theorem manualPieces_fields (S D : Int) (R : Nat) (pieces : List SplitPiece) :
    ∀ (prevEnd : Nat) (st : ManualState),
    (((manualPieces S D R prevEnd st pieces).out.map Phrase.Text).map Fields).flatten ++
        Fields (manualPieces S D R prevEnd st pieces).currBuilder =
      ((st.out.map Phrase.Text).map Fields).flatten ++ Fields st.currBuilder ++
        ((pieces.map SplitPiece.Text).map Fields).flatten := by
  induction pieces with
  | nil => intro prevEnd st; simp [manualPieces]
  | cons p rest ih =>
    intro prevEnd st
    rw [manualPieces]
    simp only
    rw [ih]
    simp only [List.map_cons, List.flatten_cons]
    have hb := fields_builder st.currBuilder p.Text
    have h0 : Fields ([] : List Char) = [] := rfl
    cases p.EndWithTerminator
    · simp only [Bool.false_eq_true, if_false, hb, List.append_assoc]
    · simp only [if_true, trimSpace_normalizeWhitespace]
      by_cases hn : normalizeWhitespace
          ((if st.currBuilder.length > 0 then st.currBuilder ++ [' '] else st.currBuilder) ++
            p.Text) = []
      · have := fields_eq_nil_of_normalized_nil hn
        rw [hb] at this
        obtain ⟨t1, t2⟩ := List.append_eq_nil.mp this
        simp [hn, t1, t2, h0]
      · simp [hn, fields_normalizeWhitespace, hb, h0]

theorem manualEvent_fields (st : ManualState) (ev : rawEvent) :
    (((manualEvent st ev).out.map Phrase.Text).map Fields).flatten ++
        Fields (manualEvent st ev).currBuilder =
      ((st.out.map Phrase.Text).map Fields).flatten ++ Fields st.currBuilder ++
        Fields (EventText ev) := by
  unfold manualEvent
  simp only
  split
  · rename_i h
    rw [fields_all_space (all_space_of_trimSpace_eq_nil h), List.append_nil]
  · rw [manualPieces_fields]
    congr 1
    split
    · simp [fields_normalizeWhitespace]
    · exact splitSeg_fields _

theorem manualEvents_fields (events : List rawEvent) : ∀ (st : ManualState),
    (((events.foldl manualEvent st).out.map Phrase.Text).map Fields).flatten ++
        Fields (events.foldl manualEvent st).currBuilder =
      ((st.out.map Phrase.Text).map Fields).flatten ++ Fields st.currBuilder ++
        ((events.map EventText).map Fields).flatten := by
  induction events with
  | nil => intro st; simp
  | cons ev rest ih =>
    intro st
    rw [List.foldl_cons, ih, manualEvent_fields]
    simp [List.append_assoc]

/-- C27. The words of the phrase texts of `TransformManualRawToPhrases`, read in order,
are the words of the cleaned texts of the events (`EventText`), read in order: no word is
dropped, repeated, cut, merged or moved. -/
theorem manual_words_preserved (raw : rawJSON3) :
    (((TransformManualRawToPhrases raw).map Phrase.Text).map Fields).flatten =
      ((raw.Events.map EventText).map Fields).flatten := by
  unfold TransformManualRawToPhrases
  have h := manualEvents_fields raw.Events ⟨[], [], -1⟩
  simp only [List.map_nil, List.flatten_nil, List.nil_append] at h
  have h0 : Fields ([] : List Char) = [] := rfl
  rw [h0, List.nil_append] at h
  rw [← h]
  generalize raw.Events.foldl manualEvent ⟨[], [], -1⟩ = st
  unfold manualFlush
  split
  · simp [fields_normalizeWhitespace]
  · rename_i hn
    have : TrimSpace st.currBuilder = [] := by
      by_contra hne
      exact hn hne
    rw [fields_all_space (all_space_of_trimSpace_eq_nil this), List.append_nil]

/-! ## C28: the loop of `splitSegOffsetsString` comes to an end -/

/-- With as much fuel as there are bytes from `j` on, the inner loop returns, at an
offset that is not before `j`. -/
theorem skipSpaces_returns (decode : List Nat → Char × Nat)
    (hsize : ∀ l : List Nat, l ≠ [] → 1 ≤ (decode l).2) (s : List Nat) :
    ∀ (fuel j c : Nat), s.length - j ≤ fuel →
      ∃ j1 c1, skipSpaces decode s fuel j c = some (j1, c1) ∧ j ≤ j1 := by
  intro fuel
  induction fuel with
  | zero =>
    intro j c h
    have : ¬ j < s.length := by omega
    exact ⟨j, c, by simp [skipSpaces, this], le_refl _⟩
  | succ fuel ih =>
    intro j c h
    by_cases hj : j < s.length
    · have hne : s.drop j ≠ [] := by
        intro h0
        have := congrArg List.length h0
        simp at this
        omega
      have hsz := hsize _ hne
      rw [skipSpaces, if_pos hj]
      simp only
      split
      · obtain ⟨j1, c1, e, hle⟩ := ih (j + 1) c (by omega)
        exact ⟨j1, c1, e, by omega⟩
      · split
        · exact ⟨j, c, rfl, le_refl _⟩
        · obtain ⟨j1, c1, e, hle⟩ := ih (j + (decode (s.drop j)).2) (c + 1) (by omega)
          exact ⟨j1, c1, e, by omega⟩
    · exact ⟨j, c, by simp [skipSpaces, hj], le_refl _⟩

/-- When the rune at `j` is a space, the inner loop stops beyond it. -/
theorem skipSpaces_advances (decode : List Nat → Char × Nat)
    (hsize : ∀ l : List Nat, l ≠ [] → 1 ≤ (decode l).2) (s : List Nat) (j : Nat)
    (hj : j < s.length) (hv : ¬ ((decode (s.drop j)).1 = runeError ∧ (decode (s.drop j)).2 = 1))
    (hsp : isSpace (decode (s.drop j)).1 = true) :
    ∃ j1 c1, skipSpaces decode s (s.length - j) j 0 = some (j1, c1) ∧ j < j1 := by
  obtain ⟨f, hf⟩ : ∃ f, s.length - j = f + 1 := ⟨s.length - j - 1, by omega⟩
  have hne : s.drop j ≠ [] := by
    intro h0
    have := congrArg List.length h0
    simp at this
    omega
  have hsz := hsize _ hne
  rw [hf, skipSpaces, if_pos hj]
  simp only [if_neg hv, hsp, Bool.not_true, Bool.false_eq_true, if_false]
  obtain ⟨j1, c1, e, hle⟩ := skipSpaces_returns decode hsize s f
    (j + (decode (s.drop j)).2) (0 + 1) (by omega)
  exact ⟨j1, c1, e, by omega⟩

/-- One iteration: the inner loop has fuel enough, the byte offset does not go back, it
stays only in the false-positive branch, which clears the candidate state. -/
theorem loopStep_cases (decode : List Nat → Char × Nat)
    (hsize : ∀ l : List Nat, l ≠ [] → 1 ≤ (decode l).2) (s : List Nat) (st : ByteState) :
    (loopStep decode s st = LoopStep.exit ∧ s.length ≤ st.idx) ∨
    (∃ st1, loopStep decode s st = LoopStep.next st1 ∧ st.idx < s.length ∧
      (st.idx < st1.idx ∨
        (st1.idx = st.idx ∧ st.candidat = true ∧ st1.candidat = false ∧
          ¬ ((decode (s.drop st.idx)).1 = runeError ∧ (decode (s.drop st.idx)).2 = 1) ∧
          isSentenceTerminatorRune (decode (s.drop st.idx)).1 = false))) := by
  by_cases hi : st.idx < s.length
  · right
    have hne : s.drop st.idx ≠ [] := by
      intro h0
      have := congrArg List.length h0
      simp at this
      omega
    have hsz := hsize _ hne
    unfold loopStep
    rw [if_pos hi]
    simp only
    by_cases hv : (decode (s.drop st.idx)).1 = runeError ∧ (decode (s.drop st.idx)).2 = 1
    · rw [if_pos hv]
      exact ⟨_, rfl, hi, Or.inl (by simp)⟩
    · rw [if_neg hv]
      cases hc : st.candidat
      · simp only [Bool.false_eq_true, if_false]
        split
        · exact ⟨_, rfl, hi, Or.inl (by simp only; omega)⟩
        · exact ⟨_, rfl, hi, Or.inl (by simp only; omega)⟩
      · simp only [if_true]
        split
        · exact ⟨_, rfl, hi, Or.inl (by simp only; omega)⟩
        · rename_i hrun
          split
          · rename_i hsp
            obtain ⟨j1, c1, e, hlt⟩ := skipSpaces_advances decode hsize s st.idx hi hv hsp
            rw [e]
            exact ⟨_, rfl, hi, Or.inl hlt⟩
          · refine ⟨_, rfl, hi, Or.inr ⟨rfl, trivial, rfl, hv, ?_⟩⟩
            simp only [Bool.or_eq_true, not_or, Bool.not_eq_true] at hrun
            exact hrun.1
  · left
    unfold loopStep
    rw [if_neg hi]
    exact ⟨rfl, by omega⟩

theorem loopStep_measure (decode : List Nat → Char × Nat)
    (hsize : ∀ l : List Nat, l ≠ [] → 1 ≤ (decode l).2) (s : List Nat) (st st1 : ByteState)
    (h : loopStep decode s st = LoopStep.next st1) :
    loopMeasure s st1 < loopMeasure s st := by
  rcases loopStep_cases decode hsize s st with ⟨e, _⟩ | ⟨st2, e, hi, hcase⟩
  · rw [e] at h; cases h
  · rw [e] at h
    injection h with h
    subst h
    unfold loopMeasure
    rcases hcase with hlt | ⟨he, hc, hc1, _, _⟩
    · split <;> split <;> omega
    · rw [he, hc, hc1]
      simp

/-- With fuel for the measure, the loop is left. -/
theorem loopRun_returns (decode : List Nat → Char × Nat)
    (hsize : ∀ l : List Nat, l ≠ [] → 1 ≤ (decode l).2) (s : List Nat) :
    ∀ (fuel : Nat) (st : ByteState), loopMeasure s st ≤ fuel →
      ∃ st1, loopRun decode s fuel st = some st1 ∧ loopStep decode s st1 = LoopStep.exit := by
  intro fuel
  induction fuel with
  | zero =>
    intro st h
    rcases loopStep_cases decode hsize s st with ⟨e, _⟩ | ⟨st2, e, hi, _⟩
    · exact ⟨st, by simp [loopRun, e], e⟩
    · unfold loopMeasure at h
      omega
  | succ fuel ih =>
    intro st h
    rcases loopStep_cases decode hsize s st with ⟨e, _⟩ | ⟨st2, e, hi, _⟩
    · exact ⟨st, by simp [loopRun, e], e⟩
    · have := loopStep_measure decode hsize s st st2 e
      obtain ⟨st1, e1, e2⟩ := ih st2 (by omega)
      exact ⟨st1, by simp [loopRun, e, e1], e2⟩

/-- More fuel does not change the state the loop is left with. -/
theorem loopRun_more_fuel (decode : List Nat → Char × Nat) (s : List Nat) :
    ∀ (fuel : Nat) (st st1 : ByteState), loopRun decode s fuel st = some st1 →
      ∀ more, loopRun decode s (fuel + more) st = some st1 := by
  intro fuel
  induction fuel with
  | zero =>
    intro st st1 h more
    cases hstep : loopStep decode s st with
    | exit =>
      simp only [loopRun, hstep] at h
      cases more <;> simp [loopRun, hstep, h]
    | next st2 => simp [loopRun, hstep] at h
    | starved => simp [loopRun, hstep] at h
  | succ fuel ih =>
    intro st st1 h more
    rw [Nat.add_right_comm]
    cases hstep : loopStep decode s st with
    | exit =>
      simp only [loopRun, hstep] at h
      simp [loopRun, hstep, h]
    | next st2 =>
      simp only [loopRun, hstep] at h
      simp only [loopRun, hstep]
      exact ih st2 st1 h more
    | starved => simp [loopRun, hstep] at h

/-- C28. Whatever the bytes of the string, valid UTF-8 or not, the loop of
`splitSegOffsetsString` is left after at most two iterations for each byte: with that
fuel, and with any more, the function returns its pieces. An iteration that leaves the
byte offset where it was is the false-positive branch; it clears the candidate state, so
any two iterations in a row move the byte offset forward. The decoder is only required to
read at least one byte of a string that is not empty. -/
theorem split_loop_terminates (decode : List Nat → Char × Nat)
    (hsize : ∀ l : List Nat, l ≠ [] → 1 ≤ (decode l).2) (s : List Nat) :
    (∃ pieces, ∀ fuel, 2 * s.length ≤ fuel →
      splitSegOffsetsBytes decode s fuel = some pieces) ∧
    (∀ st, loopStep decode s st ≠ LoopStep.starved) ∧
    (∀ st st1, loopStep decode s st = LoopStep.next st1 → st1.idx = st.idx →
      st.candidat = true ∧ st1.candidat = false) ∧
    (∀ st st1 st2, loopStep decode s st = LoopStep.next st1 →
      loopStep decode s st1 = LoopStep.next st2 → st.idx < st2.idx) := by
  refine ⟨?_, ?_, ?_, ?_⟩
  · obtain ⟨st1, e1, _⟩ := loopRun_returns decode hsize s (2 * s.length) ⟨[], [], [], false, 0, 0⟩
      (by simp [loopMeasure])
    by_cases hs : s = []
    · exact ⟨[], fun fuel _ => by simp [splitSegOffsetsBytes, hs]⟩
    · refine ⟨splitFlush ⟨st1.out, st1.sb, st1.terminatorBuf, st1.candidat, st1.runeIndex⟩, ?_⟩
      intro fuel hf
      obtain ⟨more, rfl⟩ : ∃ more, fuel = 2 * s.length + more := ⟨fuel - 2 * s.length, by omega⟩
      unfold splitSegOffsetsBytes
      rw [if_neg hs, loopRun_more_fuel decode s _ _ _ e1 more]
      rfl
  · intro st h
    rcases loopStep_cases decode hsize s st with ⟨e, _⟩ | ⟨st2, e, _, _⟩
    · rw [e] at h; cases h
    · rw [e] at h; cases h
  · intro st st1 h he
    rcases loopStep_cases decode hsize s st with ⟨e, _⟩ | ⟨st2, e, _, hcase⟩
    · rw [e] at h; cases h
    · rw [e] at h
      injection h with h
      subst h
      rcases hcase with hlt | ⟨_, hc, hc1, _, _⟩
      · omega
      · exact ⟨hc, hc1⟩
  · intro st st1 st2 h1 h2
    rcases loopStep_cases decode hsize s st with ⟨e, _⟩ | ⟨sta, e, _, hcase⟩
    · rw [e] at h1; cases h1
    · rw [e] at h1
      injection h1 with h1
      subst h1
      rcases loopStep_cases decode hsize s sta with ⟨e2, _⟩ | ⟨stb, e2, _, hcase2⟩
      · rw [e2] at h2; cases h2
      · rw [e2] at h2
        injection h2 with h2
        subst h2
        rcases hcase with hlt | ⟨he, hc, hc1, _, _⟩
        · rcases hcase2 with hlt2 | ⟨he2, _⟩
          · omega
          · omega
        · rcases hcase2 with hlt2 | ⟨_, hc2, _⟩
          · omega
          · rw [hc1] at hc2; cases hc2

theorem split_loop_terminates_witness :
    (∀ l : List Nat, l ≠ [] →
      1 ≤ ((fun l : List Nat =>
        if l.headD 0 < 128 then (Char.ofNat (l.headD 0), 1) else (runeError, 1)) l).2) ∧
    (∃ pieces, ∀ fuel, 2 * [97, 255, 46, 32, 255, 32, 98].length ≤ fuel →
      splitSegOffsetsBytes
        (fun l : List Nat =>
          if l.headD 0 < 128 then (Char.ofNat (l.headD 0), 1) else (runeError, 1))
        [97, 255, 46, 32, 255, 32, 98] fuel = some pieces) ∧
    splitSegOffsetsBytes
        (fun l : List Nat =>
          if l.headD 0 < 128 then (Char.ofNat (l.headD 0), 1) else (runeError, 1))
        [97, 255, 46, 32, 255, 32, 98] 14
      = some [⟨['a', '.'], 4, true⟩, ⟨['b'], 5, false⟩] :=
  have hsize : ∀ l : List Nat, l ≠ [] →
      1 ≤ ((fun l : List Nat =>
        if l.headD 0 < 128 then (Char.ofNat (l.headD 0), 1) else (runeError, 1)) l).2 := by
    intro l _
    show 1 ≤ (if l.headD 0 < 128 then (Char.ofNat (l.headD 0), 1) else (runeError, 1)).2
    split <;> exact Nat.le_refl 1
  ⟨hsize, (split_loop_terminates _ hsize [97, 255, 46, 32, 255, 32, 98]).1, by decide⟩

end Subtitles
